import Mathlib

/-!
# Aquarius: symmetry classification, normalization and Cartesian-to-spherical
transformation of a contracted shell

A shallow embedding of `Shell::Shell` and `Shell::cartcoef`
(`src/frameworks/molecule/shell.cxx`) and of the index unpacking loop of
`CFOUROneElectronIntegralsTask::run` (`src/integrals/cfour1eints.cxx`).

Conventions of the embedding.

* C++ `int` values are `Int`/`Nat`.  Every quantity below is bounded by the
  sizes of the tables, so 32-bit wrap-around plays no role (signed overflow is
  undefined behaviour in the source and is not modelled).
* `vector<int>` is `List Int`, `vector<vector<int>>` is `List (List Int)`.
  Reading or writing outside a vector is undefined behaviour in the source;
  the embedding makes it the explicit outcome `Fault.outOfBounds`.
  Integer division by zero is `Fault.divideByZero`, a failing `assert` is
  `Fault.assertion`.
* `double` values are real numbers (`ℝ`); the definitions that use `sqrt`
  and `pow` are therefore not executable.
-/

namespace Aquarius

/-- The ways in which the constructor can leave defined behaviour. -/
inductive Fault where
  | outOfBounds
  | divideByZero
  | assertion
  deriving DecidableEq, Repr

/-- Outcome of a statement sequence that may fault. -/
abbrev Res (α : Type) : Type := Except Fault α

/-- Checked read `v[i]` of a `vector`. -/
def read1 {α : Type} (v : List α) (i : Nat) : Res α :=
  match v[i]? with
  | some a => .ok a
  | none => .error .outOfBounds

/-- Checked write `v[i] = a` of a `vector`. -/
def write1 {α : Type} (v : List α) (i : Nat) (a : α) : Res (List α) :=
  if i < v.length then .ok (v.set i a) else .error .outOfBounds

/-- Checked read `t[r][c]` of a `vector<vector<>>` or `matrix`. -/
def read2 {α : Type} (t : List (List α)) (r c : Nat) : Res α :=
  match t[r]? with
  | some row => read1 row c
  | none => .error .outOfBounds

/-- Checked write `t[r][c] = a` of a `vector<vector<>>` or `matrix`. -/
def write2 {α : Type} (t : List (List α)) (r c : Nat) (a : α) : Res (List (List α)) :=
  match t[r]? with
  | some row =>
    if c < row.length then .ok (t.set r (row.set c a)) else .error .outOfBounds
  | none => .error .outOfBounds

/-- The result of `t.resize(rows, vector<>(cols))` on an empty table: every
entry is value-initialised. -/
def resize2 {α : Type} (rows cols : Nat) (a : α) : List (List α) :=
  List.replicate rows (List.replicate cols a)

/-- The ternary `(v < 0 ? -1 : 1)` used for parities and projections. -/
def sgn (v : Int) : Int := if v < 0 then -1 else 1

/-- Modelled from the spec: class `PointGroup` (spec section 3) is declared
outside the shown sources.  Only the members read by the constructor are kept:
`getOrder()`, `getNumIrreps()`, `character(irrep, op)` and the two parity
functions.  Their values are consulted only through a comparison with zero, so
integers stand for them. -/
structure PointGroup where
  order : Nat
  nirrep : Nat
  character : Nat → Nat → Int
  sphericalParity : Nat → Int → Nat → Int
  cartesianParity : Nat → Nat → Nat → Nat → Int

/-- Modelled from the spec: `character(irrep, op)` reads the table
`character[irrep][op]` of `nirrep` rows and `order` columns (spec section 3). -/
def PointGroup.characterAt (G : PointGroup) (irrep op : Nat) : Res Int :=
  if irrep < G.nirrep ∧ op < G.order then .ok (G.character irrep op)
  else .error .outOfBounds

/-- Modelled from the spec: class `Center` (spec section 3) is declared outside
the shown sources.  `ndegen` is `getCenters().size()`, the size of the orbit,
and `getCenterAfterOp(op)` the index of the image of the center under `op`. -/
structure Center where
  ndegen : Nat
  getCenterAfterOp : Nat → Nat

/-- Modelled from the spec: `getNFunc()` is declared in the header, which is not
among the shown sources.  Spec section 3: `2L+1` if spherical and no
contaminants, else `(L+1)(L+2)/2`. -/
def getNFunc (L : Nat) (spherical keep_contaminants : Bool) : Nat :=
  if spherical && !keep_contaminants then 2 * L + 1 else (L + 1) * (L + 2) / 2

/-- Values of `l` visited by `for (l = L; l >= 0; l -= 2)`. -/
def lDescend : Nat → List Nat
  | 0 => [0]
  | 1 => [1]
  | l + 2 => (l + 2) :: lDescend l

/-- Values of `l` visited by `for (l = L; l >= (keep_contaminants ? 0 : L); l -= 2)`. -/
def lValues (L : Nat) (keep_contaminants : Bool) : List Nat :=
  if keep_contaminants then lDescend L else [L]

/-- Pairs `(l, m)` emitted for one `l` by `for (m = l; m > 0; m--)` (first `+m`,
then `-m`), with `m` running from the argument down to `1`. -/
def mPairs (l : Nat) : Nat → List (Nat × Int)
  | 0 => []
  | m + 1 => (l, ((m + 1 : Nat) : Int)) :: (l, -((m + 1 : Nat) : Int)) :: mPairs l m

/-- The spherical functions `(l, m)` in the order in which both the parity loop
and the `cart2spher` loop of the constructor visit them. -/
def sphericalOrder (L : Nat) (keep_contaminants : Bool) : List (Nat × Int) :=
  (lValues L keep_contaminants).flatMap (fun l => mPairs l l ++ [(l, 0)])

/-- Values of `y` visited by `for (y = n; y >= 0; y--)`, paired with `x`. -/
def yDescend (L x : Nat) : Nat → List (Nat × Nat × Nat)
  | 0 => [(x, 0, L - x)]
  | y + 1 => (x, y + 1, L - x - (y + 1)) :: yDescend L x y

/-- Triples visited by `for (x = n; x >= 0; x--) for (y = L-x; y >= 0; y--)`
with `z = L-x-y`. -/
def xDescend (L : Nat) : Nat → List (Nat × Nat × Nat)
  | 0 => yDescend L 0 (L - 0)
  | x + 1 => yDescend L (x + 1) (L - (x + 1)) ++ xDescend L x

/-- The Cartesian functions `(x, y, z)` in the order in which the constructor
visits them. -/
def cartesianOrder (L : Nat) : List (Nat × Nat × Nat) := xDescend L L

/-- A loop over the elements of `xs` that also advances a running index
(`f++`, `cf++`, `sf++`): `body` receives the state, the current index and the
element. -/
def countedFor {σ β : Type} (body : σ → Nat → β → Res σ) : List β → σ → Nat → Res (σ × Nat)
  | [], s, f => .ok (s, f)
  | b :: bs, s, f => do
    let s' ← body s f b
    countedFor body bs s' (f + 1)

/-- Body of `for (op ...)` in the parity loop: the column `op` of `parity` is
written from row `0` on, one row per function (`parity[f++][op] = ...`). -/
def parityColumn (G : PointGroup) (L : Nat) (spherical keep_contaminants : Bool)
    (parity : List (List Int)) (op : Nat) : Res (List (List Int)) :=
  if spherical then
    Prod.fst <$> countedFor
      (fun t f (lm : Nat × Int) => write2 t f op (sgn (G.sphericalParity lm.1 lm.2 op)))
      (sphericalOrder L keep_contaminants) parity 0
  else
    Prod.fst <$> countedFor
      (fun t f (xyz : Nat × Nat × Nat) =>
        write2 t f op (sgn (G.cartesianParity xyz.1 xyz.2.1 xyz.2.2 op)))
      (cartesianOrder L) parity 0

/-- Lines 29-58: `parity.resize(nfunc, vector<int>(order))` followed by the loop
over the operations. -/
def buildParity (G : PointGroup) (L : Nat) (spherical keep_contaminants : Bool) :
    Res (List (List Int)) :=
  (List.range G.order).foldlM (parityColumn G L spherical keep_contaminants)
    (resize2 (getNFunc L spherical keep_contaminants) G.order 0)

/-- The vectors written by the classification loop, together with its scratch
vector `proj`. -/
structure ClassState where
  proj : List Int
  irreps : List (List Int)
  func_irrep : List (List Int)
  irrep_pos : List (List Int)
  nfunc_per_irrep : List Int
  deriving DecidableEq, Repr

/-- Lines 21-27: `proj(order)` and the four `resize` calls. -/
def ClassState.init (G : PointGroup) (nfunc : Nat) : ClassState where
  proj := List.replicate G.order 0
  irreps := resize2 nfunc G.nirrep 0
  func_irrep := resize2 nfunc G.nirrep 0
  irrep_pos := resize2 nfunc G.nirrep 0
  nfunc_per_irrep := List.replicate G.nirrep 0

/-- Lines 75-78: `for (j < ndegen) proj[j] = 0`. -/
def projReset (C : Center) (proj : List Int) : Res (List Int) :=
  (List.range C.ndegen).foldlM (fun p j => write1 p j 0) proj

/-- Lines 83-86: `proj[pos.getCenterAfterOp(op)] +=
(group.character(irrep, op)*parity[func][op] < 0 ? -1 : 1)` for every `op`. -/
def projAccumulate (G : PointGroup) (C : Center) (parity : List (List Int))
    (func irrep : Nat) (proj : List Int) : Res (List Int) :=
  (List.range G.order).foldlM
    (fun p op => do
      let ch ← G.characterAt irrep op
      let par ← read2 parity func op
      let old ← read1 p (C.getCenterAfterOp op)
      write1 p (C.getCenterAfterOp op) (old + sgn (ch * par)))
    proj

/-- Lines 88-91: `for (j < ndegen) proj[j] /= (order/ndegen)`, the truncating
division of C++. -/
def projDivide (G : PointGroup) (C : Center) (proj : List Int) : Res (List Int) :=
  (List.range C.ndegen).foldlM
    (fun p j => do
      let old ← read1 p j
      if G.order / C.ndegen = 0 then .error .divideByZero
      else write1 p j (Int.tdiv old ((G.order / C.ndegen : Nat) : Int)))
    proj

/-- Lines 96-100: `nonzero += abs(proj[j])` for `j < ndegen`. -/
def projNonzero (C : Center) (proj : List Int) : Res Int :=
  (List.range C.ndegen).foldlM
    (fun nonzero j => do
      let v ← read1 proj j
      pure (nonzero + |v|))
    0

/-- Body of `for (irrep ...)`, lines 75-108.  The state is the vectors and the
slot counter `i` of the current function. -/
def classifyIrrep (G : PointGroup) (C : Center) (parity : List (List Int)) (func : Nat)
    (st : ClassState × Nat) (irrep : Nat) : Res (ClassState × Nat) := do
  let p ← projReset C st.1.proj
  let p ← projAccumulate G C parity func irrep p
  let p ← projDivide G C p
  let nonzero ← projNonzero C p
  if nonzero > 0 then
    let irrep_pos ← write2 st.1.irrep_pos func irrep (st.2 : Int)
    let n ← read1 st.1.nfunc_per_irrep irrep
    let func_irrep ← write2 st.1.func_irrep func st.2 n
    let irreps ← write2 st.1.irreps func st.2 (irrep : Int)
    let nfunc_per_irrep ← write1 st.1.nfunc_per_irrep irrep (n + 1)
    pure ({ proj := p, irreps := irreps, func_irrep := func_irrep,
            irrep_pos := irrep_pos, nfunc_per_irrep := nfunc_per_irrep }, st.2 + 1)
  else
    pure ({ st.1 with proj := p }, st.2)

/-- Body of `for (func ...)`, lines 71-109: `i = 0`, then the loop over
`irrep < order`. -/
def classifyFunc (G : PointGroup) (C : Center) (parity : List (List Int))
    (st : ClassState) (func : Nat) : Res ClassState :=
  Prod.fst <$> (List.range G.order).foldlM (classifyIrrep G C parity func) (st, 0)

/-- Lines 69-110: the classification loop over `func < nfunc`. -/
def classify (G : PointGroup) (C : Center) (nfunc : Nat) (parity : List (List Int)) :
    Res ClassState :=
  (List.range nfunc).foldlM (classifyFunc G C parity) (ClassState.init G nfunc)

/-- The constant `PI2_N34` of line 115. -/
def PI2_N34 : ℝ := 0.25197943553838073034791409490358

/-- The factor `pow(2*zeta,(double)L+1.5)` of lines 124-125 for the primitive
pair `(j, k)`, with `zeta = sqrt(e_j*e_k)/(e_j+e_k)`. -/
noncomputable def pairOverlap (L : Nat) {nprim : Nat} (exponents : Fin nprim → ℝ)
    (j k : Fin nprim) : ℝ :=
  (2 * (Real.sqrt (exponents j * exponents k) / (exponents j + exponents k))) ^
    ((L : ℝ) + 1.5)

/-- Lines 119-127: the value of `norm` for the contraction column `i` after the
double loop over the primitives. -/
noncomputable def contractionNorm (L : Nat) {nprim ncontr : Nat} (exponents : Fin nprim → ℝ)
    (coefficients : Fin nprim → Fin ncontr → ℝ) (i : Fin ncontr) : ℝ :=
  ∑ j : Fin nprim, ∑ k : Fin nprim,
    coefficients j i * coefficients k i * pairOverlap L exponents j k

/-- The factor `PI2_N34*pow(4*exponents[j],((double)L+1.5)/2)` of line 131. -/
noncomputable def primitiveFactor (L : Nat) {nprim : Nat} (exponents : Fin nprim → ℝ)
    (j : Fin nprim) : ℝ :=
  PI2_N34 * (4 * exponents j) ^ (((L : ℝ) + 1.5) / 2)

/-- Lines 117-133: the coefficients after the normalization loop.  The norm of
column `i` is computed from column `i` before that column is rescaled, and no
other column enters it. -/
noncomputable def normalize (L : Nat) {nprim ncontr : Nat} (exponents : Fin nprim → ℝ)
    (coefficients : Fin nprim → Fin ncontr → ℝ) : Fin nprim → Fin ncontr → ℝ :=
  fun j i => coefficients j i *
    (primitiveFactor L exponents j / Real.sqrt (contractionNorm L exponents coefficients i))

/-- Modelled from the spec: `binom` is declared outside the shown sources.  Spec
section 4.5: the exact integer binomial coefficient, `0` outside the domain. -/
def binom (n k : Int) : Int :=
  if 0 ≤ k ∧ k ≤ n then (Nat.choose n.toNat k.toNat : Int) else 0

/-- Modelled from the spec: `dfact` is declared outside the shown sources.  Spec
section 4.5: the double factorial, with `dfact(-1) = 1`. -/
def dfact (n : Int) : Int :=
  if n < 0 then 1 else (Nat.doubleFactorial n.toNat : Int)

/-- Values visited by `for (int i = 0; i <= n; i++)`. -/
def upTo (n : Int) : List Int :=
  (List.range (n + 1).toNat).map Int.ofNat

/-- Lines 193-202 of `cartcoef`: the double loop accumulating `sum`; `j` is the
halved value. -/
def cartsum (l am lx j : Int) : ℝ :=
  (upTo (Int.tdiv (l - am) 2)).foldl
    (fun sum i => (upTo j).foldl
      (fun sum k =>
        let tmp : ℝ := ((binom (2 * l - 2 * i) (l + am) * binom l i * binom i j *
          binom j k * binom am (lx - 2 * k) : Int) : ℝ)
        sum + (if (i + k) % 2 = 1 then -tmp else tmp))
      sum)
    0

/-- The value of `c` after lines 177-180 of `cartcoef`. -/
noncomputable def cartprefactor (l m lx ly lz : Int) : ℝ :=
  let am := |m|
  let c : ℝ := Real.sqrt
    (((binom (2 * lx) lx * binom (2 * ly) ly * binom (2 * lz) lz * binom (l + am) am : Int) : ℝ) /
     ((binom (2 * l) l * binom l am * binom (lx + ly + lz) lx * binom (ly + lz) ly : Int) : ℝ) /
     ((dfact (2 * lx - 1) * dfact (2 * ly - 1) * dfact (2 * lz - 1) : Int) : ℝ)) / (2 : ℝ) ^ l
  if m ≠ 0 then c * Real.sqrt 2 else c

/-- `Shell::cartcoef`, lines 170-205.  The tests `(v&1)` and `(v&3)` on a
two's-complement `int` are the remainders `v % 2` and `v % 4` with a
non-negative result; `j /= 2` is the truncating division. -/
noncomputable def cartcoef (l m lx ly lz : Int) : ℝ :=
  let am := |m|
  let j := lx + ly - am
  if j % 2 = 1 then 0
  else
    let j := Int.tdiv j 2
    let c := cartprefactor l m lx ly lz
    if 0 ≤ m then
      if (am - lx) % 2 = 1 then 0
      else cartsum l am lx j * (if (am - lx) % 4 = 2 then -c else c)
    else
      if (am - lx) % 2 = 0 then 0
      else cartsum l am lx j * (if (am - lx) % 4 = 3 then -c else c)

/-- One pass `for (x ...) for (y ..., cf++) cart2spher[cf][sf] = cartcoef(l, m, x, y, L-x-y)`
of lines 146-148 (and 150-152, 155-157). -/
noncomputable def fillColumn (L : Nat) (l : Nat) (m : Int) (cart2spher : List (List ℝ))
    (sf : Nat) : Res (List (List ℝ)) :=
  Prod.fst <$> countedFor
    (fun t cf (xyz : Nat × Nat × Nat) =>
      write2 t cf sf
        (cartcoef (l : Int) m (xyz.1 : Int) (xyz.2.1 : Int) ((L : Int) - xyz.1 - xyz.2.1)))
    (cartesianOrder L) cart2spher 0

/-- Lines 138-167: the Cartesian to spherical transformation.  `resize` of the
(absent) `matrix` class is taken to value-initialise the entries. -/
noncomputable def buildCart2spher (L : Nat) (spherical keep_contaminants : Bool) :
    Res (List (List ℝ)) :=
  if spherical then do
    let st ← countedFor
      (fun t sf (lm : Nat × Int) => fillColumn L lm.1 lm.2 t sf)
      (sphericalOrder L keep_contaminants)
      (resize2 ((L + 1) * (L + 2) / 2) (getNFunc L spherical keep_contaminants) (0 : ℝ)) 0
    if st.2 = getNFunc L spherical keep_contaminants then pure st.1
    else .error .assertion
  else
    (List.range ((L + 1) * (L + 2) / 2)).foldlM
      (fun t i => write2 t i i (1 : ℝ))
      (resize2 ((L + 1) * (L + 2) / 2) ((L + 1) * (L + 2) / 2) (0 : ℝ))

/-- The members of a constructed `Shell` that the constructor computes. -/
structure Shell (nprim ncontr : Nat) where
  L : Nat
  spherical : Bool
  keep_contaminants : Bool
  exponents : Fin nprim → ℝ
  coefficients : Fin nprim → Fin ncontr → ℝ
  parity : List (List Int)
  irreps : List (List Int)
  func_irrep : List (List Int)
  irrep_pos : List (List Int)
  nfunc_per_irrep : List Int
  cart2spher : List (List ℝ)

/-- `Shell::Shell`, lines 10-168.  `exponents` has `nprim` entries and `coeffs`
has `nprim` rows and `ncontr` columns. -/
noncomputable def Shell.construct (G : PointGroup) (C : Center) (L nprim ncontr : Nat)
    (spherical keep_contaminants : Bool) (exponents : Fin nprim → ℝ)
    (coeffs : Fin nprim → Fin ncontr → ℝ) : Res (Shell nprim ncontr) := do
  let parity ← buildParity G L spherical keep_contaminants
  let cls ← classify G C (getNFunc L spherical keep_contaminants) parity
  let cart2spher ← buildCart2spher L spherical keep_contaminants
  pure { L := L, spherical := spherical, keep_contaminants := keep_contaminants,
         exponents := exponents, coefficients := normalize L exponents coeffs,
         parity := parity, irreps := cls.irreps, func_irrep := cls.func_irrep,
         irrep_pos := cls.irrep_pos, nfunc_per_irrep := cls.nfunc_per_irrep,
         cart2spher := cart2spher }

/-- Entry `t[r][c]` of a table, when both indices are in range. -/
def get2 {α : Type} (t : List (List α)) (r c : Nat) : Option α :=
  match t[r]? with
  | some row => row[c]?
  | none => none

/-- A table of `rows` rows that all have `cols` entries. -/
def IsTable {α : Type} (t : List (List α)) (rows cols : Nat) : Prop :=
  t.length = rows ∧ ∀ row ∈ t, row.length = cols


/-- The value the parity loop writes to `parity[f][op]`: the sign of the parity
of the `f`-th function of the enumeration under `op` (and the initial `0` for
an `f` that the enumeration does not reach). -/
def parityEntry (G : PointGroup) (L : Nat) (spherical keep_contaminants : Bool)
    (f op : Nat) : Int :=
  if spherical then
    match (sphericalOrder L keep_contaminants)[f]? with
    | some lm => sgn (G.sphericalParity lm.1 lm.2 op)
    | none => 0
  else
    match (cartesianOrder L)[f]? with
    | some xyz => sgn (G.cartesianParity xyz.1 xyz.2.1 xyz.2.2 op)
    | none => 0

/-- The value held by `proj[j]` after the accumulation loop of lines 83-86,
started from a zeroed slot: the sum of the signs of `character(irrep, op) *
par op` over the operations that send the center to center `j`. -/
def projValue (G : PointGroup) (C : Center) (par : Nat → Int) (irrep j : Nat) : Int :=
  ∑ op in Finset.range G.order,
    if C.getCenterAfterOp op = j then sgn (G.character irrep op * par op) else 0

/-- The value of `nonzero` at line 101 for one function (with parity row `par`)
and one irrep. -/
def nonzeroValue (G : PointGroup) (C : Center) (par : Nat → Int) (irrep : Nat) : Int :=
  ∑ j in Finset.range C.ndegen,
    |Int.tdiv (projValue G C par irrep j) ((G.order / C.ndegen : Nat) : Int)|

/-- The table after the assignment `t[r][c] = a`. -/
def set2 {α : Type} (t : List (List α)) (r c : Nat) (a : α) : List (List α) :=
  t.set r ((t.getD r []).set c a)

/-- The sizes given to the vectors by lines 21-27. -/
def ClassState.WellSized (G : PointGroup) (nfunc : Nat) (st : ClassState) : Prop :=
  st.proj.length = G.order ∧ IsTable st.irreps nfunc G.nirrep ∧
  IsTable st.func_irrep nfunc G.nirrep ∧ IsTable st.irrep_pos nfunc G.nirrep ∧
  st.nfunc_per_irrep.length = G.nirrep

/-- Number of irreps below `k` under which the function with parity row `par`
is classified (line 101: `nonzero > 0`). -/
def classCount (G : PointGroup) (C : Center) (par : Nat → Int) (k : Nat) : Nat :=
  ((Finset.range k).filter (fun irrep => 0 < nonzeroValue G C par irrep)).card

/-- Well-formed symmetry input for the classification loop: the operations
`0 .. order-1` form a group under `mul` (identity `e`, inverses `inv`); the
character table has `order` rows, each a homomorphism into `{1, -1}`, and its
columns other than the identity's sum to zero (the table is the complete
character table of a group all of whose irreps are one-dimensional and real,
that is, of `D2h` or one of its subgroups); and `getCenterAfterOp` numbers
the cosets of the stabilizer of the center: two operations send the center to
the same place exactly if they differ by an operation that fixes it, and
every one of the `ndegen` centers of the orbit is reached. -/
structure SymmetryData (G : PointGroup) (C : Center) (mul : Nat → Nat → Nat)
    (inv : Nat → Nat) (e : Nat) : Prop where
  nirrep_eq : G.nirrep = G.order
  e_lt : e < G.order
  mul_lt : ∀ g h, g < G.order → h < G.order → mul g h < G.order
  inv_lt : ∀ g, g < G.order → inv g < G.order
  mul_assoc : ∀ g h k, g < G.order → h < G.order → k < G.order →
    mul (mul g h) k = mul g (mul h k)
  e_mul : ∀ g, g < G.order → mul e g = g
  inv_mul : ∀ g, g < G.order → mul (inv g) g = e
  mul_inv : ∀ g, g < G.order → mul g (inv g) = e
  char_pm : ∀ r g, r < G.order → g < G.order →
    G.character r g = 1 ∨ G.character r g = -1
  char_mul : ∀ r g h, r < G.order → g < G.order → h < G.order →
    G.character r (mul g h) = G.character r g * G.character r h
  char_sum : ∀ g, g < G.order → g ≠ e → ∑ r in Finset.range G.order, G.character r g = 0
  center_lt : ∀ g, g < G.order → C.getCenterAfterOp g < C.ndegen
  center_onto : ∀ j, j < C.ndegen → ∃ g, g < G.order ∧ C.getCenterAfterOp g = j
  center_coset : ∀ g h, g < G.order → h < G.order →
    (C.getCenterAfterOp g = C.getCenterAfterOp h ↔
      C.getCenterAfterOp (mul (inv g) h) = C.getCenterAfterOp e)

/-- A row of the parity table that is a homomorphism into `{1, -1}`: the
function is carried to plus or minus itself by every operation. -/
structure IsParityRow (G : PointGroup) (mul : Nat → Nat → Nat) (par : Nat → Int) : Prop where
  pm : ∀ g, g < G.order → par g = 1 ∨ par g = -1
  mul : ∀ g h, g < G.order → h < G.order → par (mul g h) = par g * par h

/-- The sign contributed by operation `g` to the projection on irrep `r`. -/
def twisted (G : PointGroup) (par : Nat → Int) (r g : Nat) : Int :=
  sgn (G.character r g * par g)

/-- The operations that leave the center in place. -/
def stabilizer (G : PointGroup) (C : Center) (e : Nat) : Finset Nat :=
  (Finset.range G.order).filter (fun h => C.getCenterAfterOp h = C.getCenterAfterOp e)

/-- The value the spherical branch writes to `cart2spher[cf][sf]`: `cartcoef`
at the `sf`-th spherical and the `cf`-th Cartesian function. -/
noncomputable def cart2spherEntry (L : Nat) (keep_contaminants : Bool) (cf sf : Nat) : ℝ :=
  match (cartesianOrder L)[cf]?, (sphericalOrder L keep_contaminants)[sf]? with
  | some xyz, some lm =>
    cartcoef (lm.1 : Int) lm.2 (xyz.1 : Int) (xyz.2.1 : Int) ((L : Int) - xyz.1 - xyz.2.1)
  | _, _ => 0

/-- Example input: the point group `Cs` (the identity and the reflection in the
`xy` plane), with its two irreps `A'` and `A''`. -/
def groupCs : PointGroup where
  order := 2
  nirrep := 2
  character := fun irrep op => if irrep = 1 ∧ op = 1 then -1 else 1
  sphericalParity := fun l m op => if op = 1 ∧ ((l : Int) + m) % 2 = 1 then -1 else 1
  cartesianParity := fun _ _ z op => if op = 1 ∧ z % 2 = 1 then -1 else 1

/-- Example input: a center off the mirror plane of `Cs`; the reflection carries
it to the second center of its orbit. -/
def centerOffPlane : Center where
  ndegen := 2
  getCenterAfterOp := fun op => op

/-- Example input: the point group `C1`. -/
def groupC1 : PointGroup where
  order := 1
  nirrep := 1
  character := fun _ _ => 1
  sphericalParity := fun _ _ _ => 1
  cartesianParity := fun _ _ _ _ => 1

/-- Example input: a center whose orbit is itself. -/
def centerAlone : Center where
  ndegen := 1
  getCenterAfterOp := fun _ => 0

/-- Example input: the point group `C3v` (operations `E, C3, C3^2` and three
mirror planes; irreps `A1`, `A2`, `E`), which has six operations and three
irreps.  The parities are placeholders: only the sizes and the signs of the
characters matter to the constructor. -/
def groupC3v : PointGroup where
  order := 6
  nirrep := 3
  character := fun irrep op =>
    (([[1, 1, 1, 1, 1, 1], [1, 1, 1, -1, -1, -1], [2, -1, -1, 0, 0, 0]] : List (List Int)).getD
      irrep []).getD op 0
  sphericalParity := fun _ _ _ => 1
  cartesianParity := fun _ _ _ _ => 1

/-- Example input: a center in general position under `C3v`; its orbit has six
centers, one for each operation. -/
def centerGeneral : Center where
  ndegen := 6
  getCenterAfterOp := fun op => op

/-- Example input: the point group `C2v` with its four irreps. -/
def groupC2v : PointGroup where
  order := 4
  nirrep := 4
  character := fun irrep op =>
    (([[1, 1, 1, 1], [1, -1, 1, -1], [1, 1, -1, -1], [1, -1, -1, 1]] : List (List Int)).getD
      irrep []).getD op 0
  sphericalParity := fun _ _ _ => 1
  cartesianParity := fun _ _ _ _ => 1

/-- Example input: malformed orbit data, three centers under a group of order
four (`order % ndegen = 1`). -/
def centerThree : Center where
  ndegen := 3
  getCenterAfterOp := fun op => op % 3

/-! ### `CFOUROneElectronIntegralsTask::run`: unpacking a packed index
(`src/integrals/cfour1eints.cxx`, lines 87-102) -/

/-- The loop `for (p = 0; p < N[0]; p++) { if (pq+p+1 > idxs[i]) break; pq += p+1; }`
of lines 91-95.  The first argument is the number `N[0] - p` of values of `p`
still to be tried; the result is the final `(p, pq)`. -/
def unpackScan (idx0 : Int) : Nat → Nat → Nat → Nat × Nat
  | 0, p, pq => (p, pq)
  | k + 1, p, pq =>
    if ((pq : Int) + (p : Int) + 1 > idx0) then (p, pq)
    else unpackScan idx0 k (p + 1) (pq + (p + 1))

/-- The pair `(p, q)` of lines 89-96 for the packed index `idx` as read from the
file (1-based): `idxs[i]--`, the scan, and `q = idxs[i]-pq`. -/
def unpackIndex (N : Nat) (idx : Int) : Int × Int :=
  let idx0 := idx - 1
  let r := unpackScan idx0 N 0 0
  ((r.1 : Int), idx0 - (r.2 : Int))

/-- The entries appended to `pairs` by lines 97-101 for the packed index `idx`
and the integral `v`: one at `p+q*N[0]` and, if `p != q`, one at `q+p*N[0]`. -/
def unpackPairs {α : Type} (N : Nat) (idx : Int) (v : α) : List (Int × α) :=
  let pq := unpackIndex N idx
  if pq.1 ≠ pq.2 then [(pq.1 + pq.2 * N, v), (pq.2 + pq.1 * N, v)]
  else [(pq.1 + pq.2 * N, v)]

/-- The number `n(n+1)/2` of packed indices below row `n`. -/
def triangle (n : Nat) : Nat := n * (n + 1) / 2

/-- Number of functions below `F` that the classification loop classifies under
irrep `r` (`par f` is the parity row of function `f`). -/
def funcCount (G : PointGroup) (C : Center) (par : Nat → Nat → Int) (r F : Nat) : Nat :=
  ((Finset.range F).filter
    (fun f => r < G.order ∧ 0 < nonzeroValue G C (par f) r)).card

/-- The irreps under which the function with parity row `par` is classified, in
the order in which the loop over `irrep` meets them. -/
def classifiedIrreps (G : PointGroup) (C : Center) (par : Nat → Int) : List Nat :=
  (List.range G.order).filter (fun r => decide (0 < nonzeroValue G C par r))

/-- What the classification loop has written for function `f` and an irrep `r`
under which it is classified: the slot of `r` in `irrep_pos[f][r]`, `r` itself in
that slot of `irreps[f]`, and in that slot of `func_irrep[f]` the number of
earlier functions classified under `r`. -/
def Recorded (G : PointGroup) (C : Center) (par : Nat → Nat → Int) (st : ClassState)
    (f r : Nat) : Prop :=
  get2 st.irrep_pos f r = some (classCount G C (par f) r : Int) ∧
  get2 st.irreps f (classCount G C (par f) r) = some (r : Int) ∧
  get2 st.func_irrep f (classCount G C (par f) r) = some (funcCount G C par r f : Int)

/-- Invariant of the classification loop when the functions below `F` and, for
the function `F`, the irreps below `R` have been processed. -/
def ClassInv (G : PointGroup) (C : Center) (par : Nat → Nat → Int) (nfunc : Nat)
    (st : ClassState) (F R : Nat) : Prop :=
  st.WellSized G nfunc ∧
  (∀ f r, (f < F ∨ (f = F ∧ r < R)) → r < G.order →
    0 < nonzeroValue G C (par f) r → Recorded G C par st f r) ∧
  (∀ r, r < G.nirrep → st.nfunc_per_irrep.getD r 0 =
    (funcCount G C par r F : Int) +
      (if r < R ∧ r < G.order ∧ 0 < nonzeroValue G C (par F) r then 1 else 0))

/-- Example input: a center on the threefold axis of `C3v`; every operation
leaves it in place. -/
def centerOnAxis : Center where
  ndegen := 1
  getCenterAfterOp := fun _ => 0

/-- The double loop of `cartcoef` carried out in the integers; every term of the
sum is an integer, so this is the value of `sum` before its use as a `double`. -/
def cartsumInt (l am lx j : Int) : Int :=
  (upTo (Int.tdiv (l - am) 2)).foldl
    (fun sum i => (upTo j).foldl
      (fun sum k =>
        let tmp : Int := binom (2 * l - 2 * i) (l + am) * binom l i * binom i j *
          binom j k * binom am (lx - 2 * k)
        sum + (if (i + k) % 2 = 1 then -tmp else tmp))
      sum)
    0

/-- The matrix `cart2spher` written by the spherical branch for `L = 2` with
contaminants: rows are the Cartesian functions `xx, xy, xz, yy, yz, zz`,
columns the spherical functions `(l, m) = (2,2), (2,-2), (2,1), (2,-1), (2,0),
(0,0)`. -/
noncomputable def dShellMatrix : Matrix (Fin 6) (Fin 6) ℝ :=
  Matrix.of (fun cf sf => cart2spherEntry 2 true cf.val sf.val)

/-- The values of the entries of `dShellMatrix`. -/
noncomputable def dShellValues : Matrix (Fin 6) (Fin 6) ℝ :=
  !![1 / 2, 0, 0, 0, -(Real.sqrt (1 / 3) / 2), 0;
     0, 1, 0, 0, 0, 0;
     0, 0, 1, 0, 0, 0;
     -(1 / 2), 0, 0, 0, -(Real.sqrt (1 / 3) / 2), 0;
     0, 0, 0, 1, 0, 0;
     0, 0, 0, 0, Real.sqrt (1 / 3), Real.sqrt 2]

/-- A right inverse of `dShellValues`. -/
noncomputable def dShellInverse : Matrix (Fin 6) (Fin 6) ℝ :=
  !![1, 0, 0, -1, 0, 0;
     0, 1, 0, 0, 0, 0;
     0, 0, 1, 0, 0, 0;
     0, 0, 0, 0, 1, 0;
     -(1 / Real.sqrt (1 / 3)), 0, 0, -(1 / Real.sqrt (1 / 3)), 0, 0;
     1 / Real.sqrt 2, 0, 0, 1 / Real.sqrt 2, 0, 1 / Real.sqrt 2]

/-! ## Tables -/

theorem isTable_resize2 {α : Type} (rows cols : Nat) (a : α) :
    IsTable (resize2 rows cols a) rows cols := by
  refine ⟨by simp [resize2], ?_⟩
  intro row hrow
  simp only [resize2] at hrow
  rw [List.eq_of_mem_replicate hrow]
  simp

theorem get2_resize2 {α : Type} (rows cols : Nat) (a : α) (r c : Nat)
    (hr : r < rows) (hc : c < cols) : get2 (resize2 rows cols a) r c = some a := by
  simp [get2, resize2, List.getElem?_replicate, hr, hc]

theorem get2_isSome {α : Type} {t : List (List α)} {rows cols r c : Nat}
    (ht : IsTable t rows cols) (hr : r < rows) (hc : c < cols) :
    ∃ a, get2 t r c = some a := by
  obtain ⟨hlen, hrows⟩ := ht
  have hr' : r < t.length := by omega
  have hrow : (t[r]).length = cols := hrows _ (List.getElem_mem _)
  refine ⟨(t[r])[c], ?_⟩
  simp [get2, List.getElem?_eq_getElem hr', List.getElem?_eq_getElem (hrow ▸ hc)]

theorem read1_eq_ok {α : Type} {v : List α} {i : Nat} (h : i < v.length) :
    read1 v i = .ok v[i] := by
  simp [read1, List.getElem?_eq_getElem h]

theorem read2_of_get2 {α : Type} {t : List (List α)} {r c : Nat} {a : α}
    (h : get2 t r c = some a) : read2 t r c = .ok a := by
  unfold get2 at h
  unfold read2
  cases hrow : t[r]? with
  | none => simp [hrow] at h
  | some row =>
    simp only [hrow] at h
    simp [read1, h]

theorem write2_spec {α : Type} {t : List (List α)} {rows cols r c : Nat} (a : α)
    (ht : IsTable t rows cols) (hr : r < rows) (hc : c < cols) :
    ∃ t', write2 t r c a = .ok t' ∧ IsTable t' rows cols ∧
      ∀ r' c', get2 t' r' c' = if r' = r ∧ c' = c then some a else get2 t r' c' := by
  obtain ⟨hlen, hrows⟩ := ht
  have hr' : r < t.length := by omega
  have hrow : (t[r]).length = cols := hrows _ (List.getElem_mem _)
  refine ⟨t.set r ((t[r]).set c a), ?_, ⟨by simpa using hlen, ?_⟩, ?_⟩
  · simp [write2, List.getElem?_eq_getElem hr', hrow, hc]
  · intro row hmem
    rcases List.mem_or_eq_of_mem_set hmem with h | h
    · exact hrows _ h
    · rw [h]; simpa using hrow
  · intro r' c'
    unfold get2
    rw [List.getElem?_set]
    by_cases h1 : r = r'
    · subst h1
      simp only [hr', if_true, true_and]
      rw [List.getElem?_set]
      by_cases h2 : c = c'
      · subst h2; simp [hrow, hc]
      · have h2' : ¬ c' = c := fun h => h2 h.symm
        simp [h2, h2', List.getElem?_eq_getElem hr']
    · have h1' : ¬ r' = r := fun h => h1 h.symm
      simp [h1, h1']

theorem isTable_set2 {α : Type} {t : List (List α)} {rows cols : Nat} (r c : Nat) (a : α)
    (ht : IsTable t rows cols) : IsTable (set2 t r c a) rows cols := by
  by_cases hr : r < t.length
  · obtain ⟨hlen, hrows⟩ := ht
    refine ⟨by simpa [set2] using hlen, ?_⟩
    intro row hmem
    rcases List.mem_or_eq_of_mem_set hmem with h | h
    · exact hrows _ h
    · rw [h, List.length_set, List.getD_eq_getElem _ _ hr]
      exact hrows _ (List.getElem_mem _)
  · have e : set2 t r c a = t := by
      unfold set2
      exact List.set_eq_of_length_le (by omega)
    rw [e]; exact ht

theorem write2_eq {α : Type} {t : List (List α)} {rows cols r c : Nat} (a : α)
    (ht : IsTable t rows cols) (hr : r < rows) (hc : c < cols) :
    write2 t r c a = .ok (set2 t r c a) := by
  obtain ⟨hlen, hrows⟩ := ht
  have hr' : r < t.length := by omega
  have hrow : (t[r]).length = cols := hrows _ (List.getElem_mem _)
  simp [write2, set2, List.getElem?_eq_getElem hr', hrow, hc, List.getD_eq_getElem _ _ hr']

theorem get2_set2 {α : Type} {t : List (List α)} {rows cols r c : Nat} (a : α)
    (ht : IsTable t rows cols) (hr : r < rows) (hc : c < cols) (r' c' : Nat) :
    get2 (set2 t r c a) r' c' = if r' = r ∧ c' = c then some a else get2 t r' c' := by
  obtain ⟨t', h1, _, h3⟩ := write2_spec a ht hr hc
  rw [write2_eq a ht hr hc] at h1
  cases h1
  exact h3 r' c'

/-! ## Enumeration orders -/

theorem length_mPairs (l m : Nat) : (mPairs l m).length = 2 * m := by
  induction m with
  | zero => rfl
  | succ m ih => simp [mPairs, ih]; omega

theorem two_mul_length_lDescend (L : Nat) :
    2 * ((lDescend L).flatMap (fun l => mPairs l l ++ [(l, (0 : Int))])).length
      = (L + 1) * (L + 2) := by
  induction L using Nat.strong_induction_on with
  | _ L ih =>
    match L with
    | 0 => simp [lDescend, mPairs]
    | 1 => simp [lDescend, mPairs]
    | L + 2 =>
      have h := ih L (by omega)
      simp only [lDescend, List.flatMap_cons, List.length_append, length_mPairs,
        List.length_singleton] at h ⊢
      nlinarith [h]

theorem length_sphericalOrder (L : Nat) (keep : Bool) :
    (sphericalOrder L keep).length = getNFunc L true keep := by
  cases keep with
  | false => simp [sphericalOrder, lValues, getNFunc, length_mPairs]
  | true =>
    have h := two_mul_length_lDescend L
    simp only [sphericalOrder, lValues, getNFunc, if_true, Bool.not_true, Bool.and_false]
    simp only [Bool.false_eq_true, if_false]
    omega

theorem length_yDescend (L x y : Nat) : (yDescend L x y).length = y + 1 := by
  induction y with
  | zero => rfl
  | succ y ih => simp [yDescend, ih]

theorem two_mul_length_xDescend (L x : Nat) (hx : x ≤ L) :
    2 * (xDescend L x).length = (x + 1) * (2 * L + 2 - x) := by
  induction x with
  | zero => simp [xDescend, length_yDescend]; omega
  | succ x ih =>
    have h := ih (by omega)
    simp only [xDescend, List.length_append, length_yDescend]
    obtain ⟨d, rfl⟩ : ∃ d, L = x + 1 + d := ⟨L - (x + 1), by omega⟩
    have e1 : x + 1 + d - (x + 1) = d := by omega
    have e2 : 2 * (x + 1 + d) + 2 - (x + 1) = x + 2 * d + 3 := by omega
    have e3 : 2 * (x + 1 + d) + 2 - x = x + 2 * d + 4 := by omega
    rw [e3] at h
    rw [e1, e2]
    nlinarith [h]

theorem length_cartesianOrder (L : Nat) :
    (cartesianOrder L).length = (L + 1) * (L + 2) / 2 := by
  have h := two_mul_length_xDescend L L (le_refl L)
  have e : 2 * L + 2 - L = L + 2 := by omega
  rw [e] at h
  unfold cartesianOrder
  omega

theorem length_cartesianOrder_eq (L : Nat) (keep : Bool) :
    (cartesianOrder L).length = getNFunc L false keep := by
  simp [length_cartesianOrder, getNFunc]

/-! ## The parity table -/

theorem countedFor_column {α β : Type} (val : β → α) (c rows cols : Nat) (hc : c < cols)
    (xs : List β) (t : List (List α)) (f : Nat)
    (ht : IsTable t rows cols) (hf : f + xs.length ≤ rows) :
    ∃ t', countedFor (fun t f b => write2 t f c (val b)) xs t f = .ok (t', f + xs.length) ∧
      IsTable t' rows cols ∧
      ∀ r c', get2 t' r c' =
        if c' = c ∧ f ≤ r ∧ r < f + xs.length then (xs[r - f]?).map val else get2 t r c' := by
  induction xs generalizing t f with
  | nil =>
    refine ⟨t, rfl, ht, ?_⟩
    intro r c'
    have : ¬ (c' = c ∧ f ≤ r ∧ r < f + ([] : List β).length) := by
      simp only [List.length_nil]; omega
    rw [if_neg this]
  | cons b bs ih =>
    simp only [List.length_cons] at hf
    obtain ⟨t1, h1, ht1, hget1⟩ := write2_spec (val b) ht (show f < rows by omega) hc
    obtain ⟨t2, h2, ht2, hget2⟩ := ih t1 (f + 1) ht1 (by omega)
    refine ⟨t2, ?_, ht2, ?_⟩
    · simp only [countedFor, h1]
      show countedFor _ bs t1 (f + 1) = _
      rw [h2]
      simp only [List.length_cons]
      congr 2
      omega
    · intro r c'
      rw [hget2, hget1]
      simp only [List.length_cons]
      by_cases hcc : c' = c
      · subst hcc
        by_cases hr1 : f + 1 ≤ r ∧ r < f + 1 + bs.length
        · have e : r - f = (r - (f + 1)) + 1 := by omega
          rw [if_pos ⟨rfl, hr1⟩, if_pos ⟨rfl, by omega, by omega⟩, e, List.getElem?_cons_succ]
        · rw [if_neg (fun h => hr1 h.2)]
          by_cases hr0 : r = f
          · subst hr0
            rw [if_pos ⟨rfl, rfl⟩, if_pos ⟨rfl, by omega, by omega⟩]
            simp
          · rw [if_neg (fun h => hr0 h.1), if_neg (fun h => by omega)]
      · rw [if_neg (fun h => hcc h.1), if_neg (fun h => hcc h.2), if_neg (fun h => hcc h.1)]

theorem parityColumn_spec (G : PointGroup) (L : Nat) (spherical keep : Bool)
    (t : List (List Int)) (op : Nat) (hop : op < G.order)
    (ht : IsTable t (getNFunc L spherical keep) G.order) :
    ∃ t', parityColumn G L spherical keep t op = .ok t' ∧
      IsTable t' (getNFunc L spherical keep) G.order ∧
      ∀ f c, get2 t' f c =
        if c = op ∧ f < getNFunc L spherical keep
        then some (parityEntry G L spherical keep f op) else get2 t f c := by
  cases spherical with
  | true =>
    have hlen := length_sphericalOrder L keep
    obtain ⟨t', h, ht', hget⟩ := countedFor_column
      (fun lm : Nat × Int => sgn (G.sphericalParity lm.1 lm.2 op)) op _ _ hop
      (sphericalOrder L keep) t 0 ht (by omega)
    refine ⟨t', ?_, ht', ?_⟩
    · simp only [parityColumn, if_true, h]; rfl
    · intro f c
      rw [hget, hlen]
      by_cases hc : c = op ∧ f < getNFunc L true keep
      · rw [if_pos ⟨hc.1, by omega, by omega⟩, if_pos hc]
        have hf : f < (sphericalOrder L keep).length := by omega
        simp [parityEntry, List.getElem?_eq_getElem hf]
      · rw [if_neg hc, if_neg (fun h => hc ⟨h.1, by omega⟩)]
  | false =>
    have hlen := length_cartesianOrder_eq L keep
    obtain ⟨t', h, ht', hget⟩ := countedFor_column
      (fun xyz : Nat × Nat × Nat => sgn (G.cartesianParity xyz.1 xyz.2.1 xyz.2.2 op)) op _ _ hop
      (cartesianOrder L) t 0 ht (by omega)
    refine ⟨t', ?_, ht', ?_⟩
    · simp only [parityColumn, Bool.false_eq_true, if_false, h]; rfl
    · intro f c
      rw [hget, hlen]
      by_cases hc : c = op ∧ f < getNFunc L false keep
      · rw [if_pos ⟨hc.1, by omega, by omega⟩, if_pos hc]
        have hf : f < (cartesianOrder L).length := by omega
        simp [parityEntry, List.getElem?_eq_getElem hf]
      · rw [if_neg hc, if_neg (fun h => hc ⟨h.1, by omega⟩)]

theorem buildParity_columns (G : PointGroup) (L : Nat) (spherical keep : Bool) (k : Nat)
    (hk : k ≤ G.order) :
    ∃ t, (List.range k).foldlM (parityColumn G L spherical keep)
        (resize2 (getNFunc L spherical keep) G.order 0) = .ok t ∧
      IsTable t (getNFunc L spherical keep) G.order ∧
      ∀ f op, f < getNFunc L spherical keep → op < k →
        get2 t f op = some (parityEntry G L spherical keep f op) := by
  induction k with
  | zero =>
    exact ⟨_, rfl, isTable_resize2 _ _ _, fun f op _ h => absurd h (Nat.not_lt_zero _)⟩
  | succ k ih =>
    obtain ⟨t, h, ht, hget⟩ := ih (by omega)
    obtain ⟨t', h', ht', hget'⟩ := parityColumn_spec G L spherical keep t k (by omega) ht
    refine ⟨t', ?_, ht', ?_⟩
    · rw [List.range_succ, List.foldlM_append, h]
      simp only [List.foldlM_cons, List.foldlM_nil]
      show (parityColumn G L spherical keep t k >>= fun a => pure a) = _
      rw [h']; rfl
    · intro f op hf hop
      rw [hget']
      by_cases e : op = k
      · rw [if_pos ⟨e, hf⟩, e]
      · rw [if_neg (fun h => e h.1)]
        exact hget f op hf (by omega)

theorem buildParity_spec (G : PointGroup) (L : Nat) (spherical keep : Bool) :
    ∃ t, buildParity G L spherical keep = .ok t ∧
      IsTable t (getNFunc L spherical keep) G.order ∧
      ∀ f op, f < getNFunc L spherical keep → op < G.order →
        get2 t f op = some (parityEntry G L spherical keep f op) :=
  buildParity_columns G L spherical keep G.order (le_refl _)

theorem sgn_eq (v : Int) : sgn v = 1 ∨ sgn v = -1 := by
  unfold sgn
  split <;> simp

theorem parityEntry_eq (G : PointGroup) (L : Nat) (spherical keep : Bool) (f op : Nat)
    (hf : f < getNFunc L spherical keep) :
    parityEntry G L spherical keep f op = 1 ∨ parityEntry G L spherical keep f op = -1 := by
  cases spherical with
  | true =>
    have hf' : f < (sphericalOrder L keep).length := by rw [length_sphericalOrder]; exact hf
    simp only [parityEntry, if_true, List.getElem?_eq_getElem hf']
    exact sgn_eq _
  | false =>
    have hf' : f < (cartesianOrder L).length := by rw [length_cartesianOrder_eq L keep]; exact hf
    simp only [parityEntry, Bool.false_eq_true, if_false, List.getElem?_eq_getElem hf']
    exact sgn_eq _

/-! ## The projection of one function on one irrep -/

theorem write1_spec {α : Type} {v : List α} {i : Nat} (a : α) (hi : i < v.length) :
    write1 v i a = .ok (v.set i a) := by
  simp [write1, hi]

theorem read1_of_getElem? {α : Type} {v : List α} {i : Nat} {a : α} (h : v[i]? = some a) :
    read1 v i = .ok a := by
  simp [read1, h]

theorem projReset_spec (C : Center) (proj : List Int) (h : C.ndegen ≤ proj.length) :
    ∃ p, projReset C proj = .ok p ∧ p.length = proj.length ∧
      ∀ j, j < C.ndegen → p[j]? = some 0 := by
  unfold projReset
  suffices H : ∀ k, k ≤ C.ndegen →
      ∃ p, (List.range k).foldlM (fun p j => write1 p j (0 : Int)) proj = .ok p ∧
        p.length = proj.length ∧ ∀ j, j < k → p[j]? = some 0 from H _ (le_refl _)
  intro k
  induction k with
  | zero => intro _; exact ⟨proj, rfl, rfl, fun j hj => absurd hj (Nat.not_lt_zero _)⟩
  | succ k ih =>
    intro hk
    obtain ⟨p, hp, hlen, hz⟩ := ih (by omega)
    refine ⟨p.set k 0, ?_, by simpa using hlen, ?_⟩
    · rw [List.range_succ, List.foldlM_append, hp]
      simp only [List.foldlM_cons, List.foldlM_nil]
      show (write1 p k (0 : Int) >>= fun a => pure a) = _
      rw [write1_spec _ (by omega)]; rfl
    · intro j hj
      rw [List.getElem?_set]
      by_cases e : k = j
      · simp [e]; omega
      · rw [if_neg e]; exact hz j (by omega)

theorem projAccumulate_spec (G : PointGroup) (C : Center) (parity : List (List Int))
    (par : Nat → Int) (func irrep : Nat) (proj : List Int)
    (hirrep : irrep < G.nirrep)
    (hpar : ∀ op, op < G.order → get2 parity func op = some (par op))
    (hc : ∀ op, op < G.order → C.getCenterAfterOp op < proj.length) :
    ∃ p, projAccumulate G C parity func irrep proj = .ok p ∧ p.length = proj.length ∧
      ∀ j, j < proj.length → p[j]? = some (proj.getD j 0 + projValue G C par irrep j) := by
  unfold projAccumulate projValue
  suffices H : ∀ k, k ≤ G.order →
      ∃ p, (List.range k).foldlM
          (fun p op => do
            let ch ← G.characterAt irrep op
            let par ← read2 parity func op
            let old ← read1 p (C.getCenterAfterOp op)
            write1 p (C.getCenterAfterOp op) (old + sgn (ch * par))) proj = .ok p ∧
        p.length = proj.length ∧
        ∀ j, j < proj.length → p[j]? = some (proj.getD j 0 +
          ∑ op in Finset.range k,
            if C.getCenterAfterOp op = j then sgn (G.character irrep op * par op) else 0)
    from H _ (le_refl _)
  intro k
  induction k with
  | zero =>
    intro _
    refine ⟨proj, rfl, rfl, ?_⟩
    intro j hj
    simp [List.getD_eq_getElem?_getD, List.getElem?_eq_getElem hj]
  | succ k ih =>
    intro hk
    obtain ⟨p, hp, hlen, hval⟩ := ih (by omega)
    have hck : C.getCenterAfterOp k < p.length := by rw [hlen]; exact hc k (by omega)
    obtain ⟨old, hold, hold_eq⟩ : ∃ old, p[C.getCenterAfterOp k]? = some old ∧
        old = proj.getD (C.getCenterAfterOp k) 0 +
          ∑ op in Finset.range k, if C.getCenterAfterOp op = C.getCenterAfterOp k
            then sgn (G.character irrep op * par op) else 0 :=
      ⟨_, hval _ (hc k (by omega)), rfl⟩
    refine ⟨p.set (C.getCenterAfterOp k) (old + sgn (G.character irrep k * par k)), ?_,
      by simpa using hlen, ?_⟩
    · rw [List.range_succ, List.foldlM_append, hp]
      simp only [List.foldlM_cons, List.foldlM_nil]
      have h1 : G.characterAt irrep k = .ok (G.character irrep k) := by
        simp [PointGroup.characterAt, hirrep]; omega
      have h2 := read2_of_get2 (hpar k (by omega))
      show ((do
            let ch ← G.characterAt irrep k
            let par ← read2 parity func k
            let old ← read1 p (C.getCenterAfterOp k)
            write1 p (C.getCenterAfterOp k) (old + sgn (ch * par))) >>= fun a => pure a) = _
      rw [h1, h2]
      show ((do
            let old ← read1 p (C.getCenterAfterOp k)
            write1 p (C.getCenterAfterOp k)
              (old + sgn (G.character irrep k * par k))) >>= fun a => pure a) = _
      rw [read1_of_getElem? hold]
      show (write1 p (C.getCenterAfterOp k) _ >>= fun a => pure a) = _
      rw [write1_spec _ hck]; rfl
    · intro j hj
      rw [List.getElem?_set, Finset.sum_range_succ]
      have hj' := hval j hj
      by_cases e : C.getCenterAfterOp k = j
      · rw [if_pos e, if_pos hck, if_pos e, hold_eq, e, add_assoc]
      · rw [if_neg e, if_neg e, hj', add_zero]

theorem projDivide_spec (G : PointGroup) (C : Center) (proj : List Int)
    (hlen : C.ndegen ≤ proj.length) (hq : C.ndegen ≤ G.order) :
    ∃ p, projDivide G C proj = .ok p ∧ p.length = proj.length ∧
      ∀ j, j < C.ndegen →
        p[j]? = some (Int.tdiv (proj.getD j 0) ((G.order / C.ndegen : Nat) : Int)) := by
  unfold projDivide
  suffices H : ∀ k, k ≤ C.ndegen →
      ∃ p, (List.range k).foldlM
          (fun p j => do
            let old ← read1 p j
            if G.order / C.ndegen = 0 then .error .divideByZero
            else write1 p j (Int.tdiv old ((G.order / C.ndegen : Nat) : Int))) proj = .ok p ∧
        p.length = proj.length ∧
        (∀ j, j < k →
          p[j]? = some (Int.tdiv (proj.getD j 0) ((G.order / C.ndegen : Nat) : Int))) ∧
        ∀ j, k ≤ j → p[j]? = proj[j]? from by
    obtain ⟨p, h1, h2, h3, _⟩ := H _ (le_refl _)
    exact ⟨p, h1, h2, h3⟩
  intro k
  induction k with
  | zero =>
    intro _
    exact ⟨proj, rfl, rfl, fun j hj => absurd hj (Nat.not_lt_zero _), fun _ _ => rfl⟩
  | succ k ih =>
    intro hk
    obtain ⟨p, hp, hl, hlo, hhi⟩ := ih (by omega)
    have hkp : k < p.length := by omega
    have hkproj : k < proj.length := by omega
    have hq0 : ¬ G.order / C.ndegen = 0 := by
      have : 0 < C.ndegen := by omega
      have := Nat.div_pos hq this
      omega
    have hold : p[k]? = some (proj.getD k 0) := by
      rw [hhi k (le_refl _), List.getD_eq_getElem _ _ hkproj, List.getElem?_eq_getElem hkproj]
    refine ⟨p.set k (Int.tdiv (proj.getD k 0) ((G.order / C.ndegen : Nat) : Int)), ?_,
      by simpa using hl, ?_, ?_⟩
    · rw [List.range_succ, List.foldlM_append, hp]
      simp only [List.foldlM_cons, List.foldlM_nil]
      show ((do
            let old ← read1 p k
            if G.order / C.ndegen = 0 then .error .divideByZero
            else write1 p k (Int.tdiv old ((G.order / C.ndegen : Nat) : Int)))
              >>= fun a => pure a) = _
      rw [read1_of_getElem? hold]
      show ((if G.order / C.ndegen = 0 then .error .divideByZero
            else write1 p k (Int.tdiv (proj.getD k 0) ((G.order / C.ndegen : Nat) : Int)))
              >>= fun a => pure a) = _
      rw [if_neg hq0, write1_spec _ hkp]; rfl
    · intro j hj
      rw [List.getElem?_set]
      by_cases e : k = j
      · subst e; rw [if_pos rfl, if_pos hkp]
      · rw [if_neg e]; exact hlo j (by omega)
    · intro j hj
      rw [List.getElem?_set, if_neg (by omega)]
      exact hhi j (by omega)

theorem projNonzero_spec (C : Center) (proj : List Int) (hlen : C.ndegen ≤ proj.length) :
    projNonzero C proj = .ok (∑ j in Finset.range C.ndegen, |proj.getD j 0|) := by
  unfold projNonzero
  suffices H : ∀ k, k ≤ C.ndegen →
      (List.range k).foldlM
          (fun nonzero j => do
            let v ← read1 proj j
            pure (nonzero + |v|)) (0 : Int)
        = (.ok (∑ j in Finset.range k, |proj.getD j 0|) : Res Int) from H _ (le_refl _)
  intro k
  induction k with
  | zero => intro _; rfl
  | succ k ih =>
    intro hk
    have hkp : k < proj.length := by omega
    rw [List.range_succ, List.foldlM_append, ih (by omega)]
    simp only [List.foldlM_cons, List.foldlM_nil]
    show ((do
          let v ← read1 proj k
          pure ((∑ j in Finset.range k, |proj.getD j 0|) + |v|)) >>= fun a => pure a) = _
    rw [read1_eq_ok hkp, Finset.sum_range_succ, List.getD_eq_getElem _ _ hkp]
    rfl

/-- The four projection loops of lines 75-100 in sequence. -/
theorem projection_spec (G : PointGroup) (C : Center) (parity : List (List Int))
    (par : Nat → Int) (func irrep : Nat) (proj : List Int)
    (hproj : proj.length = G.order) (hdeg : C.ndegen ≤ G.order)
    (hirrep : irrep < G.nirrep)
    (hpar : ∀ op, op < G.order → get2 parity func op = some (par op))
    (hc : ∀ op, op < G.order → C.getCenterAfterOp op < G.order) :
    ∃ p0 p1 p2, projReset C proj = .ok p0 ∧
      projAccumulate G C parity func irrep p0 = .ok p1 ∧
      projDivide G C p1 = .ok p2 ∧ p2.length = G.order ∧
      projNonzero C p2 = .ok (nonzeroValue G C par irrep) := by
  obtain ⟨p0, h0, l0, v0⟩ := projReset_spec C proj (by omega)
  obtain ⟨p1, h1, l1, v1⟩ := projAccumulate_spec G C parity par func irrep p0 hirrep hpar
    (by intro op hop; rw [l0, hproj]; exact hc op hop)
  obtain ⟨p2, h2, l2, v2⟩ := projDivide_spec G C p1 (by omega) hdeg
  refine ⟨p0, p1, p2, h0, h1, h2, by omega, ?_⟩
  rw [projNonzero_spec C p2 (by omega)]
  unfold nonzeroValue
  congr 1
  apply Finset.sum_congr rfl
  intro j hj
  have hj' : j < C.ndegen := Finset.mem_range.mp hj
  have e2 := v2 j hj'
  have e1 := v1 j (by omega)
  have e0 := v0 j hj'
  rw [List.getD_eq_getElem?_getD, e2]
  simp only [Option.getD_some]
  rw [List.getD_eq_getElem?_getD, e1]
  simp only [Option.getD_some]
  rw [List.getD_eq_getElem?_getD, e0]
  simp

/-! ## The classification loop -/

theorem wellSized_init (G : PointGroup) (nfunc : Nat) :
    (ClassState.init G nfunc).WellSized G nfunc := by
  refine ⟨by simp [ClassState.init], isTable_resize2 _ _ _, isTable_resize2 _ _ _,
    isTable_resize2 _ _ _, by simp [ClassState.init]⟩

theorem sum_set_succ (l : List Int) (i : Nat) (hi : i < l.length) :
    (l.set i (l.getD i 0 + 1)).sum = l.sum + 1 := by
  rw [List.sum_set, if_pos hi, List.getD_eq_getElem _ _ hi]
  have h := List.sum_take_add_sum_drop l i
  rw [List.drop_eq_getElem_cons hi, List.sum_cons] at h
  omega

theorem classifyIrrep_spec (G : PointGroup) (C : Center) (nfunc : Nat)
    (parity : List (List Int)) (par : Nat → Int) (func irrep i : Nat) (st : ClassState)
    (hst : st.WellSized G nfunc) (hdeg : C.ndegen ≤ G.order)
    (hfunc : func < nfunc) (hirrep : irrep < G.nirrep) (hi : i < G.nirrep)
    (hpar : ∀ op, op < G.order → get2 parity func op = some (par op))
    (hc : ∀ op, op < G.order → C.getCenterAfterOp op < G.order) :
    ∃ p, p.length = G.order ∧
      classifyIrrep G C parity func (st, i) irrep = .ok
        (if 0 < nonzeroValue G C par irrep then
          ({ proj := p
             irreps := set2 st.irreps func i (irrep : Int)
             func_irrep := set2 st.func_irrep func i (st.nfunc_per_irrep.getD irrep 0)
             irrep_pos := set2 st.irrep_pos func irrep (i : Int)
             nfunc_per_irrep :=
               st.nfunc_per_irrep.set irrep (st.nfunc_per_irrep.getD irrep 0 + 1) }, i + 1)
        else ({ st with proj := p }, i)) := by
  obtain ⟨hproj, hirr, hfi, hip, hnpi⟩ := hst
  obtain ⟨p0, p1, p2, h0, h1, h2, hlen, hnz⟩ :=
    projection_spec G C parity par func irrep st.proj hproj hdeg hirrep hpar hc
  refine ⟨p2, hlen, ?_⟩
  have hread : read1 st.nfunc_per_irrep irrep = .ok (st.nfunc_per_irrep.getD irrep 0) := by
    rw [read1_eq_ok (by omega), List.getD_eq_getElem _ _ (by omega)]
  simp only [classifyIrrep, h0, h1, h2, hnz, bind, Except.bind, gt_iff_lt]
  by_cases hpos : 0 < nonzeroValue G C par irrep
  · simp only [if_pos hpos, write2_eq _ hip hfunc hirrep, hread, write2_eq _ hfi hfunc hi,
      write2_eq _ hirr hfunc hi, write1_spec _ (show irrep < st.nfunc_per_irrep.length by omega)]
    rfl
  · simp only [if_neg hpos]
    rfl

theorem classCount_succ (G : PointGroup) (C : Center) (par : Nat → Int) (k : Nat) :
    classCount G C par (k + 1) =
      classCount G C par k + (if 0 < nonzeroValue G C par k then 1 else 0) := by
  unfold classCount
  rw [Finset.range_succ, Finset.filter_insert]
  by_cases h : 0 < nonzeroValue G C par k
  · rw [if_pos h, if_pos h, Finset.card_insert_of_not_mem]
    simp
  · rw [if_neg h, if_neg h, add_zero]

theorem classCount_le (G : PointGroup) (C : Center) (par : Nat → Int) (k : Nat) :
    classCount G C par k ≤ k := by
  unfold classCount
  calc _ ≤ (Finset.range k).card := Finset.card_filter_le _ _
    _ = k := Finset.card_range k

theorem classifyFunc_loop (G : PointGroup) (C : Center) (nfunc : Nat)
    (parity : List (List Int)) (par : Nat → Int) (func : Nat) (st : ClassState)
    (hst : st.WellSized G nfunc) (hdeg : C.ndegen ≤ G.order) (hirr : G.order ≤ G.nirrep)
    (hfunc : func < nfunc)
    (hpar : ∀ op, op < G.order → get2 parity func op = some (par op))
    (hc : ∀ op, op < G.order → C.getCenterAfterOp op < G.order)
    (k : Nat) (hk : k ≤ G.order) :
    ∃ st', (List.range k).foldlM (classifyIrrep G C parity func) (st, 0) =
        .ok (st', classCount G C par k) ∧ st'.WellSized G nfunc ∧
      st'.nfunc_per_irrep.sum = st.nfunc_per_irrep.sum + classCount G C par k := by
  induction k with
  | zero => exact ⟨st, rfl, hst, by simp [classCount]⟩
  | succ k ih =>
    obtain ⟨st1, h1, hst1, hsum1⟩ := ih (by omega)
    have hcount := classCount_le G C par k
    obtain ⟨p, hp, hstep⟩ := classifyIrrep_spec G C nfunc parity par func k
      (classCount G C par k) st1 hst1 hdeg hfunc (by omega) (by omega) hpar hc
    rw [List.range_succ, List.foldlM_append, h1]
    simp only [List.foldlM_cons, List.foldlM_nil]
    show ∃ st', (classifyIrrep G C parity func (st1, classCount G C par k) k
        >>= fun a => pure a) = _ ∧ _
    rw [hstep, classCount_succ]
    obtain ⟨hproj, hirr1, hfi, hip, hnpi⟩ := hst1
    by_cases hpos : 0 < nonzeroValue G C par k
    · simp only [if_pos hpos]
      refine ⟨_, rfl, ⟨hp, isTable_set2 _ _ _ hirr1, isTable_set2 _ _ _ hfi,
        isTable_set2 _ _ _ hip, by simpa using hnpi⟩, ?_⟩
      show (st1.nfunc_per_irrep.set k (st1.nfunc_per_irrep.getD k 0 + 1)).sum = _
      rw [sum_set_succ _ _ (by omega), hsum1]
      push_cast; ring
    · simp only [if_neg hpos]
      refine ⟨_, rfl, ⟨hp, hirr1, hfi, hip, hnpi⟩, ?_⟩
      show st1.nfunc_per_irrep.sum = _
      rw [hsum1]; simp

theorem classifyFunc_spec (G : PointGroup) (C : Center) (nfunc : Nat)
    (parity : List (List Int)) (par : Nat → Int) (func : Nat) (st : ClassState)
    (hst : st.WellSized G nfunc) (hdeg : C.ndegen ≤ G.order) (hirr : G.order ≤ G.nirrep)
    (hfunc : func < nfunc)
    (hpar : ∀ op, op < G.order → get2 parity func op = some (par op))
    (hc : ∀ op, op < G.order → C.getCenterAfterOp op < G.order) :
    ∃ st', classifyFunc G C parity st func = .ok st' ∧ st'.WellSized G nfunc ∧
      st'.nfunc_per_irrep.sum = st.nfunc_per_irrep.sum + classCount G C par G.order := by
  obtain ⟨st', h, hst', hsum⟩ := classifyFunc_loop G C nfunc parity par func st hst hdeg hirr
    hfunc hpar hc G.order (le_refl _)
  exact ⟨st', by simp only [classifyFunc, h]; rfl, hst', hsum⟩

theorem classify_loop (G : PointGroup) (C : Center) (nfunc : Nat)
    (parity : List (List Int)) (par : Nat → Nat → Int)
    (hdeg : C.ndegen ≤ G.order) (hirr : G.order ≤ G.nirrep)
    (hpar : ∀ f op, f < nfunc → op < G.order → get2 parity f op = some (par f op))
    (hc : ∀ op, op < G.order → C.getCenterAfterOp op < G.order)
    (k : Nat) (hk : k ≤ nfunc) :
    ∃ st, (List.range k).foldlM (classifyFunc G C parity) (ClassState.init G nfunc) = .ok st ∧
      st.WellSized G nfunc ∧
      st.nfunc_per_irrep.sum = ∑ f in Finset.range k, (classCount G C (par f) G.order : Int) := by
  induction k with
  | zero =>
    refine ⟨_, rfl, wellSized_init G nfunc, ?_⟩
    simp [ClassState.init]
  | succ k ih =>
    obtain ⟨st1, h1, hst1, hsum1⟩ := ih (by omega)
    obtain ⟨st2, h2, hst2, hsum2⟩ := classifyFunc_spec G C nfunc parity (par k) k st1 hst1
      hdeg hirr (by omega) (fun op hop => hpar k op (by omega) hop) hc
    refine ⟨st2, ?_, hst2, ?_⟩
    · rw [List.range_succ, List.foldlM_append, h1]
      simp only [List.foldlM_cons, List.foldlM_nil]
      show (classifyFunc G C parity st1 k >>= fun a => pure a) = _
      rw [h2]; rfl
    · rw [hsum2, hsum1, Finset.sum_range_succ]

theorem classify_spec (G : PointGroup) (C : Center) (nfunc : Nat)
    (parity : List (List Int)) (par : Nat → Nat → Int)
    (hdeg : C.ndegen ≤ G.order) (hirr : G.order ≤ G.nirrep)
    (hpar : ∀ f op, f < nfunc → op < G.order → get2 parity f op = some (par f op))
    (hc : ∀ op, op < G.order → C.getCenterAfterOp op < G.order) :
    ∃ st, classify G C nfunc parity = .ok st ∧ st.WellSized G nfunc ∧
      st.nfunc_per_irrep.sum = ∑ f in Finset.range nfunc, (classCount G C (par f) G.order : Int) :=
  classify_loop G C nfunc parity par hdeg hirr hpar hc nfunc (le_refl _)

/-! ## Counting the irreps of one function -/

theorem twisted_eq (G : PointGroup) (C : Center) (mul : Nat → Nat → Nat) (inv : Nat → Nat)
    (e : Nat) (par : Nat → Int) (hd : SymmetryData G C mul inv e) (hp : IsParityRow G mul par)
    (r g : Nat) (hr : r < G.order) (hg : g < G.order) :
    twisted G par r g = G.character r g * par g := by
  unfold twisted sgn
  rcases hd.char_pm r g hr hg with h1 | h1 <;> rcases hp.pm g hg with h2 | h2 <;>
    rw [h1, h2] <;> decide

theorem twisted_pm (G : PointGroup) (par : Nat → Int) (r g : Nat) :
    twisted G par r g = 1 ∨ twisted G par r g = -1 := sgn_eq _

theorem twisted_mul (G : PointGroup) (C : Center) (mul : Nat → Nat → Nat) (inv : Nat → Nat)
    (e : Nat) (par : Nat → Int) (hd : SymmetryData G C mul inv e) (hp : IsParityRow G mul par)
    (r g h : Nat) (hr : r < G.order) (hg : g < G.order) (hh : h < G.order) :
    twisted G par r (mul g h) = twisted G par r g * twisted G par r h := by
  rw [twisted_eq G C mul inv e par hd hp r _ hr (hd.mul_lt g h hg hh),
    twisted_eq G C mul inv e par hd hp r g hr hg, twisted_eq G C mul inv e par hd hp r h hr hh,
    hd.char_mul r g h hr hg hh, hp.mul g h hg hh]
  ring

theorem SymmetryData.inv_mul_cancel_left {G : PointGroup} {C : Center} {mul : Nat → Nat → Nat}
    {inv : Nat → Nat} {e : Nat} (hd : SymmetryData G C mul inv e) (g h : Nat)
    (hg : g < G.order) (hh : h < G.order) : mul (inv g) (mul g h) = h := by
  rw [← hd.mul_assoc _ _ _ (hd.inv_lt g hg) hg hh, hd.inv_mul g hg, hd.e_mul h hh]

theorem SymmetryData.mul_inv_cancel_left {G : PointGroup} {C : Center} {mul : Nat → Nat → Nat}
    {inv : Nat → Nat} {e : Nat} (hd : SymmetryData G C mul inv e) (g h : Nat)
    (hg : g < G.order) (hh : h < G.order) : mul g (mul (inv g) h) = h := by
  rw [← hd.mul_assoc _ _ _ hg (hd.inv_lt g hg) hh, hd.mul_inv g hg, hd.e_mul h hh]

theorem mem_stabilizer {G : PointGroup} {C : Center} {e h : Nat} :
    h ∈ stabilizer G C e ↔ h < G.order ∧ C.getCenterAfterOp h = C.getCenterAfterOp e := by
  simp [stabilizer]

theorem e_mem_stabilizer {G : PointGroup} {C : Center} {mul : Nat → Nat → Nat}
    {inv : Nat → Nat} {e : Nat} (hd : SymmetryData G C mul inv e) : e ∈ stabilizer G C e :=
  mem_stabilizer.mpr ⟨hd.e_lt, rfl⟩

/-- The operations sending the center to the image of `g` are the translates
`g * h` of the stabilizer. -/
theorem sum_fiber_eq {G : PointGroup} {C : Center} {mul : Nat → Nat → Nat}
    {inv : Nat → Nat} {e : Nat} (hd : SymmetryData G C mul inv e) (F : Nat → Int)
    (g : Nat) (hg : g < G.order) :
    ∑ x in (Finset.range G.order).filter
        (fun x => C.getCenterAfterOp x = C.getCenterAfterOp g), F x
      = ∑ h in stabilizer G C e, F (mul g h) := by
  symm
  refine Finset.sum_nbij' (fun h => mul g h) (fun x => mul (inv g) x) ?_ ?_ ?_ ?_ ?_
  · intro h hh
    obtain ⟨hlt, hc⟩ := mem_stabilizer.mp hh
    simp only [Finset.mem_filter, Finset.mem_range]
    refine ⟨hd.mul_lt g h hg hlt, ?_⟩
    symm
    rw [hd.center_coset g (mul g h) hg (hd.mul_lt g h hg hlt),
      hd.inv_mul_cancel_left g h hg hlt]
    exact hc
  · intro x hx
    simp only [Finset.mem_filter, Finset.mem_range] at hx
    refine mem_stabilizer.mpr ⟨hd.mul_lt _ _ (hd.inv_lt g hg) hx.1, ?_⟩
    exact (hd.center_coset g x hg hx.1).mp hx.2.symm
  · intro h hh
    exact hd.inv_mul_cancel_left g h hg (mem_stabilizer.mp hh).1
  · intro x hx
    simp only [Finset.mem_filter, Finset.mem_range] at hx
    exact hd.mul_inv_cancel_left g x hg hx.1
  · intro h _
    rfl

theorem projValue_eq_sum_fiber (G : PointGroup) (C : Center) (par : Nat → Int) (r j : Nat) :
    projValue G C par r j =
      ∑ x in (Finset.range G.order).filter (fun x => C.getCenterAfterOp x = j),
        twisted G par r x := by
  unfold projValue twisted
  rw [Finset.sum_filter]

/-- The projection on the image of `g` is the sign at `g` times the sum of the
signs over the stabilizer. -/
theorem projValue_center {G : PointGroup} {C : Center} {mul : Nat → Nat → Nat}
    {inv : Nat → Nat} {e : Nat} (par : Nat → Int) (hd : SymmetryData G C mul inv e)
    (hp : IsParityRow G mul par) (r g : Nat) (hr : r < G.order) (hg : g < G.order) :
    projValue G C par r (C.getCenterAfterOp g) =
      twisted G par r g * ∑ h in stabilizer G C e, twisted G par r h := by
  rw [projValue_eq_sum_fiber, sum_fiber_eq hd _ g hg, Finset.mul_sum]
  apply Finset.sum_congr rfl
  intro h hh
  exact twisted_mul G C mul inv e par hd hp r g h hr hg (mem_stabilizer.mp hh).1

/-- The sum of the signs over the stabilizer is its size when every sign is
`+1` there, and zero otherwise. -/
theorem sum_stabilizer {G : PointGroup} {C : Center} {mul : Nat → Nat → Nat}
    {inv : Nat → Nat} {e : Nat} (par : Nat → Int) (hd : SymmetryData G C mul inv e)
    (hp : IsParityRow G mul par) (r : Nat) (hr : r < G.order) :
    ∑ h in stabilizer G C e, twisted G par r h =
      if ∀ h ∈ stabilizer G C e, twisted G par r h = 1
      then ((stabilizer G C e).card : Int) else 0 := by
  by_cases htriv : ∀ h ∈ stabilizer G C e, twisted G par r h = 1
  · rw [if_pos htriv, Finset.sum_congr rfl htriv]
    simp
  · rw [if_neg htriv]
    push_neg at htriv
    obtain ⟨h0, hh0, hne⟩ := htriv
    have hneg : twisted G par r h0 = -1 := by
      rcases twisted_pm G par r h0 with h | h
      · exact absurd h hne
      · exact h
    obtain ⟨h0lt, h0c⟩ := mem_stabilizer.mp hh0
    have key := projValue_center par hd hp r h0 hr h0lt
    rw [projValue_eq_sum_fiber, h0c] at key
    have key2 : ∑ x in stabilizer G C e, twisted G par r x =
        twisted G par r h0 * ∑ h in stabilizer G C e, twisted G par r h := key
    rw [hneg] at key2
    omega

theorem card_fiber {G : PointGroup} {C : Center} {mul : Nat → Nat → Nat}
    {inv : Nat → Nat} {e : Nat} (hd : SymmetryData G C mul inv e) (j : Nat) (hj : j < C.ndegen) :
    ((Finset.range G.order).filter (fun x => C.getCenterAfterOp x = j)).card
      = (stabilizer G C e).card := by
  obtain ⟨g, hg, rfl⟩ := hd.center_onto j hj
  have h := sum_fiber_eq hd (fun _ => (1 : Int)) g hg
  simp only [Finset.sum_const, nsmul_eq_mul, mul_one] at h
  exact_mod_cast h

theorem order_eq_mul {G : PointGroup} {C : Center} {mul : Nat → Nat → Nat}
    {inv : Nat → Nat} {e : Nat} (hd : SymmetryData G C mul inv e) :
    G.order = C.ndegen * (stabilizer G C e).card := by
  have h := Finset.card_eq_sum_card_fiberwise (s := Finset.range G.order)
    (t := Finset.range C.ndegen) (f := C.getCenterAfterOp)
    (fun x hx => Finset.mem_range.mpr (hd.center_lt x (Finset.mem_range.mp hx)))
  rw [Finset.card_range] at h
  rw [h, Finset.sum_congr rfl (fun j hj => card_fiber hd j (Finset.mem_range.mp hj))]
  simp

theorem stabilizer_card_pos {G : PointGroup} {C : Center} {mul : Nat → Nat → Nat}
    {inv : Nat → Nat} {e : Nat} (hd : SymmetryData G C mul inv e) :
    0 < (stabilizer G C e).card :=
  Finset.card_pos.mpr ⟨e, e_mem_stabilizer hd⟩

theorem ndegen_pos {G : PointGroup} {C : Center} {mul : Nat → Nat → Nat}
    {inv : Nat → Nat} {e : Nat} (hd : SymmetryData G C mul inv e) : 0 < C.ndegen :=
  Nat.lt_of_le_of_lt (Nat.zero_le _) (hd.center_lt e hd.e_lt)

theorem order_div_ndegen {G : PointGroup} {C : Center} {mul : Nat → Nat → Nat}
    {inv : Nat → Nat} {e : Nat} (hd : SymmetryData G C mul inv e) :
    G.order / C.ndegen = (stabilizer G C e).card := by
  rw [order_eq_mul hd]
  exact Nat.mul_div_cancel_left _ (ndegen_pos hd)

theorem order_mod_ndegen {G : PointGroup} {C : Center} {mul : Nat → Nat → Nat}
    {inv : Nat → Nat} {e : Nat} (hd : SymmetryData G C mul inv e) :
    G.order % C.ndegen = 0 := by
  rw [order_eq_mul hd]
  exact Nat.mul_mod_right _ _

theorem ndegen_le_order {G : PointGroup} {C : Center} {mul : Nat → Nat → Nat}
    {inv : Nat → Nat} {e : Nat} (hd : SymmetryData G C mul inv e) : C.ndegen ≤ G.order := by
  rw [order_eq_mul hd]
  exact Nat.le_mul_of_pos_right _ (stabilizer_card_pos hd)

/-- The value of `nonzero` is the size of the orbit when every sign is `+1` on
the stabilizer, and zero otherwise. -/
theorem nonzeroValue_eq {G : PointGroup} {C : Center} {mul : Nat → Nat → Nat}
    {inv : Nat → Nat} {e : Nat} (par : Nat → Int) (hd : SymmetryData G C mul inv e)
    (hp : IsParityRow G mul par) (r : Nat) (hr : r < G.order) :
    nonzeroValue G C par r =
      if ∀ h ∈ stabilizer G C e, twisted G par r h = 1 then (C.ndegen : Int) else 0 := by
  unfold nonzeroValue
  rw [order_div_ndegen hd]
  have hm : ((stabilizer G C e).card : Int) ≠ 0 := by
    have := stabilizer_card_pos hd
    omega
  have hterm : ∀ j ∈ Finset.range C.ndegen,
      |Int.tdiv (projValue G C par r j) ((stabilizer G C e).card : Int)| =
        if ∀ h ∈ stabilizer G C e, twisted G par r h = 1 then (1 : Int) else 0 := by
    intro j hj
    obtain ⟨g, hg, rfl⟩ := hd.center_onto j (Finset.mem_range.mp hj)
    rw [projValue_center par hd hp r g hr hg, sum_stabilizer par hd hp r hr]
    by_cases htriv : ∀ h ∈ stabilizer G C e, twisted G par r h = 1
    · rw [if_pos htriv, if_pos htriv, Int.mul_tdiv_cancel _ hm]
      rcases twisted_pm G par r g with h | h <;> rw [h] <;> decide
    · rw [if_neg htriv, if_neg htriv]
      simp
  rw [Finset.sum_congr rfl hterm]
  by_cases htriv : ∀ h ∈ stabilizer G C e, twisted G par r h = 1
  · simp [if_pos htriv]
  · simp [if_neg htriv]

theorem character_e {G : PointGroup} {C : Center} {mul : Nat → Nat → Nat}
    {inv : Nat → Nat} {e : Nat} (hd : SymmetryData G C mul inv e) (r : Nat) (hr : r < G.order) :
    G.character r e = 1 := by
  have h := hd.char_mul r e e hr hd.e_lt hd.e_lt
  rw [hd.e_mul e hd.e_lt] at h
  rcases hd.char_pm r e hr hd.e_lt with h1 | h1
  · exact h1
  · rw [h1] at h; exact absurd h (by decide)

theorem parity_e {G : PointGroup} {C : Center} {mul : Nat → Nat → Nat}
    {inv : Nat → Nat} {e : Nat} (par : Nat → Int) (hd : SymmetryData G C mul inv e)
    (hp : IsParityRow G mul par) : par e = 1 := by
  have h := hp.mul e e hd.e_lt hd.e_lt
  rw [hd.e_mul e hd.e_lt] at h
  rcases hp.pm e hd.e_lt with h1 | h1
  · exact h1
  · rw [h1] at h; exact absurd h (by decide)

/-- Summed over all irreps, the signs on the stabilizer add up to the order of
the group (orthogonality with the identity column). -/
theorem sum_irreps_stabilizer {G : PointGroup} {C : Center} {mul : Nat → Nat → Nat}
    {inv : Nat → Nat} {e : Nat} (par : Nat → Int) (hd : SymmetryData G C mul inv e)
    (hp : IsParityRow G mul par) :
    ∑ r in Finset.range G.order, ∑ h in stabilizer G C e, twisted G par r h
      = (G.order : Int) := by
  rw [Finset.sum_comm]
  have hinner : ∀ h ∈ stabilizer G C e,
      ∑ r in Finset.range G.order, twisted G par r h =
        if h = e then (G.order : Int) else 0 := by
    intro h hh
    have hlt := (mem_stabilizer.mp hh).1
    rw [Finset.sum_congr rfl (fun r hr =>
      twisted_eq G C mul inv e par hd hp r h (Finset.mem_range.mp hr) hlt), ← Finset.sum_mul]
    by_cases he : h = e
    · subst he
      rw [if_pos rfl, parity_e par hd hp, mul_one,
        Finset.sum_congr rfl (fun r hr => character_e hd r (Finset.mem_range.mp hr))]
      simp
    · rw [if_neg he, hd.char_sum h hlt he, zero_mul]
  rw [Finset.sum_congr rfl hinner, Finset.sum_ite_eq' (stabilizer G C e) e,
    if_pos (e_mem_stabilizer hd)]

/-- Under well-formed symmetry input every function is classified under
exactly `ndegen` irreps. -/
theorem classCount_eq_ndegen {G : PointGroup} {C : Center} {mul : Nat → Nat → Nat}
    {inv : Nat → Nat} {e : Nat} (par : Nat → Int) (hd : SymmetryData G C mul inv e)
    (hp : IsParityRow G mul par) : classCount G C par G.order = C.ndegen := by
  have hpos := stabilizer_card_pos hd
  have hdpos := ndegen_pos hd
  have hfilter : (Finset.range G.order).filter (fun r => 0 < nonzeroValue G C par r) =
      (Finset.range G.order).filter
        (fun r => ∀ h ∈ stabilizer G C e, twisted G par r h = 1) := by
    apply Finset.filter_congr
    intro r hr
    rw [nonzeroValue_eq par hd hp r (Finset.mem_range.mp hr)]
    by_cases htriv : ∀ h ∈ stabilizer G C e, twisted G par r h = 1
    · rw [if_pos htriv]
      exact ⟨fun _ => htriv, fun _ => by omega⟩
    · rw [if_neg htriv]
      exact ⟨fun h => absurd h (lt_irrefl _), fun h => absurd h htriv⟩
  have hsum := sum_irreps_stabilizer par hd hp
  rw [Finset.sum_congr rfl (fun r hr => sum_stabilizer par hd hp r (Finset.mem_range.mp hr)),
    ← Finset.sum_filter, Finset.sum_const, nsmul_eq_mul] at hsum
  unfold classCount
  rw [hfilter]
  have hn := order_eq_mul hd
  have h2 : (((Finset.range G.order).filter
      (fun r => ∀ h ∈ stabilizer G C e, twisted G par r h = 1)).card : Int)
        * ((stabilizer G C e).card : Int) = (C.ndegen : Int) * ((stabilizer G C e).card : Int) := by
    rw [hsum, hn]; push_cast; ring
  have h3 := mul_right_cancel₀ (by omega : ((stabilizer G C e).card : Int) ≠ 0) h2
  exact_mod_cast h3

/-! ## The Cartesian to spherical transformation -/

theorem fillColumn_spec (L l : Nat) (m : Int) (cols : Nat) (t : List (List ℝ)) (sf : Nat)
    (ht : IsTable t ((L + 1) * (L + 2) / 2) cols) (hsf : sf < cols) :
    ∃ t', fillColumn L l m t sf = .ok t' ∧ IsTable t' ((L + 1) * (L + 2) / 2) cols ∧
      ∀ r c, get2 t' r c =
        if c = sf ∧ r < (L + 1) * (L + 2) / 2 then
          ((cartesianOrder L)[r]?).map (fun xyz =>
            cartcoef (l : Int) m (xyz.1 : Int) (xyz.2.1 : Int) ((L : Int) - xyz.1 - xyz.2.1))
        else get2 t r c := by
  have hlen := length_cartesianOrder L
  obtain ⟨t', h, ht', hget⟩ := countedFor_column
    (fun xyz : Nat × Nat × Nat =>
      cartcoef (l : Int) m (xyz.1 : Int) (xyz.2.1 : Int) ((L : Int) - xyz.1 - xyz.2.1))
    sf _ _ hsf (cartesianOrder L) t 0 ht (by omega)
  refine ⟨t', by simp only [fillColumn, h]; rfl, ht', ?_⟩
  intro r c
  rw [hget, hlen]
  by_cases hc : c = sf ∧ r < (L + 1) * (L + 2) / 2
  · rw [if_pos ⟨hc.1, by omega, by omega⟩, if_pos hc, Nat.sub_zero]
  · rw [if_neg hc, if_neg (fun h => hc ⟨h.1, by omega⟩)]

theorem countedFor_fill (L cols : Nat) (xs : List (Nat × Int)) (t : List (List ℝ)) (sf : Nat)
    (ht : IsTable t ((L + 1) * (L + 2) / 2) cols) (hsf : sf + xs.length ≤ cols) :
    ∃ t', countedFor (fun t sf (lm : Nat × Int) => fillColumn L lm.1 lm.2 t sf) xs t sf
        = .ok (t', sf + xs.length) ∧
      IsTable t' ((L + 1) * (L + 2) / 2) cols ∧
      ∀ r c, get2 t' r c =
        if sf ≤ c ∧ c < sf + xs.length ∧ r < (L + 1) * (L + 2) / 2 then
          (xs[c - sf]?).bind (fun lm => ((cartesianOrder L)[r]?).map (fun xyz =>
            cartcoef (lm.1 : Int) lm.2 (xyz.1 : Int) (xyz.2.1 : Int)
              ((L : Int) - xyz.1 - xyz.2.1)))
        else get2 t r c := by
  induction xs generalizing t sf with
  | nil =>
    refine ⟨t, rfl, ht, ?_⟩
    intro r c
    have : ¬ (sf ≤ c ∧ c < sf + ([] : List (Nat × Int)).length ∧
        r < (L + 1) * (L + 2) / 2) := by
      simp only [List.length_nil]; omega
    rw [if_neg this]
  | cons b bs ih =>
    simp only [List.length_cons] at hsf
    obtain ⟨t1, h1, ht1, hget1⟩ := fillColumn_spec L b.1 b.2 cols t sf ht (by omega)
    obtain ⟨t2, h2, ht2, hget2⟩ := ih t1 (sf + 1) ht1 (by omega)
    refine ⟨t2, ?_, ht2, ?_⟩
    · simp only [countedFor, h1]
      show countedFor _ bs t1 (sf + 1) = _
      rw [h2]
      simp only [List.length_cons]
      congr 2
      omega
    · intro r c
      rw [hget2, hget1]
      simp only [List.length_cons]
      by_cases hr : r < (L + 1) * (L + 2) / 2
      · by_cases hc1 : sf + 1 ≤ c ∧ c < sf + 1 + bs.length
        · have e : c - sf = (c - (sf + 1)) + 1 := by omega
          rw [if_pos ⟨hc1.1, hc1.2, hr⟩, if_pos ⟨by omega, by omega, hr⟩, e,
            List.getElem?_cons_succ]
        · rw [if_neg (fun h => hc1 ⟨h.1, h.2.1⟩)]
          by_cases hc0 : c = sf
          · subst hc0
            rw [if_pos ⟨rfl, hr⟩, if_pos ⟨le_refl _, by omega, hr⟩]
            simp
          · rw [if_neg (fun h => hc0 h.1), if_neg (fun h => by omega)]
      · rw [if_neg (fun h => hr h.2.2), if_neg (fun h => hr h.2), if_neg (fun h => hr h.2.2)]

theorem buildCart2spher_spherical (L : Nat) (keep : Bool) :
    ∃ M, buildCart2spher L true keep = .ok M ∧
      IsTable M ((L + 1) * (L + 2) / 2) (getNFunc L true keep) ∧
      ∀ cf sf, cf < (L + 1) * (L + 2) / 2 → sf < getNFunc L true keep →
        get2 M cf sf = some (cart2spherEntry L keep cf sf) := by
  have hlen := length_sphericalOrder L keep
  obtain ⟨M, h, hM, hget⟩ := countedFor_fill L (getNFunc L true keep) (sphericalOrder L keep)
    (resize2 ((L + 1) * (L + 2) / 2) (getNFunc L true keep) (0 : ℝ)) 0
    (isTable_resize2 _ _ _) (by omega)
  refine ⟨M, ?_, hM, ?_⟩
  · simp only [buildCart2spher, if_true, h, bind, Except.bind]
    rw [if_pos (by simp only [Nat.zero_add]; exact hlen)]
    rfl
  · intro cf sf hcf hsf
    have h1 : sf < (sphericalOrder L keep).length := by omega
    have h2 : cf < (cartesianOrder L).length := by rw [length_cartesianOrder]; exact hcf
    rw [hget, if_pos ⟨by omega, by omega, hcf⟩, Nat.sub_zero]
    simp [cart2spherEntry, List.getElem?_eq_getElem h1, List.getElem?_eq_getElem h2]

theorem identity_loop (n k : Nat) (hk : k ≤ n) :
    ∃ M, (List.range k).foldlM (fun t i => write2 t i i (1 : ℝ)) (resize2 n n (0 : ℝ)) = .ok M ∧
      IsTable M n n ∧
      ∀ r c, r < n → c < n → get2 M r c = some (if r = c ∧ r < k then 1 else 0) := by
  induction k with
  | zero =>
    refine ⟨_, rfl, isTable_resize2 _ _ _, ?_⟩
    intro r c hr hc
    rw [get2_resize2 _ _ _ _ _ hr hc, if_neg (by omega)]
  | succ k ih =>
    obtain ⟨M, h, hM, hget⟩ := ih (by omega)
    refine ⟨set2 M k k 1, ?_, isTable_set2 _ _ _ hM, ?_⟩
    · rw [List.range_succ, List.foldlM_append, h]
      simp only [List.foldlM_cons, List.foldlM_nil]
      show (write2 M k k (1 : ℝ) >>= fun a => pure a) = _
      rw [write2_eq _ hM (by omega) (by omega)]; rfl
    · intro r c hr hc
      rw [get2_set2 _ hM (by omega) (by omega), hget r c hr hc]
      by_cases e : r = k ∧ c = k
      · rw [if_pos e, if_pos ⟨by omega, by omega⟩]
      · rw [if_neg e]
        by_cases e2 : r = c
        · have : r ≠ k := fun h => e ⟨h, by omega⟩
          by_cases e3 : r < k
          · rw [if_pos ⟨e2, e3⟩, if_pos ⟨e2, by omega⟩]
          · rw [if_neg (fun h => e3 h.2), if_neg (fun h => by omega)]
        · rw [if_neg (fun h => e2 h.1), if_neg (fun h => e2 h.1)]

theorem buildCart2spher_cartesian (L : Nat) (keep : Bool) :
    ∃ M, buildCart2spher L false keep = .ok M ∧
      IsTable M ((L + 1) * (L + 2) / 2) ((L + 1) * (L + 2) / 2) ∧
      ∀ r c, r < (L + 1) * (L + 2) / 2 → c < (L + 1) * (L + 2) / 2 →
        get2 M r c = some (if r = c then 1 else 0) := by
  obtain ⟨M, h, hM, hget⟩ := identity_loop ((L + 1) * (L + 2) / 2) _ (le_refl _)
  refine ⟨M, by simp only [buildCart2spher, Bool.false_eq_true, if_false, h], hM, ?_⟩
  intro r c hr hc
  rw [hget r c hr hc]
  by_cases e : r = c
  · rw [if_pos ⟨e, hr⟩, if_pos e]
  · rw [if_neg (fun h => e h.1), if_neg e]

theorem buildCart2spher_ok (L : Nat) (spherical keep : Bool) :
    ∃ M, buildCart2spher L spherical keep = .ok M ∧
      IsTable M ((L + 1) * (L + 2) / 2) (getNFunc L spherical keep) := by
  cases spherical with
  | true =>
    obtain ⟨M, h, hM, _⟩ := buildCart2spher_spherical L keep
    exact ⟨M, h, hM⟩
  | false =>
    obtain ⟨M, h, hM, _⟩ := buildCart2spher_cartesian L keep
    refine ⟨M, h, ?_⟩
    have : getNFunc L false keep = (L + 1) * (L + 2) / 2 := by simp [getNFunc]
    rw [this]; exact hM

/-! ## The constructor as a whole -/

theorem construct_eq (G : PointGroup) (C : Center) (L nprim ncontr : Nat)
    (spherical keep : Bool) (exponents : Fin nprim → ℝ) (coeffs : Fin nprim → Fin ncontr → ℝ)
    (parity : List (List Int)) (cls : ClassState) (M : List (List ℝ))
    (h1 : buildParity G L spherical keep = .ok parity)
    (h2 : classify G C (getNFunc L spherical keep) parity = .ok cls)
    (h3 : buildCart2spher L spherical keep = .ok M) :
    Shell.construct G C L nprim ncontr spherical keep exponents coeffs = .ok
      { L := L, spherical := spherical, keep_contaminants := keep,
        exponents := exponents, coefficients := normalize L exponents coeffs,
        parity := parity, irreps := cls.irreps, func_irrep := cls.func_irrep,
        irrep_pos := cls.irrep_pos, nfunc_per_irrep := cls.nfunc_per_irrep,
        cart2spher := M } := by
  simp only [Shell.construct, h1, h2, h3, bind, Except.bind, pure, Except.pure]

theorem construct_inv (G : PointGroup) (C : Center) (L nprim ncontr : Nat)
    (spherical keep : Bool) (exponents : Fin nprim → ℝ) (coeffs : Fin nprim → Fin ncontr → ℝ)
    (s : Shell nprim ncontr)
    (h : Shell.construct G C L nprim ncontr spherical keep exponents coeffs = .ok s) :
    ∃ parity cls M, buildParity G L spherical keep = .ok parity ∧
      classify G C (getNFunc L spherical keep) parity = .ok cls ∧
      buildCart2spher L spherical keep = .ok M ∧
      s = { L := L, spherical := spherical, keep_contaminants := keep,
            exponents := exponents, coefficients := normalize L exponents coeffs,
            parity := parity, irreps := cls.irreps, func_irrep := cls.func_irrep,
            irrep_pos := cls.irrep_pos, nfunc_per_irrep := cls.nfunc_per_irrep,
            cart2spher := M } := by
  obtain ⟨parity, h1, _, _⟩ := buildParity_spec G L spherical keep
  obtain ⟨M, h3, _⟩ := buildCart2spher_ok L spherical keep
  cases h2 : classify G C (getNFunc L spherical keep) parity with
  | error f =>
    simp only [Shell.construct, h1, h2, bind, Except.bind] at h
    cases h
  | ok cls =>
    rw [construct_eq G C L nprim ncontr spherical keep exponents coeffs parity cls M h1 h2 h3] at h
    exact ⟨parity, cls, M, h1, h2, h3, (Except.ok.inj h).symm⟩

/-- The constructor runs to completion whenever the table of characters has a
row for every value of the irrep loop variable, the orbit is not larger than
the group and every image of the center is a valid index of `proj`. -/
theorem construct_total (G : PointGroup) (C : Center) (L nprim ncontr : Nat)
    (spherical keep : Bool) (exponents : Fin nprim → ℝ) (coeffs : Fin nprim → Fin ncontr → ℝ)
    (hdeg : C.ndegen ≤ G.order) (hirr : G.order ≤ G.nirrep)
    (hc : ∀ op, op < G.order → C.getCenterAfterOp op < G.order) :
    ∃ s, Shell.construct G C L nprim ncontr spherical keep exponents coeffs = .ok s ∧
      IsTable s.parity (getNFunc L spherical keep) G.order ∧
      IsTable s.irreps (getNFunc L spherical keep) G.nirrep ∧
      IsTable s.func_irrep (getNFunc L spherical keep) G.nirrep ∧
      IsTable s.irrep_pos (getNFunc L spherical keep) G.nirrep ∧
      s.nfunc_per_irrep.length = G.nirrep ∧
      s.nfunc_per_irrep.sum = ∑ f in Finset.range (getNFunc L spherical keep),
        (classCount G C (parityEntry G L spherical keep f) G.order : Int) := by
  obtain ⟨parity, h1, hP, hget⟩ := buildParity_spec G L spherical keep
  obtain ⟨M, h3, _⟩ := buildCart2spher_ok L spherical keep
  obtain ⟨cls, h2, hW, hsum⟩ := classify_spec G C (getNFunc L spherical keep) parity
    (parityEntry G L spherical keep) hdeg hirr hget hc
  refine ⟨_, construct_eq G C L nprim ncontr spherical keep exponents coeffs parity cls M h1 h2 h3,
    hP, hW.2.1, hW.2.2.1, hW.2.2.2.1, hW.2.2.2.2, hsum⟩

/-! ## Values of `cartcoef` for `L ≤ 1` -/

theorem upTo_zero : upTo 0 = [0] := by decide

theorem sqrt_two_div_two_mul : Real.sqrt 2 / 2 * Real.sqrt 2 = 1 := by
  have h : Real.sqrt 2 * Real.sqrt 2 = 2 := Real.mul_self_sqrt (by norm_num)
  calc Real.sqrt 2 / 2 * Real.sqrt 2 = (Real.sqrt 2 * Real.sqrt 2) / 2 := by ring
    _ = 1 := by rw [h]; norm_num

theorem cartcoef_1_1_x : cartcoef 1 1 1 0 0 = 1 := by
  have b1 : binom (2 * 1) 1 * binom (2 * 0) 0 * binom (2 * 0) 0 * binom (1 + |1|) |1| = 4 := by
    decide
  have b2 : binom (2 * 1) 1 * binom 1 |1| * binom (1 + 0 + 0) 1 * binom (0 + 0) 0 = 2 := by
    decide
  have b3 : dfact (2 * 1 - 1) * dfact (2 * 0 - 1) * dfact (2 * 0 - 1) = 1 := by decide
  have hc : cartprefactor 1 1 1 0 0 = 1 := by
    simp only [cartprefactor, b1, b2, b3]
    norm_num
    exact sqrt_two_div_two_mul
  have hj : Int.tdiv ((1 : Int) + 0 - |1|) 2 = 0 := by decide
  have ht : Int.tdiv ((1 : Int) - |1|) 2 = 0 := by decide
  have b4 : binom (2 * 1 - 2 * 0) (1 + |1|) * binom 1 0 * binom 0 0 * binom 0 0 *
      binom |1| (1 - 2 * 0) = 1 := by decide
  have hs : cartsum 1 |1| 1 0 = 1 := by
    simp only [cartsum, ht, upTo_zero]
    simp only [List.foldl_cons, List.foldl_nil, b4]
    norm_num
  have e1 : ((1 : Int) + 0 - |1|) % 2 ≠ 1 := by decide
  have e2 : (|(1 : Int)| - 1) % 2 ≠ 1 := by decide
  have e3 : (|(1 : Int)| - 1) % 4 ≠ 2 := by decide
  simp only [cartcoef, if_neg e1, hj, hc, if_pos (show (0 : Int) ≤ 1 by decide), if_neg e2,
    if_neg e3, hs, mul_one]

theorem cartcoef_1_m1_y : cartcoef 1 (-1) 0 1 0 = 1 := by
  have b1 : binom (2 * 0) 0 * binom (2 * 1) 1 * binom (2 * 0) 0 * binom (1 + |(-1)|) |(-1)| = 4 := by
    decide
  have b2 : binom (2 * 1) 1 * binom 1 |(-1)| * binom (0 + 1 + 0) 0 * binom (1 + 0) 1 = 2 := by
    decide
  have b3 : dfact (2 * 0 - 1) * dfact (2 * 1 - 1) * dfact (2 * 0 - 1) = 1 := by decide
  have hc : cartprefactor 1 (-1) 0 1 0 = 1 := by
    simp only [cartprefactor, b1, b2, b3]
    norm_num
    exact sqrt_two_div_two_mul
  have hj : Int.tdiv ((0 : Int) + 1 - |(-1)|) 2 = 0 := by decide
  have ht : Int.tdiv ((1 : Int) - |(-1)|) 2 = 0 := by decide
  have b4 : binom (2 * 1 - 2 * 0) (1 + |(-1)|) * binom 1 0 * binom 0 0 * binom 0 0 *
      binom |(-1)| (0 - 2 * 0) = 1 := by decide
  have hs : cartsum 1 |(-1)| 0 0 = 1 := by
    simp only [cartsum, ht, upTo_zero]
    simp only [List.foldl_cons, List.foldl_nil, b4]
    norm_num
  have e1 : ((0 : Int) + 1 - |(-1)|) % 2 ≠ 1 := by decide
  have e2 : ¬ (0 : Int) ≤ -1 := by decide
  have e3 : (|(-1 : Int)| - 0) % 2 ≠ 0 := by decide
  have e4 : (|(-1 : Int)| - 0) % 4 ≠ 3 := by decide
  simp only [cartcoef, if_neg e1, hj, hc, if_neg e2, if_neg e3, if_neg e4, hs, mul_one]

theorem cartcoef_1_0_z : cartcoef 1 0 0 0 1 = 1 := by
  have b1 : binom (2 * 0) 0 * binom (2 * 0) 0 * binom (2 * 1) 1 * binom (1 + |0|) |0| = 2 := by
    decide
  have b2 : binom (2 * 1) 1 * binom 1 |0| * binom (0 + 0 + 1) 0 * binom (0 + 1) 0 = 2 := by
    decide
  have b3 : dfact (2 * 0 - 1) * dfact (2 * 0 - 1) * dfact (2 * 1 - 1) = 1 := by decide
  have hc : cartprefactor 1 0 0 0 1 = 1 / 2 := by
    simp only [cartprefactor, b1, b2, b3]
    norm_num
  have hj : Int.tdiv ((0 : Int) + 0 - |0|) 2 = 0 := by decide
  have ht : Int.tdiv ((1 : Int) - |0|) 2 = 0 := by decide
  have b4 : binom (2 * 1 - 2 * 0) (1 + |0|) * binom 1 0 * binom 0 0 * binom 0 0 *
      binom |0| (0 - 2 * 0) = 2 := by decide
  have hs : cartsum 1 |0| 0 0 = 2 := by
    simp only [cartsum, ht, upTo_zero]
    simp only [List.foldl_cons, List.foldl_nil, b4]
    norm_num
  have e1 : ((0 : Int) + 0 - |0|) % 2 ≠ 1 := by decide
  have e2 : (|(0 : Int)| - 0) % 2 ≠ 1 := by decide
  have e3 : (|(0 : Int)| - 0) % 4 ≠ 2 := by decide
  simp only [cartcoef, if_neg e1, hj, hc, if_pos (le_refl (0 : Int)), if_neg e2, if_neg e3, hs]
  norm_num

theorem cartcoef_0_0_s : cartcoef 0 0 0 0 0 = 1 := by
  have b1 : binom (2 * 0) 0 * binom (2 * 0) 0 * binom (2 * 0) 0 * binom (0 + |0|) |0| = 1 := by
    decide
  have b2 : binom (2 * 0) 0 * binom 0 |0| * binom (0 + 0 + 0) 0 * binom (0 + 0) 0 = 1 := by
    decide
  have b3 : dfact (2 * 0 - 1) * dfact (2 * 0 - 1) * dfact (2 * 0 - 1) = 1 := by decide
  have hc : cartprefactor 0 0 0 0 0 = 1 := by
    simp only [cartprefactor, b1, b2, b3]
    norm_num
  have hj : Int.tdiv ((0 : Int) + 0 - |0|) 2 = 0 := by decide
  have ht : Int.tdiv ((0 : Int) - |0|) 2 = 0 := by decide
  have b4 : binom (2 * 0 - 2 * 0) (0 + |0|) * binom 0 0 * binom 0 0 * binom 0 0 *
      binom |0| (0 - 2 * 0) = 1 := by decide
  have hs : cartsum 0 |0| 0 0 = 1 := by
    simp only [cartsum, ht, upTo_zero]
    simp only [List.foldl_cons, List.foldl_nil, b4]
    norm_num
  have e1 : ((0 : Int) + 0 - |0|) % 2 ≠ 1 := by decide
  have e2 : (|(0 : Int)| - 0) % 2 ≠ 1 := by decide
  have e3 : (|(0 : Int)| - 0) % 4 ≠ 2 := by decide
  simp only [cartcoef, if_neg e1, hj, hc, if_pos (le_refl (0 : Int)), if_neg e2, if_neg e3, hs,
    mul_one]

theorem buildCart2spher_zero (spherical keep : Bool) :
    buildCart2spher 0 spherical keep = .ok [[1]] := by
  have hs : sphericalOrder 0 keep = [(0, 0)] := by cases keep <;> rfl
  have hx : cartesianOrder 0 = [(0, 0, 0)] := rfl
  have hn : getNFunc 0 spherical keep = 1 := by cases spherical <;> cases keep <;> rfl
  cases spherical with
  | true =>
    have hfill : fillColumn 0 0 0 [[(0 : ℝ)]] 0 = .ok [[1]] := by
      simp only [fillColumn, hx, countedFor, write2, bind, Except.bind]
      simp [cartcoef_0_0_s]
    simp only [buildCart2spher, if_true, hs, hn, countedFor, resize2]
    simp [hfill, bind, Except.bind, pure, Except.pure]
  | false =>
    simp only [buildCart2spher, Bool.false_eq_true, if_false, resize2]
    simp [List.range_succ, write2, bind, Except.bind, pure, Except.pure]

/-! ## What the classification loop records -/

theorem classCount_mono (G : PointGroup) (C : Center) (par : Nat → Int) {a b : Nat}
    (h : a ≤ b) : classCount G C par a ≤ classCount G C par b := by
  unfold classCount
  apply Finset.card_le_card
  intro x hx
  simp only [Finset.mem_filter, Finset.mem_range] at hx ⊢
  exact ⟨by omega, hx.2⟩

theorem classCount_lt (G : PointGroup) (C : Center) (par : Nat → Int) {r R : Nat}
    (h : r < R) (hcl : 0 < nonzeroValue G C par r) :
    classCount G C par r < classCount G C par R := by
  have h1 := classCount_succ G C par r
  rw [if_pos hcl] at h1
  have h2 := classCount_mono G C par (show r + 1 ≤ R from h)
  omega

theorem funcCount_succ (G : PointGroup) (C : Center) (par : Nat → Nat → Int) (r F : Nat) :
    funcCount G C par r (F + 1) = funcCount G C par r F +
      (if r < G.order ∧ 0 < nonzeroValue G C (par F) r then 1 else 0) := by
  unfold funcCount
  rw [Finset.range_succ, Finset.filter_insert]
  by_cases h : r < G.order ∧ 0 < nonzeroValue G C (par F) r
  · rw [if_pos h, if_pos h, Finset.card_insert_of_not_mem]
    simp
  · rw [if_neg h, if_neg h, add_zero]

theorem classInv_init (G : PointGroup) (C : Center) (par : Nat → Nat → Int) (nfunc : Nat) :
    ClassInv G C par nfunc (ClassState.init G nfunc) 0 0 := by
  refine ⟨wellSized_init G nfunc, ?_, ?_⟩
  · intro f r h
    omega
  · intro r hr
    have : ¬ (r < 0 ∧ r < G.order ∧ 0 < nonzeroValue G C (par 0) r) := fun h => by omega
    rw [if_neg this]
    simp [ClassState.init, funcCount, List.getD_eq_getElem?_getD, List.getElem?_replicate, hr]

theorem classInv_next (G : PointGroup) (C : Center) (par : Nat → Nat → Int) (nfunc : Nat)
    (st : ClassState) (F : Nat) (h : ClassInv G C par nfunc st F G.order) :
    ClassInv G C par nfunc st (F + 1) 0 := by
  obtain ⟨hW, hrec, hnpi⟩ := h
  refine ⟨hW, ?_, ?_⟩
  · intro f r hf hr hcl
    apply hrec f r ?_ hr hcl
    rcases hf with hf | hf
    · by_cases e : f = F
      · right; exact ⟨e, hr⟩
      · left; omega
    · omega
  · intro r hr
    have h0 : ¬ (r < 0 ∧ r < G.order ∧ 0 < nonzeroValue G C (par (F + 1)) r) := fun h => by omega
    rw [if_neg h0, hnpi r hr, funcCount_succ]
    by_cases hcl : r < G.order ∧ 0 < nonzeroValue G C (par F) r
    · rw [if_pos ⟨hcl.1, hcl⟩, if_pos hcl]; push_cast; ring
    · rw [if_neg (fun h => hcl h.2), if_neg hcl]; push_cast; ring

theorem getD_set_eq (l : List Int) (i j : Nat) (a : Int) (hi : i < l.length) :
    (l.set i a).getD j 0 = if j = i then a else l.getD j 0 := by
  rw [List.getD_eq_getElem?_getD, List.getElem?_set, List.getD_eq_getElem?_getD]
  by_cases e : i = j
  · subst e; simp [hi]
  · have e' : ¬ j = i := fun h => e h.symm
    simp [e, e']

theorem classInv_step (G : PointGroup) (C : Center) (nfunc : Nat)
    (parity : List (List Int)) (par : Nat → Nat → Int) (st : ClassState) (F R : Nat)
    (hinv : ClassInv G C par nfunc st F R)
    (hdeg : C.ndegen ≤ G.order) (hirr : G.order ≤ G.nirrep)
    (hF : F < nfunc) (hR : R < G.order)
    (hpar : ∀ op, op < G.order → get2 parity F op = some (par F op))
    (hc : ∀ op, op < G.order → C.getCenterAfterOp op < G.order) :
    ∃ st', classifyIrrep G C parity F (st, classCount G C (par F) R) R =
        .ok (st', classCount G C (par F) (R + 1)) ∧
      ClassInv G C par nfunc st' F (R + 1) := by
  obtain ⟨hW, hrec, hnpi⟩ := hinv
  have hile := classCount_le G C (par F) R
  obtain ⟨p, hp, hstep⟩ := classifyIrrep_spec G C nfunc parity (par F) F R
    (classCount G C (par F) R) st hW hdeg hF (by omega) (by omega) hpar hc
  obtain ⟨hproj, hirrT, hfiT, hipT, hnlen⟩ := hW
  rw [hstep, classCount_succ]
  by_cases hcl : 0 < nonzeroValue G C (par F) R
  · rw [if_pos hcl, if_pos hcl]
    refine ⟨_, rfl, ⟨hp, isTable_set2 _ _ _ hirrT, isTable_set2 _ _ _ hfiT,
      isTable_set2 _ _ _ hipT, by simpa using hnlen⟩, ?_, ?_⟩
    · intro f r hfr hr hclr
      by_cases hnew : f = F ∧ r = R
      · obtain ⟨rfl, rfl⟩ := hnew
        refine ⟨?_, ?_, ?_⟩
        · show get2 (set2 st.irrep_pos f r _) f r = _
          rw [get2_set2 _ hipT hF (by omega), if_pos ⟨rfl, rfl⟩]
        · show get2 (set2 st.irreps f _ _) f _ = _
          rw [get2_set2 _ hirrT hF (by omega), if_pos ⟨rfl, rfl⟩]
        · show get2 (set2 st.func_irrep f _ _) f _ = _
          rw [get2_set2 _ hfiT hF (by omega), if_pos ⟨rfl, rfl⟩, hnpi r (by omega),
            if_neg (fun h => by omega), add_zero]
      · have hold : f < F ∨ (f = F ∧ r < R) := by
          rcases hfr with h | h
          · left; exact h
          · right; refine ⟨h.1, ?_⟩
            have : r ≠ R := fun e => hnew ⟨h.1, e⟩
            omega
        obtain ⟨h1, h2, h3⟩ := hrec f r hold hr hclr
        have hslot : ¬ (f = F ∧ classCount G C (par f) r = classCount G C (par F) R) := by
          rintro ⟨rfl, e⟩
          rcases hold with h | h
          · omega
          · have := classCount_lt G C (par f) h.2 hclr
            omega
        refine ⟨?_, ?_, ?_⟩
        · show get2 (set2 st.irrep_pos F R _) f r = _
          rw [get2_set2 _ hipT hF (by omega), if_neg hnew]; exact h1
        · show get2 (set2 st.irreps F _ _) f _ = _
          rw [get2_set2 _ hirrT hF (by omega), if_neg hslot]; exact h2
        · show get2 (set2 st.func_irrep F _ _) f _ = _
          rw [get2_set2 _ hfiT hF (by omega), if_neg hslot]; exact h3
    · intro r hr
      show (st.nfunc_per_irrep.set R _).getD r 0 = _
      rw [getD_set_eq _ _ _ _ (by omega)]
      by_cases e : r = R
      · subst e
        rw [if_pos rfl, hnpi r hr, if_neg (fun h => by omega),
          if_pos ⟨by omega, hR, hcl⟩, add_zero]
      · rw [if_neg e, hnpi r hr]
        by_cases h' : r < R ∧ r < G.order ∧ 0 < nonzeroValue G C (par F) r
        · rw [if_pos h', if_pos ⟨by omega, h'.2⟩]
        · rw [if_neg h', if_neg (fun h => h' ⟨by omega, h.2⟩)]
  · rw [if_neg hcl, if_neg hcl]
    refine ⟨_, rfl, ⟨hp, hirrT, hfiT, hipT, hnlen⟩, ?_, ?_⟩
    · intro f r hfr hr hclr
      have hold : f < F ∨ (f = F ∧ r < R) := by
        rcases hfr with h | h
        · left; exact h
        · right; refine ⟨h.1, ?_⟩
          have : r ≠ R := by
            rintro rfl
            rw [h.1] at hclr
            exact hcl hclr
          omega
      exact hrec f r hold hr hclr
    · intro r hr
      show st.nfunc_per_irrep.getD r 0 = _
      rw [hnpi r hr]
      by_cases h' : r < R ∧ r < G.order ∧ 0 < nonzeroValue G C (par F) r
      · rw [if_pos h', if_pos ⟨by omega, h'.2⟩]
      · rw [if_neg h', if_neg]
        rintro ⟨h1, h2, h3⟩
        by_cases e : r = R
        · subst e; exact hcl h3
        · exact h' ⟨by omega, h2, h3⟩

theorem classInv_func (G : PointGroup) (C : Center) (nfunc : Nat)
    (parity : List (List Int)) (par : Nat → Nat → Int) (st : ClassState) (F : Nat)
    (hinv : ClassInv G C par nfunc st F 0)
    (hdeg : C.ndegen ≤ G.order) (hirr : G.order ≤ G.nirrep) (hF : F < nfunc)
    (hpar : ∀ op, op < G.order → get2 parity F op = some (par F op))
    (hc : ∀ op, op < G.order → C.getCenterAfterOp op < G.order)
    (k : Nat) (hk : k ≤ G.order) :
    ∃ st', (List.range k).foldlM (classifyIrrep G C parity F) (st, 0) =
        .ok (st', classCount G C (par F) k) ∧ ClassInv G C par nfunc st' F k := by
  induction k with
  | zero => exact ⟨st, rfl, hinv⟩
  | succ k ih =>
    obtain ⟨st1, h1, hinv1⟩ := ih (by omega)
    obtain ⟨st2, h2, hinv2⟩ := classInv_step G C nfunc parity par st1 F k hinv1 hdeg hirr hF
      (by omega) hpar hc
    refine ⟨st2, ?_, hinv2⟩
    rw [List.range_succ, List.foldlM_append, h1]
    simp only [List.foldlM_cons, List.foldlM_nil]
    show (classifyIrrep G C parity F (st1, classCount G C (par F) k) k >>= fun a => pure a) = _
    rw [h2]; rfl

theorem classInv_classify (G : PointGroup) (C : Center) (nfunc : Nat)
    (parity : List (List Int)) (par : Nat → Nat → Int)
    (hdeg : C.ndegen ≤ G.order) (hirr : G.order ≤ G.nirrep)
    (hpar : ∀ f op, f < nfunc → op < G.order → get2 parity f op = some (par f op))
    (hc : ∀ op, op < G.order → C.getCenterAfterOp op < G.order)
    (k : Nat) (hk : k ≤ nfunc) :
    ∃ st, (List.range k).foldlM (classifyFunc G C parity) (ClassState.init G nfunc) = .ok st ∧
      ClassInv G C par nfunc st k 0 := by
  induction k with
  | zero => exact ⟨_, rfl, classInv_init G C par nfunc⟩
  | succ k ih =>
    obtain ⟨st1, h1, hinv1⟩ := ih (by omega)
    obtain ⟨st2, h2, hinv2⟩ := classInv_func G C nfunc parity par st1 k hinv1 hdeg hirr
      (by omega) (fun op hop => hpar k op (by omega) hop) hc G.order (le_refl _)
    refine ⟨st2, ?_, classInv_next G C par nfunc st2 k hinv2⟩
    rw [List.range_succ, List.foldlM_append, h1]
    simp only [List.foldlM_cons, List.foldlM_nil]
    show (classifyFunc G C parity st1 k >>= fun a => pure a) = _
    simp only [classifyFunc, h2]
    rfl

theorem nonzeroValue_nonneg (G : PointGroup) (C : Center) (par : Nat → Int) (r : Nat) :
    0 ≤ nonzeroValue G C par r := by
  unfold nonzeroValue
  exact Finset.sum_nonneg (fun j _ => abs_nonneg _)

theorem classCount_eq_length (G : PointGroup) (C : Center) (par : Nat → Int) (k : Nat) :
    classCount G C par k =
      ((List.range k).filter (fun r => decide (0 < nonzeroValue G C par r))).length := by
  induction k with
  | zero => simp [classCount]
  | succ k ih =>
    rw [classCount_succ, ih, List.range_succ, List.filter_append, List.length_append]
    by_cases h : 0 < nonzeroValue G C par k
    · simp [h]
    · simp [h]

theorem filter_range_getElem? (p : Nat → Bool) (n slot r : Nat)
    (h : ((List.range n).filter p)[slot]? = some r) :
    p r = true ∧ r < n ∧ ((List.range r).filter p).length = slot := by
  induction n with
  | zero => simp at h
  | succ n ih =>
    rw [List.range_succ, List.filter_append] at h
    by_cases hs : slot < ((List.range n).filter p).length
    · rw [List.getElem?_append_left hs] at h
      obtain ⟨h1, h2, h3⟩ := ih h
      exact ⟨h1, by omega, h3⟩
    · rw [List.getElem?_append_right (by omega)] at h
      by_cases hp : p n = true
      · simp only [List.filter_cons, hp, if_true, List.filter_nil] at h
        have hidx : slot - ((List.range n).filter p).length = 0 := by
          by_contra hne
          obtain ⟨m, hm⟩ : ∃ m, slot - ((List.range n).filter p).length = m + 1 :=
            ⟨slot - ((List.range n).filter p).length - 1, by omega⟩
          rw [hm] at h
          simp at h
        rw [hidx] at h
        simp only [List.getElem?_cons_zero, Option.some.injEq] at h
        subst h
        exact ⟨hp, by omega, by omega⟩
      · simp only [List.filter_cons, hp, Bool.false_eq_true, if_false, List.filter_nil] at h
        simp at h

theorem funcCount_mono (G : PointGroup) (C : Center) (par : Nat → Nat → Int) (r : Nat)
    {a b : Nat} (h : a ≤ b) : funcCount G C par r a ≤ funcCount G C par r b := by
  unfold funcCount
  apply Finset.card_le_card
  intro x hx
  simp only [Finset.mem_filter, Finset.mem_range] at hx ⊢
  exact ⟨by omega, hx.2⟩

theorem funcCount_lt (G : PointGroup) (C : Center) (par : Nat → Nat → Int) (r : Nat)
    {f F : Nat} (h : f < F) (hcl : r < G.order ∧ 0 < nonzeroValue G C (par f) r) :
    funcCount G C par r f < funcCount G C par r F := by
  have h1 := funcCount_succ G C par r f
  rw [if_pos hcl] at h1
  have h2 := funcCount_mono G C par r (show f + 1 ≤ F from h)
  omega

theorem funcCount_onto (G : PointGroup) (C : Center) (par : Nat → Nat → Int) (r F v : Nat)
    (hv : v < funcCount G C par r F) :
    ∃ f, f < F ∧ (r < G.order ∧ 0 < nonzeroValue G C (par f) r) ∧
      funcCount G C par r f = v := by
  induction F with
  | zero => simp [funcCount] at hv
  | succ F ih =>
    rw [funcCount_succ] at hv
    by_cases hlt : v < funcCount G C par r F
    · obtain ⟨f, hf, hcl, he⟩ := ih hlt
      exact ⟨f, by omega, hcl, he⟩
    · by_cases hcl : r < G.order ∧ 0 < nonzeroValue G C (par F) r
      · rw [if_pos hcl] at hv
        exact ⟨F, by omega, hcl, by omega⟩
      · rw [if_neg hcl] at hv
        omega

/-- The constructor returns, and its tables hold what the classification loop
records, whenever the indices of the loop stay in range. -/
theorem construct_records (G : PointGroup) (C : Center) (L nprim ncontr : Nat)
    (spherical keep : Bool) (exponents : Fin nprim → ℝ) (coeffs : Fin nprim → Fin ncontr → ℝ)
    (hdeg : C.ndegen ≤ G.order) (hirr : G.order ≤ G.nirrep)
    (hc : ∀ op, op < G.order → C.getCenterAfterOp op < G.order) :
    ∃ s, Shell.construct G C L nprim ncontr spherical keep exponents coeffs = .ok s ∧
      (∀ f r, f < getNFunc L spherical keep → r < G.order →
        0 < nonzeroValue G C (parityEntry G L spherical keep f) r →
        get2 s.irrep_pos f r = some (classCount G C (parityEntry G L spherical keep f) r : Int) ∧
        get2 s.irreps f (classCount G C (parityEntry G L spherical keep f) r)
          = some (r : Int) ∧
        get2 s.func_irrep f (classCount G C (parityEntry G L spherical keep f) r)
          = some (funcCount G C (parityEntry G L spherical keep) r f : Int)) ∧
      (∀ r, r < G.nirrep → s.nfunc_per_irrep.getD r 0 =
        (funcCount G C (parityEntry G L spherical keep) r (getNFunc L spherical keep) : Int)) ∧
      s.nfunc_per_irrep.length = G.nirrep := by
  obtain ⟨P, h1, _, hget⟩ := buildParity_spec G L spherical keep
  obtain ⟨M, h3, _⟩ := buildCart2spher_ok L spherical keep
  obtain ⟨cls, h2, hW, hrec, hnpi⟩ := classInv_classify G C (getNFunc L spherical keep) P
    (parityEntry G L spherical keep) hdeg hirr hget hc _ (le_refl _)
  refine ⟨_, construct_eq G C L nprim ncontr spherical keep exponents coeffs P cls M h1 h2 h3,
    ?_, ?_, hW.2.2.2.2⟩
  · intro f r hf hr hcl
    exact hrec f r (Or.inl hf) hr hcl
  · intro r hr
    have h := hnpi r hr
    rw [if_neg (fun h => by omega), add_zero] at h
    exact h

/-! ## Values of `cartcoef` for the `d` shell with contaminants -/

theorem cartsum_inner_cast (F : Int → Int → Int) (i : Int) (ks : List Int) (s : Int) :
    ks.foldl (fun (sum : ℝ) k => sum + (if (i + k) % 2 = 1 then -((F i k : Int) : ℝ)
        else ((F i k : Int) : ℝ))) (s : ℝ)
      = ((ks.foldl (fun (sum : Int) k => sum + (if (i + k) % 2 = 1 then -(F i k) else F i k)) s
          : Int) : ℝ) := by
  induction ks generalizing s with
  | nil => rfl
  | cons k ks ih =>
    simp only [List.foldl_cons]
    rw [← ih]
    congr 1
    split_ifs <;> push_cast <;> ring

theorem cartsum_outer_cast (F : Int → Int → Int) (ks is : List Int) (s : Int) :
    is.foldl (fun (sum : ℝ) i => ks.foldl (fun (sum : ℝ) k => sum +
        (if (i + k) % 2 = 1 then -((F i k : Int) : ℝ) else ((F i k : Int) : ℝ))) sum) (s : ℝ)
      = ((is.foldl (fun (sum : Int) i => ks.foldl (fun (sum : Int) k => sum +
          (if (i + k) % 2 = 1 then -(F i k) else F i k)) sum) s : Int) : ℝ) := by
  induction is generalizing s with
  | nil => rfl
  | cons i is ih =>
    simp only [List.foldl_cons]
    rw [cartsum_inner_cast F i ks s, ih]

theorem cartsum_eq_cast (l am lx j : Int) :
    cartsum l am lx j = ((cartsumInt l am lx j : Int) : ℝ) := by
  have h := cartsum_outer_cast
    (fun i k => binom (2 * l - 2 * i) (l + am) * binom l i * binom i j * binom j k *
      binom am (lx - 2 * k))
    (upTo j) (upTo (Int.tdiv (l - am) 2)) 0
  simpa [cartsum, cartsumInt] using h

theorem cartcoef_of_odd (l m lx ly lz : Int) (h : (lx + ly - |m|) % 2 = 1) :
    cartcoef l m lx ly lz = 0 := by
  simp only [cartcoef, if_pos h]

theorem cartcoef_of_gate (l m lx ly lz : Int) (h1 : (lx + ly - |m|) % 2 ≠ 1)
    (h2 : (0 ≤ m ∧ (|m| - lx) % 2 = 1) ∨ (¬ 0 ≤ m ∧ (|m| - lx) % 2 = 0)) :
    cartcoef l m lx ly lz = 0 := by
  rcases h2 with ⟨hm, h⟩ | ⟨hm, h⟩
  · simp only [cartcoef, if_neg h1, if_pos hm, if_pos h]
  · simp only [cartcoef, if_neg h1, if_neg hm, if_pos h]

theorem cartcoef_of_sum_zero (l m lx ly lz : Int)
    (h : cartsumInt l |m| lx (Int.tdiv (lx + ly - |m|) 2) = 0) :
    cartcoef l m lx ly lz = 0 := by
  have hs : cartsum l |m| lx (Int.tdiv (lx + ly - |m|) 2) = 0 := by
    rw [cartsum_eq_cast, h]; simp
  simp only [cartcoef, hs, zero_mul]
  split_ifs <;> rfl

theorem cartcoef_value (l m lx ly lz : Int) (s : Int) (h1 : (lx + ly - |m|) % 2 ≠ 1)
    (h2 : (0 ≤ m ∧ (|m| - lx) % 2 ≠ 1) ∨ (¬ 0 ≤ m ∧ (|m| - lx) % 2 ≠ 0))
    (hs : cartsumInt l |m| lx (Int.tdiv (lx + ly - |m|) 2) = s) :
    cartcoef l m lx ly lz = (s : ℝ) *
      (if (0 ≤ m ∧ (|m| - lx) % 4 = 2) ∨ (¬ 0 ≤ m ∧ (|m| - lx) % 4 = 3)
        then -cartprefactor l m lx ly lz else cartprefactor l m lx ly lz) := by
  have hsum : cartsum l |m| lx (Int.tdiv (lx + ly - |m|) 2) = (s : ℝ) := by
    rw [cartsum_eq_cast, hs]
  rcases h2 with ⟨hm, h⟩ | ⟨hm, h⟩
  · simp only [cartcoef, if_neg h1, if_pos hm, if_neg h, hsum, hm, true_and, not_true_eq_false,
      false_and, or_false, if_true]
  · simp only [cartcoef, if_neg h1, if_neg hm, if_neg h, hsum, hm, false_and, not_false_eq_true,
      true_and, false_or, if_false]

theorem sqrt_two_quarter : Real.sqrt 2 / 4 * Real.sqrt 2 = 1 / 2 := by
  have h : Real.sqrt 2 * Real.sqrt 2 = 2 := Real.mul_self_sqrt (by norm_num)
  linear_combination (1 / 4 : ℝ) * h

theorem sqrt_two_inv_quarter : (Real.sqrt 2)⁻¹ / 4 * Real.sqrt 2 = 1 / 4 := by
  have h : Real.sqrt 2 ≠ 0 := by positivity
  field_simp

theorem cartprefactor_d_0_0 : cartprefactor 2 2 2 0 0 = 1 / 2 := by
  have b1 : binom (2 * 2) 2 * binom (2 * 0) 0 * binom (2 * 0) 0 *
      binom (2 + |2|) |2| = 36 := by decide
  have b2 : binom (2 * 2) 2 * binom 2 |2| * binom (2 + 0 + 0) 2 *
      binom (0 + 0) 0 = 6 := by decide
  have b3 : dfact (2 * 2 - 1) * dfact (2 * 0 - 1) * dfact (2 * 0 - 1) = 3 := by decide
  simp only [cartprefactor, b1, b2, b3]
  norm_num
  exact sqrt_two_quarter

theorem cartcoef_d_0_0 : cartcoef 2 2 2 0 0 = 1 / 2 := by
  rw [cartcoef_value 2 2 2 0 0 (1) (by decide) (by decide) (by decide),
    cartprefactor_d_0_0]
  norm_num


theorem cartcoef_d_1_0 : cartcoef 2 2 1 1 0 = 0 :=
  cartcoef_of_gate _ _ _ _ _ (by decide) (by decide)

theorem cartcoef_d_2_0 : cartcoef 2 2 1 0 1 = 0 :=
  cartcoef_of_odd _ _ _ _ _ (by decide)

theorem cartprefactor_d_3_0 : cartprefactor 2 2 0 2 0 = 1 / 2 := by
  have b1 : binom (2 * 0) 0 * binom (2 * 2) 2 * binom (2 * 0) 0 *
      binom (2 + |2|) |2| = 36 := by decide
  have b2 : binom (2 * 2) 2 * binom 2 |2| * binom (0 + 2 + 0) 0 *
      binom (2 + 0) 2 = 6 := by decide
  have b3 : dfact (2 * 0 - 1) * dfact (2 * 2 - 1) * dfact (2 * 0 - 1) = 3 := by decide
  simp only [cartprefactor, b1, b2, b3]
  norm_num
  exact sqrt_two_quarter

theorem cartcoef_d_3_0 : cartcoef 2 2 0 2 0 = -(1 / 2) := by
  rw [cartcoef_value 2 2 0 2 0 (1) (by decide) (by decide) (by decide),
    cartprefactor_d_3_0]
  norm_num


theorem cartcoef_d_4_0 : cartcoef 2 2 0 1 1 = 0 :=
  cartcoef_of_odd _ _ _ _ _ (by decide)

theorem cartcoef_d_5_0 : cartcoef 2 2 0 0 2 = 0 :=
  cartcoef_of_sum_zero _ _ _ _ _ (by decide)

theorem cartcoef_d_0_1 : cartcoef 2 (-2) 2 0 0 = 0 :=
  cartcoef_of_gate _ _ _ _ _ (by decide) (by decide)

theorem cartprefactor_d_1_1 : cartprefactor 2 (-2) 1 1 0 = 1 / 2 := by
  have b1 : binom (2 * 1) 1 * binom (2 * 1) 1 * binom (2 * 0) 0 *
      binom (2 + |(-2)|) |(-2)| = 24 := by decide
  have b2 : binom (2 * 2) 2 * binom 2 |(-2)| * binom (1 + 1 + 0) 1 *
      binom (1 + 0) 1 = 12 := by decide
  have b3 : dfact (2 * 1 - 1) * dfact (2 * 1 - 1) * dfact (2 * 0 - 1) = 1 := by decide
  simp only [cartprefactor, b1, b2, b3]
  norm_num
  exact sqrt_two_quarter

theorem cartcoef_d_1_1 : cartcoef 2 (-2) 1 1 0 = 1 := by
  rw [cartcoef_value 2 (-2) 1 1 0 (2) (by decide) (by decide) (by decide),
    cartprefactor_d_1_1]
  norm_num


theorem cartcoef_d_2_1 : cartcoef 2 (-2) 1 0 1 = 0 :=
  cartcoef_of_odd _ _ _ _ _ (by decide)

theorem cartcoef_d_3_1 : cartcoef 2 (-2) 0 2 0 = 0 :=
  cartcoef_of_gate _ _ _ _ _ (by decide) (by decide)

theorem cartcoef_d_4_1 : cartcoef 2 (-2) 0 1 1 = 0 :=
  cartcoef_of_odd _ _ _ _ _ (by decide)

theorem cartcoef_d_5_1 : cartcoef 2 (-2) 0 0 2 = 0 :=
  cartcoef_of_gate _ _ _ _ _ (by decide) (by decide)

theorem cartcoef_d_0_2 : cartcoef 2 1 2 0 0 = 0 :=
  cartcoef_of_odd _ _ _ _ _ (by decide)

theorem cartcoef_d_1_2 : cartcoef 2 1 1 1 0 = 0 :=
  cartcoef_of_odd _ _ _ _ _ (by decide)

theorem cartprefactor_d_2_2 : cartprefactor 2 1 1 0 1 = 1 / 4 := by
  have b1 : binom (2 * 1) 1 * binom (2 * 0) 0 * binom (2 * 1) 1 *
      binom (2 + |1|) |1| = 12 := by decide
  have b2 : binom (2 * 2) 2 * binom 2 |1| * binom (1 + 0 + 1) 1 *
      binom (0 + 1) 0 = 24 := by decide
  have b3 : dfact (2 * 1 - 1) * dfact (2 * 0 - 1) * dfact (2 * 1 - 1) = 1 := by decide
  simp only [cartprefactor, b1, b2, b3]
  norm_num
  exact sqrt_two_inv_quarter

theorem cartcoef_d_2_2 : cartcoef 2 1 1 0 1 = 1 := by
  rw [cartcoef_value 2 1 1 0 1 (4) (by decide) (by decide) (by decide),
    cartprefactor_d_2_2]
  norm_num


theorem cartcoef_d_3_2 : cartcoef 2 1 0 2 0 = 0 :=
  cartcoef_of_odd _ _ _ _ _ (by decide)

theorem cartcoef_d_4_2 : cartcoef 2 1 0 1 1 = 0 :=
  cartcoef_of_gate _ _ _ _ _ (by decide) (by decide)

theorem cartcoef_d_5_2 : cartcoef 2 1 0 0 2 = 0 :=
  cartcoef_of_odd _ _ _ _ _ (by decide)

theorem cartcoef_d_0_3 : cartcoef 2 (-1) 2 0 0 = 0 :=
  cartcoef_of_odd _ _ _ _ _ (by decide)

theorem cartcoef_d_1_3 : cartcoef 2 (-1) 1 1 0 = 0 :=
  cartcoef_of_odd _ _ _ _ _ (by decide)

theorem cartcoef_d_2_3 : cartcoef 2 (-1) 1 0 1 = 0 :=
  cartcoef_of_gate _ _ _ _ _ (by decide) (by decide)

theorem cartcoef_d_3_3 : cartcoef 2 (-1) 0 2 0 = 0 :=
  cartcoef_of_odd _ _ _ _ _ (by decide)

theorem cartprefactor_d_4_3 : cartprefactor 2 (-1) 0 1 1 = 1 / 4 := by
  have b1 : binom (2 * 0) 0 * binom (2 * 1) 1 * binom (2 * 1) 1 *
      binom (2 + |(-1)|) |(-1)| = 12 := by decide
  have b2 : binom (2 * 2) 2 * binom 2 |(-1)| * binom (0 + 1 + 1) 0 *
      binom (1 + 1) 1 = 24 := by decide
  have b3 : dfact (2 * 0 - 1) * dfact (2 * 1 - 1) * dfact (2 * 1 - 1) = 1 := by decide
  simp only [cartprefactor, b1, b2, b3]
  norm_num
  exact sqrt_two_inv_quarter

theorem cartcoef_d_4_3 : cartcoef 2 (-1) 0 1 1 = 1 := by
  rw [cartcoef_value 2 (-1) 0 1 1 (4) (by decide) (by decide) (by decide),
    cartprefactor_d_4_3]
  norm_num


theorem cartcoef_d_5_3 : cartcoef 2 (-1) 0 0 2 = 0 :=
  cartcoef_of_odd _ _ _ _ _ (by decide)

theorem cartprefactor_d_0_4 : cartprefactor 2 0 2 0 0 = Real.sqrt (1 / 3) / 4 := by
  have b1 : binom (2 * 2) 2 * binom (2 * 0) 0 * binom (2 * 0) 0 *
      binom (2 + |0|) |0| = 6 := by decide
  have b2 : binom (2 * 2) 2 * binom 2 |0| * binom (2 + 0 + 0) 2 *
      binom (0 + 0) 0 = 6 := by decide
  have b3 : dfact (2 * 2 - 1) * dfact (2 * 0 - 1) * dfact (2 * 0 - 1) = 3 := by decide
  simp only [cartprefactor, b1, b2, b3]
  norm_num

theorem cartcoef_d_0_4 : cartcoef 2 0 2 0 0 = -(Real.sqrt (1 / 3) / 2) := by
  rw [cartcoef_value 2 0 2 0 0 (2) (by decide) (by decide) (by decide),
    cartprefactor_d_0_4]
  norm_num
  ring

theorem cartcoef_d_1_4 : cartcoef 2 0 1 1 0 = 0 :=
  cartcoef_of_gate _ _ _ _ _ (by decide) (by decide)

theorem cartcoef_d_2_4 : cartcoef 2 0 1 0 1 = 0 :=
  cartcoef_of_odd _ _ _ _ _ (by decide)

theorem cartprefactor_d_3_4 : cartprefactor 2 0 0 2 0 = Real.sqrt (1 / 3) / 4 := by
  have b1 : binom (2 * 0) 0 * binom (2 * 2) 2 * binom (2 * 0) 0 *
      binom (2 + |0|) |0| = 6 := by decide
  have b2 : binom (2 * 2) 2 * binom 2 |0| * binom (0 + 2 + 0) 0 *
      binom (2 + 0) 2 = 6 := by decide
  have b3 : dfact (2 * 0 - 1) * dfact (2 * 2 - 1) * dfact (2 * 0 - 1) = 3 := by decide
  simp only [cartprefactor, b1, b2, b3]
  norm_num

theorem cartcoef_d_3_4 : cartcoef 2 0 0 2 0 = -(Real.sqrt (1 / 3) / 2) := by
  rw [cartcoef_value 2 0 0 2 0 (-2) (by decide) (by decide) (by decide),
    cartprefactor_d_3_4]
  norm_num
  ring

theorem cartcoef_d_4_4 : cartcoef 2 0 0 1 1 = 0 :=
  cartcoef_of_odd _ _ _ _ _ (by decide)

theorem cartprefactor_d_5_4 : cartprefactor 2 0 0 0 2 = Real.sqrt (1 / 3) / 4 := by
  have b1 : binom (2 * 0) 0 * binom (2 * 0) 0 * binom (2 * 2) 2 *
      binom (2 + |0|) |0| = 6 := by decide
  have b2 : binom (2 * 2) 2 * binom 2 |0| * binom (0 + 0 + 2) 0 *
      binom (0 + 2) 0 = 6 := by decide
  have b3 : dfact (2 * 0 - 1) * dfact (2 * 0 - 1) * dfact (2 * 2 - 1) = 3 := by decide
  simp only [cartprefactor, b1, b2, b3]
  norm_num

theorem cartcoef_d_5_4 : cartcoef 2 0 0 0 2 = Real.sqrt (1 / 3) := by
  rw [cartcoef_value 2 0 0 0 2 (4) (by decide) (by decide) (by decide),
    cartprefactor_d_5_4]
  norm_num
  ring

theorem cartcoef_d_0_5 : cartcoef 0 0 2 0 0 = 0 :=
  cartcoef_of_sum_zero _ _ _ _ _ (by decide)

theorem cartcoef_d_1_5 : cartcoef 0 0 1 1 0 = 0 :=
  cartcoef_of_gate _ _ _ _ _ (by decide) (by decide)

theorem cartcoef_d_2_5 : cartcoef 0 0 1 0 1 = 0 :=
  cartcoef_of_odd _ _ _ _ _ (by decide)

theorem cartcoef_d_3_5 : cartcoef 0 0 0 2 0 = 0 :=
  cartcoef_of_sum_zero _ _ _ _ _ (by decide)

theorem cartcoef_d_4_5 : cartcoef 0 0 0 1 1 = 0 :=
  cartcoef_of_odd _ _ _ _ _ (by decide)

theorem cartprefactor_d_5_5 : cartprefactor 0 0 0 0 2 = Real.sqrt 2 := by
  have b1 : binom (2 * 0) 0 * binom (2 * 0) 0 * binom (2 * 2) 2 *
      binom (0 + |0|) |0| = 6 := by decide
  have b2 : binom (2 * 0) 0 * binom 0 |0| * binom (0 + 0 + 2) 0 *
      binom (0 + 2) 0 = 1 := by decide
  have b3 : dfact (2 * 0 - 1) * dfact (2 * 0 - 1) * dfact (2 * 2 - 1) = 3 := by decide
  simp only [cartprefactor, b1, b2, b3]
  norm_num

theorem cartcoef_d_5_5 : cartcoef 0 0 0 0 2 = Real.sqrt 2 := by
  rw [cartcoef_value 0 0 0 0 2 (1) (by decide) (by decide) (by decide),
    cartprefactor_d_5_5]
  norm_num


theorem sphericalOrder_d : sphericalOrder 2 true =
    [(2, 2), (2, -2), (2, 1), (2, -1), (2, 0), (0, 0)] := by rfl

theorem cartesianOrder_d : cartesianOrder 2 =
    [(2, 0, 0), (1, 1, 0), (1, 0, 1), (0, 2, 0), (0, 1, 1), (0, 0, 2)] := by rfl

theorem cart2spher_d_0_0 : cart2spherEntry 2 true 0 0 = 1 / 2 := by
  simp [cart2spherEntry, sphericalOrder_d, cartesianOrder_d, cartcoef_d_0_0]

theorem cart2spher_d_0_1 : cart2spherEntry 2 true 0 1 = 0 := by
  simp [cart2spherEntry, sphericalOrder_d, cartesianOrder_d, cartcoef_d_0_1]

theorem cart2spher_d_0_2 : cart2spherEntry 2 true 0 2 = 0 := by
  simp [cart2spherEntry, sphericalOrder_d, cartesianOrder_d, cartcoef_d_0_2]

theorem cart2spher_d_0_3 : cart2spherEntry 2 true 0 3 = 0 := by
  simp [cart2spherEntry, sphericalOrder_d, cartesianOrder_d, cartcoef_d_0_3]

theorem cart2spher_d_0_4 : cart2spherEntry 2 true 0 4 = -(Real.sqrt (1 / 3) / 2) := by
  simp [cart2spherEntry, sphericalOrder_d, cartesianOrder_d, cartcoef_d_0_4]

theorem cart2spher_d_0_5 : cart2spherEntry 2 true 0 5 = 0 := by
  simp [cart2spherEntry, sphericalOrder_d, cartesianOrder_d, cartcoef_d_0_5]

theorem cart2spher_d_1_0 : cart2spherEntry 2 true 1 0 = 0 := by
  simp [cart2spherEntry, sphericalOrder_d, cartesianOrder_d, cartcoef_d_1_0]

theorem cart2spher_d_1_1 : cart2spherEntry 2 true 1 1 = 1 := by
  simp [cart2spherEntry, sphericalOrder_d, cartesianOrder_d, cartcoef_d_1_1]

theorem cart2spher_d_1_2 : cart2spherEntry 2 true 1 2 = 0 := by
  simp [cart2spherEntry, sphericalOrder_d, cartesianOrder_d, cartcoef_d_1_2]

theorem cart2spher_d_1_3 : cart2spherEntry 2 true 1 3 = 0 := by
  simp [cart2spherEntry, sphericalOrder_d, cartesianOrder_d, cartcoef_d_1_3]

theorem cart2spher_d_1_4 : cart2spherEntry 2 true 1 4 = 0 := by
  simp [cart2spherEntry, sphericalOrder_d, cartesianOrder_d, cartcoef_d_1_4]

theorem cart2spher_d_1_5 : cart2spherEntry 2 true 1 5 = 0 := by
  simp [cart2spherEntry, sphericalOrder_d, cartesianOrder_d, cartcoef_d_1_5]

theorem cart2spher_d_2_0 : cart2spherEntry 2 true 2 0 = 0 := by
  simp [cart2spherEntry, sphericalOrder_d, cartesianOrder_d, cartcoef_d_2_0]

theorem cart2spher_d_2_1 : cart2spherEntry 2 true 2 1 = 0 := by
  simp [cart2spherEntry, sphericalOrder_d, cartesianOrder_d, cartcoef_d_2_1]

theorem cart2spher_d_2_2 : cart2spherEntry 2 true 2 2 = 1 := by
  simp [cart2spherEntry, sphericalOrder_d, cartesianOrder_d, cartcoef_d_2_2]

theorem cart2spher_d_2_3 : cart2spherEntry 2 true 2 3 = 0 := by
  simp [cart2spherEntry, sphericalOrder_d, cartesianOrder_d, cartcoef_d_2_3]

theorem cart2spher_d_2_4 : cart2spherEntry 2 true 2 4 = 0 := by
  simp [cart2spherEntry, sphericalOrder_d, cartesianOrder_d, cartcoef_d_2_4]

theorem cart2spher_d_2_5 : cart2spherEntry 2 true 2 5 = 0 := by
  simp [cart2spherEntry, sphericalOrder_d, cartesianOrder_d, cartcoef_d_2_5]

theorem cart2spher_d_3_0 : cart2spherEntry 2 true 3 0 = -(1 / 2) := by
  simp [cart2spherEntry, sphericalOrder_d, cartesianOrder_d, cartcoef_d_3_0]

theorem cart2spher_d_3_1 : cart2spherEntry 2 true 3 1 = 0 := by
  simp [cart2spherEntry, sphericalOrder_d, cartesianOrder_d, cartcoef_d_3_1]

theorem cart2spher_d_3_2 : cart2spherEntry 2 true 3 2 = 0 := by
  simp [cart2spherEntry, sphericalOrder_d, cartesianOrder_d, cartcoef_d_3_2]

theorem cart2spher_d_3_3 : cart2spherEntry 2 true 3 3 = 0 := by
  simp [cart2spherEntry, sphericalOrder_d, cartesianOrder_d, cartcoef_d_3_3]

theorem cart2spher_d_3_4 : cart2spherEntry 2 true 3 4 = -(Real.sqrt (1 / 3) / 2) := by
  simp [cart2spherEntry, sphericalOrder_d, cartesianOrder_d, cartcoef_d_3_4]

theorem cart2spher_d_3_5 : cart2spherEntry 2 true 3 5 = 0 := by
  simp [cart2spherEntry, sphericalOrder_d, cartesianOrder_d, cartcoef_d_3_5]

theorem cart2spher_d_4_0 : cart2spherEntry 2 true 4 0 = 0 := by
  simp [cart2spherEntry, sphericalOrder_d, cartesianOrder_d, cartcoef_d_4_0]

theorem cart2spher_d_4_1 : cart2spherEntry 2 true 4 1 = 0 := by
  simp [cart2spherEntry, sphericalOrder_d, cartesianOrder_d, cartcoef_d_4_1]

theorem cart2spher_d_4_2 : cart2spherEntry 2 true 4 2 = 0 := by
  simp [cart2spherEntry, sphericalOrder_d, cartesianOrder_d, cartcoef_d_4_2]

theorem cart2spher_d_4_3 : cart2spherEntry 2 true 4 3 = 1 := by
  simp [cart2spherEntry, sphericalOrder_d, cartesianOrder_d, cartcoef_d_4_3]

theorem cart2spher_d_4_4 : cart2spherEntry 2 true 4 4 = 0 := by
  simp [cart2spherEntry, sphericalOrder_d, cartesianOrder_d, cartcoef_d_4_4]

theorem cart2spher_d_4_5 : cart2spherEntry 2 true 4 5 = 0 := by
  simp [cart2spherEntry, sphericalOrder_d, cartesianOrder_d, cartcoef_d_4_5]

theorem cart2spher_d_5_0 : cart2spherEntry 2 true 5 0 = 0 := by
  simp [cart2spherEntry, sphericalOrder_d, cartesianOrder_d, cartcoef_d_5_0]

theorem cart2spher_d_5_1 : cart2spherEntry 2 true 5 1 = 0 := by
  simp [cart2spherEntry, sphericalOrder_d, cartesianOrder_d, cartcoef_d_5_1]

theorem cart2spher_d_5_2 : cart2spherEntry 2 true 5 2 = 0 := by
  simp [cart2spherEntry, sphericalOrder_d, cartesianOrder_d, cartcoef_d_5_2]

theorem cart2spher_d_5_3 : cart2spherEntry 2 true 5 3 = 0 := by
  simp [cart2spherEntry, sphericalOrder_d, cartesianOrder_d, cartcoef_d_5_3]

theorem cart2spher_d_5_4 : cart2spherEntry 2 true 5 4 = Real.sqrt (1 / 3) := by
  simp [cart2spherEntry, sphericalOrder_d, cartesianOrder_d, cartcoef_d_5_4]

theorem cart2spher_d_5_5 : cart2spherEntry 2 true 5 5 = Real.sqrt 2 := by
  simp [cart2spherEntry, sphericalOrder_d, cartesianOrder_d, cartcoef_d_5_5]

theorem dShellMatrix_eq : dShellMatrix = dShellValues := by
  ext cf sf
  fin_cases cf <;> fin_cases sf
  · exact cart2spher_d_0_0
  · exact cart2spher_d_0_1
  · exact cart2spher_d_0_2
  · exact cart2spher_d_0_3
  · exact cart2spher_d_0_4
  · exact cart2spher_d_0_5
  · exact cart2spher_d_1_0
  · exact cart2spher_d_1_1
  · exact cart2spher_d_1_2
  · exact cart2spher_d_1_3
  · exact cart2spher_d_1_4
  · exact cart2spher_d_1_5
  · exact cart2spher_d_2_0
  · exact cart2spher_d_2_1
  · exact cart2spher_d_2_2
  · exact cart2spher_d_2_3
  · exact cart2spher_d_2_4
  · exact cart2spher_d_2_5
  · exact cart2spher_d_3_0
  · exact cart2spher_d_3_1
  · exact cart2spher_d_3_2
  · exact cart2spher_d_3_3
  · exact cart2spher_d_3_4
  · exact cart2spher_d_3_5
  · exact cart2spher_d_4_0
  · exact cart2spher_d_4_1
  · exact cart2spher_d_4_2
  · exact cart2spher_d_4_3
  · exact cart2spher_d_4_4
  · exact cart2spher_d_4_5
  · exact cart2spher_d_5_0
  · exact cart2spher_d_5_1
  · exact cart2spher_d_5_2
  · exact cart2spher_d_5_3
  · exact cart2spher_d_5_4
  · exact cart2spher_d_5_5

theorem dShellValues_mul_inverse : dShellValues * dShellInverse = 1 := by
  have h3 : Real.sqrt (1 / 3) ≠ 0 := by positivity
  have h2 : Real.sqrt 2 ≠ 0 := by positivity
  ext i j
  fin_cases i <;> fin_cases j
  · rw [Matrix.mul_apply, Fin.sum_univ_six]
    show ((1 / 2) * (1) + (0) * (0) + (0) * (0) + (0) * (0) + (-(Real.sqrt (1 / 3) / 2)) * (-(1 / Real.sqrt (1 / 3))) + (0) * (1 / Real.sqrt 2) : ℝ) = 1
    field_simp
    ring
  · rw [Matrix.mul_apply, Fin.sum_univ_six]
    show ((1 / 2) * (0) + (0) * (1) + (0) * (0) + (0) * (0) + (-(Real.sqrt (1 / 3) / 2)) * (0) + (0) * (0) : ℝ) = 0
    field_simp
  · rw [Matrix.mul_apply, Fin.sum_univ_six]
    show ((1 / 2) * (0) + (0) * (0) + (0) * (1) + (0) * (0) + (-(Real.sqrt (1 / 3) / 2)) * (0) + (0) * (0) : ℝ) = 0
    field_simp
  · rw [Matrix.mul_apply, Fin.sum_univ_six]
    show ((1 / 2) * (-1) + (0) * (0) + (0) * (0) + (0) * (0) + (-(Real.sqrt (1 / 3) / 2)) * (-(1 / Real.sqrt (1 / 3))) + (0) * (1 / Real.sqrt 2) : ℝ) = 0
    field_simp
  · rw [Matrix.mul_apply, Fin.sum_univ_six]
    show ((1 / 2) * (0) + (0) * (0) + (0) * (0) + (0) * (1) + (-(Real.sqrt (1 / 3) / 2)) * (0) + (0) * (0) : ℝ) = 0
    field_simp
  · rw [Matrix.mul_apply, Fin.sum_univ_six]
    show ((1 / 2) * (0) + (0) * (0) + (0) * (0) + (0) * (0) + (-(Real.sqrt (1 / 3) / 2)) * (0) + (0) * (1 / Real.sqrt 2) : ℝ) = 0
    field_simp
  · rw [Matrix.mul_apply, Fin.sum_univ_six]
    show ((0) * (1) + (1) * (0) + (0) * (0) + (0) * (0) + (0) * (-(1 / Real.sqrt (1 / 3))) + (0) * (1 / Real.sqrt 2) : ℝ) = 0
    field_simp
  · rw [Matrix.mul_apply, Fin.sum_univ_six]
    show ((0) * (0) + (1) * (1) + (0) * (0) + (0) * (0) + (0) * (0) + (0) * (0) : ℝ) = 1
    field_simp
  · rw [Matrix.mul_apply, Fin.sum_univ_six]
    show ((0) * (0) + (1) * (0) + (0) * (1) + (0) * (0) + (0) * (0) + (0) * (0) : ℝ) = 0
    field_simp
  · rw [Matrix.mul_apply, Fin.sum_univ_six]
    show ((0) * (-1) + (1) * (0) + (0) * (0) + (0) * (0) + (0) * (-(1 / Real.sqrt (1 / 3))) + (0) * (1 / Real.sqrt 2) : ℝ) = 0
    field_simp
  · rw [Matrix.mul_apply, Fin.sum_univ_six]
    show ((0) * (0) + (1) * (0) + (0) * (0) + (0) * (1) + (0) * (0) + (0) * (0) : ℝ) = 0
    field_simp
  · rw [Matrix.mul_apply, Fin.sum_univ_six]
    show ((0) * (0) + (1) * (0) + (0) * (0) + (0) * (0) + (0) * (0) + (0) * (1 / Real.sqrt 2) : ℝ) = 0
    field_simp
  · rw [Matrix.mul_apply, Fin.sum_univ_six]
    show ((0) * (1) + (0) * (0) + (1) * (0) + (0) * (0) + (0) * (-(1 / Real.sqrt (1 / 3))) + (0) * (1 / Real.sqrt 2) : ℝ) = 0
    field_simp
  · rw [Matrix.mul_apply, Fin.sum_univ_six]
    show ((0) * (0) + (0) * (1) + (1) * (0) + (0) * (0) + (0) * (0) + (0) * (0) : ℝ) = 0
    field_simp
  · rw [Matrix.mul_apply, Fin.sum_univ_six]
    show ((0) * (0) + (0) * (0) + (1) * (1) + (0) * (0) + (0) * (0) + (0) * (0) : ℝ) = 1
    field_simp
  · rw [Matrix.mul_apply, Fin.sum_univ_six]
    show ((0) * (-1) + (0) * (0) + (1) * (0) + (0) * (0) + (0) * (-(1 / Real.sqrt (1 / 3))) + (0) * (1 / Real.sqrt 2) : ℝ) = 0
    field_simp
  · rw [Matrix.mul_apply, Fin.sum_univ_six]
    show ((0) * (0) + (0) * (0) + (1) * (0) + (0) * (1) + (0) * (0) + (0) * (0) : ℝ) = 0
    field_simp
  · rw [Matrix.mul_apply, Fin.sum_univ_six]
    show ((0) * (0) + (0) * (0) + (1) * (0) + (0) * (0) + (0) * (0) + (0) * (1 / Real.sqrt 2) : ℝ) = 0
    field_simp
  · rw [Matrix.mul_apply, Fin.sum_univ_six]
    show ((-(1 / 2)) * (1) + (0) * (0) + (0) * (0) + (0) * (0) + (-(Real.sqrt (1 / 3) / 2)) * (-(1 / Real.sqrt (1 / 3))) + (0) * (1 / Real.sqrt 2) : ℝ) = 0
    field_simp
  · rw [Matrix.mul_apply, Fin.sum_univ_six]
    show ((-(1 / 2)) * (0) + (0) * (1) + (0) * (0) + (0) * (0) + (-(Real.sqrt (1 / 3) / 2)) * (0) + (0) * (0) : ℝ) = 0
    field_simp
  · rw [Matrix.mul_apply, Fin.sum_univ_six]
    show ((-(1 / 2)) * (0) + (0) * (0) + (0) * (1) + (0) * (0) + (-(Real.sqrt (1 / 3) / 2)) * (0) + (0) * (0) : ℝ) = 0
    field_simp
  · rw [Matrix.mul_apply, Fin.sum_univ_six]
    show ((-(1 / 2)) * (-1) + (0) * (0) + (0) * (0) + (0) * (0) + (-(Real.sqrt (1 / 3) / 2)) * (-(1 / Real.sqrt (1 / 3))) + (0) * (1 / Real.sqrt 2) : ℝ) = 1
    field_simp
    ring
  · rw [Matrix.mul_apply, Fin.sum_univ_six]
    show ((-(1 / 2)) * (0) + (0) * (0) + (0) * (0) + (0) * (1) + (-(Real.sqrt (1 / 3) / 2)) * (0) + (0) * (0) : ℝ) = 0
    field_simp
  · rw [Matrix.mul_apply, Fin.sum_univ_six]
    show ((-(1 / 2)) * (0) + (0) * (0) + (0) * (0) + (0) * (0) + (-(Real.sqrt (1 / 3) / 2)) * (0) + (0) * (1 / Real.sqrt 2) : ℝ) = 0
    field_simp
  · rw [Matrix.mul_apply, Fin.sum_univ_six]
    show ((0) * (1) + (0) * (0) + (0) * (0) + (1) * (0) + (0) * (-(1 / Real.sqrt (1 / 3))) + (0) * (1 / Real.sqrt 2) : ℝ) = 0
    field_simp
  · rw [Matrix.mul_apply, Fin.sum_univ_six]
    show ((0) * (0) + (0) * (1) + (0) * (0) + (1) * (0) + (0) * (0) + (0) * (0) : ℝ) = 0
    field_simp
  · rw [Matrix.mul_apply, Fin.sum_univ_six]
    show ((0) * (0) + (0) * (0) + (0) * (1) + (1) * (0) + (0) * (0) + (0) * (0) : ℝ) = 0
    field_simp
  · rw [Matrix.mul_apply, Fin.sum_univ_six]
    show ((0) * (-1) + (0) * (0) + (0) * (0) + (1) * (0) + (0) * (-(1 / Real.sqrt (1 / 3))) + (0) * (1 / Real.sqrt 2) : ℝ) = 0
    field_simp
  · rw [Matrix.mul_apply, Fin.sum_univ_six]
    show ((0) * (0) + (0) * (0) + (0) * (0) + (1) * (1) + (0) * (0) + (0) * (0) : ℝ) = 1
    field_simp
  · rw [Matrix.mul_apply, Fin.sum_univ_six]
    show ((0) * (0) + (0) * (0) + (0) * (0) + (1) * (0) + (0) * (0) + (0) * (1 / Real.sqrt 2) : ℝ) = 0
    field_simp
  · rw [Matrix.mul_apply, Fin.sum_univ_six]
    show ((0) * (1) + (0) * (0) + (0) * (0) + (0) * (0) + (Real.sqrt (1 / 3)) * (-(1 / Real.sqrt (1 / 3))) + (Real.sqrt 2) * (1 / Real.sqrt 2) : ℝ) = 0
    field_simp
  · rw [Matrix.mul_apply, Fin.sum_univ_six]
    show ((0) * (0) + (0) * (1) + (0) * (0) + (0) * (0) + (Real.sqrt (1 / 3)) * (0) + (Real.sqrt 2) * (0) : ℝ) = 0
    field_simp
  · rw [Matrix.mul_apply, Fin.sum_univ_six]
    show ((0) * (0) + (0) * (0) + (0) * (1) + (0) * (0) + (Real.sqrt (1 / 3)) * (0) + (Real.sqrt 2) * (0) : ℝ) = 0
    field_simp
  · rw [Matrix.mul_apply, Fin.sum_univ_six]
    show ((0) * (-1) + (0) * (0) + (0) * (0) + (0) * (0) + (Real.sqrt (1 / 3)) * (-(1 / Real.sqrt (1 / 3))) + (Real.sqrt 2) * (1 / Real.sqrt 2) : ℝ) = 0
    field_simp
  · rw [Matrix.mul_apply, Fin.sum_univ_six]
    show ((0) * (0) + (0) * (0) + (0) * (0) + (0) * (1) + (Real.sqrt (1 / 3)) * (0) + (Real.sqrt 2) * (0) : ℝ) = 0
    field_simp
  · rw [Matrix.mul_apply, Fin.sum_univ_six]
    show ((0) * (0) + (0) * (0) + (0) * (0) + (0) * (0) + (Real.sqrt (1 / 3)) * (0) + (Real.sqrt 2) * (1 / Real.sqrt 2) : ℝ) = 1
    field_simp

theorem dShellMatrix_det_ne_zero : dShellMatrix.det ≠ 0 := by
  rw [dShellMatrix_eq]
  exact Matrix.det_ne_zero_of_right_inverse dShellValues_mul_inverse

/-! ## C1: population of the irreps -/

/-- C1: for every shell and every well-formed point group and orbit
(`SymmetryData`, which entails `order % ndegen = 0`, and parity rows that are
multiplicative), the constructor returns and the entries of `nfunc_per_irrep`
add up to `nfunc * ndegen`. -/
theorem nfunc_per_irrep_sum (G : PointGroup) (C : Center) (mul : Nat → Nat → Nat)
    (inv : Nat → Nat) (e : Nat) (L nprim ncontr : Nat) (spherical keep : Bool)
    (exponents : Fin nprim → ℝ) (coeffs : Fin nprim → Fin ncontr → ℝ)
    (hd : SymmetryData G C mul inv e)
    (hp : ∀ f, f < getNFunc L spherical keep → ∀ g, g < G.order → ∀ h, h < G.order →
      parityEntry G L spherical keep f (mul g h) =
        parityEntry G L spherical keep f g * parityEntry G L spherical keep f h) :
    ∃ s, Shell.construct G C L nprim ncontr spherical keep exponents coeffs = .ok s ∧
      s.nfunc_per_irrep.sum = (getNFunc L spherical keep : Int) * (C.ndegen : Int) := by
  obtain ⟨s, hs, _, _, _, _, _, hsum⟩ := construct_total G C L nprim ncontr spherical keep
    exponents coeffs (ndegen_le_order hd) (le_of_eq hd.nirrep_eq.symm)
    (fun op hop => Nat.lt_of_lt_of_le (hd.center_lt op hop) (ndegen_le_order hd))
  refine ⟨s, hs, ?_⟩
  rw [hsum, Finset.sum_congr rfl (fun f hf => by
    rw [classCount_eq_ndegen (parityEntry G L spherical keep f) hd
      ⟨fun g _ => parityEntry_eq G L spherical keep f g (Finset.mem_range.mp hf),
       fun g h hg hh => hp f (Finset.mem_range.mp hf) g hg h hh⟩])]
  simp

theorem symmetryData_Cs :
    SymmetryData groupCs centerOffPlane (fun g h => (g + h) % 2) (fun g => g) 0 where
  nirrep_eq := rfl
  e_lt := by decide
  mul_lt := fun g h _ _ => Nat.mod_lt _ (by decide)
  inv_lt := fun g hg => hg
  mul_assoc := by
    intro g h k hg hh hk
    simp only [groupCs] at hg hh hk
    interval_cases g <;> interval_cases h <;> interval_cases k <;> rfl
  e_mul := by
    intro g hg
    simp only [groupCs] at hg
    interval_cases g <;> rfl
  inv_mul := by
    intro g hg
    simp only [groupCs] at hg
    interval_cases g <;> rfl
  mul_inv := by
    intro g hg
    simp only [groupCs] at hg
    interval_cases g <;> rfl
  char_pm := by
    intro r g hr hg
    simp only [groupCs] at hr hg
    interval_cases r <;> interval_cases g <;> decide
  char_mul := by
    intro r g h hr hg hh
    simp only [groupCs] at hr hg hh
    interval_cases r <;> interval_cases g <;> interval_cases h <;> decide
  char_sum := by
    intro g hg hne
    simp only [groupCs] at hg
    interval_cases g
    · exact absurd rfl hne
    · decide
  center_lt := fun g hg => hg
  center_onto := fun j hj => ⟨j, hj, rfl⟩
  center_coset := by
    intro g h hg hh
    simp only [groupCs] at hg hh
    interval_cases g <;> interval_cases h <;> decide

theorem nfunc_per_irrep_sum_witness :
    ∃ s, Shell.construct groupCs centerOffPlane 1 1 1 true false (fun _ => 1) (fun _ _ => 1)
        = .ok s ∧
      s.nfunc_per_irrep.sum = (getNFunc 1 true false : Int) * (centerOffPlane.ndegen : Int) :=
  nfunc_per_irrep_sum groupCs centerOffPlane (fun g h => (g + h) % 2) (fun g => g) 0 1 1 1
    true false (fun _ => 1) (fun _ _ => 1) symmetryData_Cs (by
      intro f hf g hg h hh
      have hf' : f < 3 := hf
      have hg' : g < 2 := hg
      have hh' : h < 2 := hh
      interval_cases f <;> interval_cases g <;> interval_cases h <;> decide)

/-- C1, as stated, fails for `C3v` with a center in general position
(`order = 6`, three irreps, `order % ndegen = 0`): the irrep loop runs to
`order`, every projection is non-zero because `order/ndegen = 1`, and at
`irrep = 3` the loop leaves the tables of `nirrep = 3` entries, so that no
vector `nfunc_per_irrep` with sum `nfunc * ndegen` is produced. -/
theorem nfunc_per_irrep_sum_fails_C3v :
    groupC3v.order % centerGeneral.ndegen = 0 ∧
    Shell.construct groupC3v centerGeneral 0 1 1 false false (fun _ => 1) (fun _ _ => 1)
      = .error .outOfBounds ∧
    ¬ ∃ s, Shell.construct groupC3v centerGeneral 0 1 1 false false (fun _ => 1) (fun _ _ => 1)
        = .ok s ∧
      s.nfunc_per_irrep.sum = (getNFunc 0 false false : Int) * (centerGeneral.ndegen : Int) := by
  have h1 : buildParity groupC3v 0 false false = .ok [[1, 1, 1, 1, 1, 1]] := by rfl
  have h2 : classify groupC3v centerGeneral (getNFunc 0 false false) [[1, 1, 1, 1, 1, 1]]
      = .error .outOfBounds := by rfl
  have h : Shell.construct groupC3v centerGeneral 0 1 1 false false (fun _ => 1) (fun _ _ => 1)
      = .error .outOfBounds := by
    simp only [Shell.construct, h1, h2, bind, Except.bind]
  refine ⟨by decide, h, ?_⟩
  rintro ⟨s, hs, _⟩
  rw [h] at hs
  cases hs

/-! ## C2, C3: the normalization loop -/

theorem PI2_N34_pos : 0 < PI2_N34 := by
  unfold PI2_N34; norm_num

theorem primitiveFactor_pos (L : Nat) {nprim : Nat} (exponents : Fin nprim → ℝ)
    (j : Fin nprim) (hj : 0 < exponents j) : 0 < primitiveFactor L exponents j := by
  unfold primitiveFactor
  exact mul_pos PI2_N34_pos (Real.rpow_pos_of_pos (by linarith) _)

/-- C2 (amended): for positive exponents and a contraction column of positive
norm, the coefficients left by the normalization loop carry, besides the
factor `1/sqrt(norm)`, the factor `PI2_N34 * (4 e_j)^((L+1.5)/2)` of each
primitive; once that factor is divided out, the pairwise formula gives
self-overlap `1`. -/
theorem normalized_self_overlap (L : Nat) {nprim ncontr : Nat} (exponents : Fin nprim → ℝ)
    (coeffs : Fin nprim → Fin ncontr → ℝ) (i : Fin ncontr)
    (hexp : ∀ j, 0 < exponents j)
    (hnorm : 0 < contractionNorm L exponents coeffs i) :
    ∑ j : Fin nprim, ∑ k : Fin nprim,
      (normalize L exponents coeffs j i / primitiveFactor L exponents j) *
      (normalize L exponents coeffs k i / primitiveFactor L exponents k) *
      pairOverlap L exponents j k = 1 := by
  have hs : Real.sqrt (contractionNorm L exponents coeffs i) ^ 2
      = contractionNorm L exponents coeffs i := Real.sq_sqrt (le_of_lt hnorm)
  have hs0 : Real.sqrt (contractionNorm L exponents coeffs i) ≠ 0 :=
    ne_of_gt (Real.sqrt_pos.mpr hnorm)
  have hdiv : ∀ j, normalize L exponents coeffs j i / primitiveFactor L exponents j
      = coeffs j i / Real.sqrt (contractionNorm L exponents coeffs i) := by
    intro j
    have hN : primitiveFactor L exponents j ≠ 0 :=
      ne_of_gt (primitiveFactor_pos L exponents j (hexp j))
    unfold normalize
    field_simp
    ring
  simp only [hdiv]
  have hterm : ∀ j k : Fin nprim,
      coeffs j i / Real.sqrt (contractionNorm L exponents coeffs i) *
        (coeffs k i / Real.sqrt (contractionNorm L exponents coeffs i)) *
        pairOverlap L exponents j k
      = (coeffs j i * coeffs k i * pairOverlap L exponents j k) /
        contractionNorm L exponents coeffs i := by
    intro j k
    rw [← hs]
    field_simp
  simp only [hterm]
  simp only [← Finset.sum_div]
  exact div_self (ne_of_gt hnorm)

theorem contractionNorm_example :
    contractionNorm 0 (fun _ : Fin 1 => (1 / 4 : ℝ)) (fun _ (_ : Fin 1) => (1 : ℝ)) 0 = 1 := by
  have h : Real.sqrt ((1 / 4 : ℝ) * (1 / 4)) = 1 / 4 := Real.sqrt_mul_self (by norm_num)
  simp only [contractionNorm, pairOverlap, Finset.univ_unique, Finset.sum_singleton, h]
  norm_num

theorem normalized_self_overlap_witness :
    ∑ j : Fin 1, ∑ k : Fin 1,
      (normalize 0 (fun _ : Fin 1 => (1 / 4 : ℝ)) (fun _ (_ : Fin 1) => (1 : ℝ)) j 0 /
        primitiveFactor 0 (fun _ : Fin 1 => (1 / 4 : ℝ)) j) *
      (normalize 0 (fun _ : Fin 1 => (1 / 4 : ℝ)) (fun _ (_ : Fin 1) => (1 : ℝ)) k 0 /
        primitiveFactor 0 (fun _ : Fin 1 => (1 / 4 : ℝ)) k) *
      pairOverlap 0 (fun _ : Fin 1 => (1 / 4 : ℝ)) j k = 1 :=
  normalized_self_overlap 0 (fun _ : Fin 1 => (1 / 4 : ℝ)) (fun _ (_ : Fin 1) => (1 : ℝ)) 0
    (fun _ => by norm_num) (by rw [contractionNorm_example]; norm_num)

/-- C2, as stated, fails: for one primitive with exponent `1/4` and coefficient
`1` in an `s` shell (positive exponent, norm `1`), the pairwise formula
evaluated on the rescaled coefficient gives `PI2_N34^2`, which is not `1`. -/
theorem rescaled_self_overlap_ne_one :
    (∀ j : Fin 1, 0 < (fun _ : Fin 1 => (1 / 4 : ℝ)) j) ∧
    0 < contractionNorm 0 (fun _ : Fin 1 => (1 / 4 : ℝ)) (fun _ (_ : Fin 1) => (1 : ℝ)) 0 ∧
    contractionNorm 0 (fun _ : Fin 1 => (1 / 4 : ℝ))
      (normalize 0 (fun _ : Fin 1 => (1 / 4 : ℝ)) (fun _ (_ : Fin 1) => (1 : ℝ))) 0
        = PI2_N34 ^ 2 ∧
    contractionNorm 0 (fun _ : Fin 1 => (1 / 4 : ℝ))
      (normalize 0 (fun _ : Fin 1 => (1 / 4 : ℝ)) (fun _ (_ : Fin 1) => (1 : ℝ))) 0 ≠ 1 := by
  have h : Real.sqrt ((1 / 4 : ℝ) * (1 / 4)) = 1 / 4 := Real.sqrt_mul_self (by norm_num)
  have hval : contractionNorm 0 (fun _ : Fin 1 => (1 / 4 : ℝ))
      (normalize 0 (fun _ : Fin 1 => (1 / 4 : ℝ)) (fun _ (_ : Fin 1) => (1 : ℝ))) 0
        = PI2_N34 ^ 2 := by
    have hn := contractionNorm_example
    simp only [contractionNorm, Finset.univ_unique, Finset.sum_singleton] at hn ⊢
    simp only [normalize, contractionNorm, Finset.univ_unique, Finset.sum_singleton, hn,
      primitiveFactor]
    simp only [pairOverlap, h]
    norm_num
    ring
  refine ⟨fun _ => by norm_num, by rw [contractionNorm_example]; norm_num, hval, ?_⟩
  rw [hval]
  have h1 : PI2_N34 < 1 := by unfold PI2_N34; norm_num
  have h0 := PI2_N34_pos
  nlinarith

/-- C3 (amended): a contraction column of norm `≤ 0` does not make the
constructor abort.  The normalization loop contains no check: the constructor
returns for these coefficients exactly when it returns for any other
exponents and coefficients, and with the same parity table, classification
tables and `cart2spher`. -/
theorem degenerate_norm_does_not_abort (G : PointGroup) (C : Center) (L nprim ncontr : Nat)
    (spherical keep : Bool) (exponents exponents' : Fin nprim → ℝ)
    (coeffs coeffs' : Fin nprim → Fin ncontr → ℝ) (i : Fin ncontr)
    (_hnorm : contractionNorm L exponents coeffs i ≤ 0) (s' : Shell nprim ncontr)
    (hs' : Shell.construct G C L nprim ncontr spherical keep exponents' coeffs' = .ok s') :
    ∃ s, Shell.construct G C L nprim ncontr spherical keep exponents coeffs = .ok s ∧
      s.parity = s'.parity ∧ s.irreps = s'.irreps ∧ s.func_irrep = s'.func_irrep ∧
      s.irrep_pos = s'.irrep_pos ∧ s.nfunc_per_irrep = s'.nfunc_per_irrep ∧
      s.cart2spher = s'.cart2spher := by
  obtain ⟨P, cls, M, h1, h2, h3, rfl⟩ := construct_inv G C L nprim ncontr spherical keep
    exponents' coeffs' s' hs'
  exact ⟨_, construct_eq G C L nprim ncontr spherical keep exponents coeffs P cls M h1 h2 h3,
    rfl, rfl, rfl, rfl, rfl, rfl⟩

theorem construct_C1_s_shell (exponents : Fin 1 → ℝ) (coeffs : Fin 1 → Fin 1 → ℝ) :
    Shell.construct groupC1 centerAlone 0 1 1 false false exponents coeffs = .ok
      { L := 0, spherical := false, keep_contaminants := false, exponents := exponents,
        coefficients := normalize 0 exponents coeffs, parity := [[1]],
        irreps := [[0]], func_irrep := [[0]], irrep_pos := [[0]], nfunc_per_irrep := [1],
        cart2spher := [[1]] } := by
  have h1 : buildParity groupC1 0 false false = .ok [[1]] := by rfl
  have h2 : classify groupC1 centerAlone (getNFunc 0 false false) [[1]] = .ok
      { proj := [1], irreps := [[0]], func_irrep := [[0]], irrep_pos := [[0]],
        nfunc_per_irrep := [1] } := by rfl
  exact construct_eq _ _ _ _ _ _ _ _ _ _ _ _ h1 h2 (buildCart2spher_zero false false)

theorem contractionNorm_zero_coeffs :
    contractionNorm 0 (fun _ : Fin 1 => (1 : ℝ)) (fun _ (_ : Fin 1) => (0 : ℝ)) 0 = 0 := by
  simp [contractionNorm]

theorem degenerate_norm_does_not_abort_witness :
    ∃ s, Shell.construct groupC1 centerAlone 0 1 1 false false (fun _ => 1) (fun _ _ => 0)
        = .ok s ∧
      s.parity = [[1]] ∧ s.irreps = [[0]] ∧ s.func_irrep = [[0]] ∧
      s.irrep_pos = [[0]] ∧ s.nfunc_per_irrep = [1] ∧ s.cart2spher = [[1]] :=
  degenerate_norm_does_not_abort groupC1 centerAlone 0 1 1 false false (fun _ => 1) (fun _ => 1)
    (fun _ _ => 0) (fun _ _ => 1) 0 (le_of_eq contractionNorm_zero_coeffs) _
    (construct_C1_s_shell (fun _ => 1) (fun _ _ => 1))

/-- C3, as stated, fails: for a column whose coefficients are all zero (norm
`0`) the constructor does not end in an error; it returns a shell with its
derived tables. -/
theorem zero_column_returns_shell :
    contractionNorm 0 (fun _ : Fin 1 => (1 : ℝ)) (fun _ (_ : Fin 1) => (0 : ℝ)) 0 ≤ 0 ∧
    (∀ e, Shell.construct groupC1 centerAlone 0 1 1 false false (fun _ => 1) (fun _ _ => 0)
      ≠ .error e) ∧
    ∃ s, Shell.construct groupC1 centerAlone 0 1 1 false false (fun _ => 1) (fun _ _ => 0)
        = .ok s ∧
      s.parity = [[1]] ∧ s.irreps = [[0]] ∧ s.func_irrep = [[0]] ∧ s.irrep_pos = [[0]] ∧
      s.nfunc_per_irrep = [1] ∧ s.cart2spher = [[1]] := by
  refine ⟨le_of_eq contractionNorm_zero_coeffs, ?_, _, construct_C1_s_shell _ _,
    rfl, rfl, rfl, rfl, rfl, rfl⟩
  intro e h
  rw [construct_C1_s_shell] at h
  cases h

/-! ## C4: an orbit size that does not divide the order -/

/-- C4 (amended): when `order % ndegen ≠ 0` the constructor does not abort on
that account.  Provided the indices stay in range (`order ≤ nirrep`,
`ndegen ≤ order`, every image of the center below `order`), it runs to
completion with the truncated quotient `order/ndegen` and returns tables of
the declared sizes. -/
theorem no_abort_when_ndegen_does_not_divide (G : PointGroup) (C : Center)
    (L nprim ncontr : Nat) (spherical keep : Bool) (exponents : Fin nprim → ℝ)
    (coeffs : Fin nprim → Fin ncontr → ℝ)
    (_hmod : G.order % C.ndegen ≠ 0)
    (hdeg : C.ndegen ≤ G.order) (hirr : G.order ≤ G.nirrep)
    (hc : ∀ op, op < G.order → C.getCenterAfterOp op < G.order) :
    ∃ s, Shell.construct G C L nprim ncontr spherical keep exponents coeffs = .ok s ∧
      IsTable s.irreps (getNFunc L spherical keep) G.nirrep ∧
      IsTable s.func_irrep (getNFunc L spherical keep) G.nirrep ∧
      IsTable s.irrep_pos (getNFunc L spherical keep) G.nirrep ∧
      s.nfunc_per_irrep.length = G.nirrep ∧
      s.nfunc_per_irrep.sum = ∑ f in Finset.range (getNFunc L spherical keep),
        (classCount G C (parityEntry G L spherical keep f) G.order : Int) := by
  obtain ⟨s, hs, _, h1, h2, h3, h4, h5⟩ := construct_total G C L nprim ncontr spherical keep
    exponents coeffs hdeg hirr hc
  exact ⟨s, hs, h1, h2, h3, h4, h5⟩

theorem no_abort_when_ndegen_does_not_divide_witness :
    ∃ s, Shell.construct groupC2v centerThree 0 1 1 false false (fun _ => 1) (fun _ _ => 1)
        = .ok s ∧
      IsTable s.irreps (getNFunc 0 false false) groupC2v.nirrep ∧
      IsTable s.func_irrep (getNFunc 0 false false) groupC2v.nirrep ∧
      IsTable s.irrep_pos (getNFunc 0 false false) groupC2v.nirrep ∧
      s.nfunc_per_irrep.length = groupC2v.nirrep ∧
      s.nfunc_per_irrep.sum = ∑ f in Finset.range (getNFunc 0 false false),
        (classCount groupC2v centerThree (parityEntry groupC2v 0 false false f)
          groupC2v.order : Int) :=
  no_abort_when_ndegen_does_not_divide groupC2v centerThree 0 1 1 false false (fun _ => 1)
    (fun _ _ => 1) (by decide) (by decide) (by decide)
    (fun op hop => Nat.lt_of_lt_of_le (Nat.mod_lt op (by decide)) (by decide))

/-- C4, as stated, fails: for `C2v` data with an orbit of three centers
(`order % ndegen = 1`) the constructor returns classification tables. -/
theorem ndegen_not_dividing_yields_tables :
    groupC2v.order % centerThree.ndegen ≠ 0 ∧
    ∃ s, Shell.construct groupC2v centerThree 0 1 1 false false (fun _ => 1) (fun _ _ => 1)
        = .ok s ∧
      s.irreps = [[0, 1, 2, 3]] ∧ s.func_irrep = [[0, 0, 0, 0]] ∧
      s.irrep_pos = [[0, 1, 2, 3]] ∧ s.nfunc_per_irrep = [1, 1, 1, 1] := by
  have h1 : buildParity groupC2v 0 false false = .ok [[1, 1, 1, 1]] := by rfl
  have h2 : classify groupC2v centerThree (getNFunc 0 false false) [[1, 1, 1, 1]] = .ok
      { proj := [2, -1, -1, 0], irreps := [[0, 1, 2, 3]], func_irrep := [[0, 0, 0, 0]],
        irrep_pos := [[0, 1, 2, 3]], nfunc_per_irrep := [1, 1, 1, 1] } := by rfl
  obtain ⟨M, h3, _⟩ := buildCart2spher_ok 0 false false
  exact ⟨by decide, _, construct_eq _ _ _ _ _ _ _ _ _ _ _ _ h1 h2 h3, rfl, rfl, rfl, rfl⟩

/-! ## C5: the parity table -/

/-- C5: for every group, every `L` and both enumerations (spherical with or
without contaminants, Cartesian) the parity loop runs to completion and leaves
`-1` or `+1` in every entry `parity[f][op]` with `f < nfunc`, `op < order`; this
is the table every constructed shell holds. -/
theorem parity_entries_are_signs (G : PointGroup) (L : Nat) (spherical keep : Bool) :
    ∃ P, buildParity G L spherical keep = .ok P ∧
      IsTable P (getNFunc L spherical keep) G.order ∧
      (∀ f op, f < getNFunc L spherical keep → op < G.order →
        get2 P f op = some (-1) ∨ get2 P f op = some 1) ∧
      ∀ (C : Center) (nprim ncontr : Nat) (exponents : Fin nprim → ℝ)
        (coeffs : Fin nprim → Fin ncontr → ℝ) (s : Shell nprim ncontr),
        Shell.construct G C L nprim ncontr spherical keep exponents coeffs = .ok s →
          s.parity = P := by
  obtain ⟨P, hP, hT, hget⟩ := buildParity_spec G L spherical keep
  refine ⟨P, hP, hT, ?_, ?_⟩
  · intro f op hf hop
    rw [hget f op hf hop]
    rcases parityEntry_eq G L spherical keep f op hf with h | h
    · right; rw [h]
    · left; rw [h]
  · intro C nprim ncontr exponents coeffs s hs
    obtain ⟨P', cls, M, h1, _, _, rfl⟩ := construct_inv G C L nprim ncontr spherical keep
      exponents coeffs s hs
    rw [hP] at h1
    exact (Except.ok.inj h1).symm

/-! ## C6: shape of `cart2spher` -/

/-- C6: for every `L` the `cart2spher` loop runs to completion with a matrix of
`(L+1)(L+2)/2` rows and `nfunc` columns, which is the matrix every constructed
shell holds; for a non-spherical shell `nfunc = (L+1)(L+2)/2` and the matrix is
the identity. -/
theorem cart2spher_shape (L : Nat) (spherical keep : Bool) :
    ∃ M, buildCart2spher L spherical keep = .ok M ∧
      M.length = (L + 1) * (L + 2) / 2 ∧
      (∀ row ∈ M, row.length = getNFunc L spherical keep) ∧
      (spherical = false →
        getNFunc L spherical keep = (L + 1) * (L + 2) / 2 ∧
        ∀ r c, r < (L + 1) * (L + 2) / 2 → c < (L + 1) * (L + 2) / 2 →
          get2 M r c = some (if r = c then 1 else 0)) ∧
      ∀ (G : PointGroup) (C : Center) (nprim ncontr : Nat) (exponents : Fin nprim → ℝ)
        (coeffs : Fin nprim → Fin ncontr → ℝ) (s : Shell nprim ncontr),
        Shell.construct G C L nprim ncontr spherical keep exponents coeffs = .ok s →
          s.cart2spher = M := by
  obtain ⟨M, hM, hT⟩ := buildCart2spher_ok L spherical keep
  refine ⟨M, hM, hT.1, hT.2, ?_, ?_⟩
  · intro hsph
    subst hsph
    obtain ⟨M', hM', _, hget⟩ := buildCart2spher_cartesian L keep
    rw [hM] at hM'
    cases hM'
    exact ⟨by simp [getNFunc], hget⟩
  · intro G C nprim ncontr exponents coeffs s hs
    obtain ⟨P, cls, M', _, _, h3, rfl⟩ := construct_inv G C L nprim ncontr spherical keep
      exponents coeffs s hs
    rw [hM] at h3
    exact (Except.ok.inj h3).symm

/-! ## C7: `cartcoef` vanishes for odd `lx + ly - |m|` -/

/-- C7: `cartcoef(l, m, lx, ly, lz)` is `0` whenever `lx + ly - |m|` is odd,
whatever the sign of that difference. -/
theorem cartcoef_odd (l m lx ly lz : Int) (h : Odd (lx + ly - |m|)) :
    cartcoef l m lx ly lz = 0 := by
  have h1 : (lx + ly - |m|) % 2 = 1 := Int.odd_iff.mp h
  simp [cartcoef, h1]

theorem cartcoef_odd_witness :
    Odd ((0 : Int) + 0 - |1|) ∧ cartcoef 1 1 0 0 1 = 0 :=
  ⟨by decide, cartcoef_odd 1 1 0 0 1 (by decide)⟩

/-! ## C8: a spherical `p` shell in `C1` -/

theorem nonzeroValue_trivial (G : PointGroup) (C : Center) (par : Nat → Int)
    (hG : G.order = 1) (hC1 : C.ndegen = 1) (hC2 : C.getCenterAfterOp 0 = 0) :
    nonzeroValue G C par 0 = 1 := by
  unfold nonzeroValue projValue
  rw [hG, hC1]
  simp only [Finset.sum_range_one, hC2, if_true, Nat.div_self (Nat.lt_succ_self 0),
    Nat.cast_one, Int.tdiv_one]
  rcases sgn_eq (G.character 0 0 * par 0) with h | h <;> rw [h] <;> decide

theorem classifyFunc_trivial (G : PointGroup) (C : Center) (nfunc : Nat)
    (parity : List (List Int)) (par : Nat → Int) (func : Nat) (st : ClassState)
    (hG1 : G.order = 1) (hG2 : G.nirrep = 1) (hC1 : C.ndegen = 1)
    (hC2 : C.getCenterAfterOp 0 = 0)
    (hst : st.WellSized G nfunc) (hfunc : func < nfunc)
    (hpar : ∀ op, op < G.order → get2 parity func op = some (par op)) :
    ∃ st', classifyFunc G C parity st func = .ok st' ∧ st'.WellSized G nfunc ∧
      st'.irreps = set2 st.irreps func 0 0 ∧
      st'.func_irrep = set2 st.func_irrep func 0 (st.nfunc_per_irrep.getD 0 0) ∧
      st'.irrep_pos = set2 st.irrep_pos func 0 0 ∧
      st'.nfunc_per_irrep = st.nfunc_per_irrep.set 0 (st.nfunc_per_irrep.getD 0 0 + 1) := by
  obtain ⟨p, hp, hstep⟩ := classifyIrrep_spec G C nfunc parity par func 0 0 st hst
    (by omega) hfunc (by omega) (by omega) hpar
    (by intro op hop; have : op = 0 := by omega
        subst this; rw [hC2]; omega)
  rw [nonzeroValue_trivial G C par hG1 hC1 hC2, if_pos (by decide)] at hstep
  have hr : List.range 1 = [0] := rfl
  refine ⟨{ proj := p
            irreps := set2 st.irreps func 0 0
            func_irrep := set2 st.func_irrep func 0 (st.nfunc_per_irrep.getD 0 0)
            irrep_pos := set2 st.irrep_pos func 0 0
            nfunc_per_irrep := st.nfunc_per_irrep.set 0 (st.nfunc_per_irrep.getD 0 0 + 1) },
    ?_, ⟨hp, isTable_set2 _ _ _ hst.2.1, isTable_set2 _ _ _ hst.2.2.1,
    isTable_set2 _ _ _ hst.2.2.2.1, by simpa using hst.2.2.2.2⟩, rfl, rfl, rfl, rfl⟩
  simp only [classifyFunc, hG1, hr, List.foldlM_cons, List.foldlM_nil, hstep, bind,
    Except.bind, pure, Except.pure]
  rfl

/-- C8: for a spherical `L = 1` shell without contaminants in a group with one
operation and one irrep (`C1`) and an orbit of one center, `nfunc = 3`, the
constructor returns, each of the three functions is classified into irrep `0`
(`irreps[f][0] = 0`, `irrep_pos[f][0] = 0`, `func_irrep[f][0] = f`) and
`nfunc_per_irrep[0] = 3`. -/
theorem p_shell_in_C1 (G : PointGroup) (C : Center) (nprim ncontr : Nat)
    (exponents : Fin nprim → ℝ) (coeffs : Fin nprim → Fin ncontr → ℝ)
    (hG1 : G.order = 1) (hG2 : G.nirrep = 1) (hC1 : C.ndegen = 1)
    (hC2 : C.getCenterAfterOp 0 = 0) :
    getNFunc 1 true false = 3 ∧
    ∃ s, Shell.construct G C 1 nprim ncontr true false exponents coeffs = .ok s ∧
      s.irreps = [[0], [0], [0]] ∧ s.irrep_pos = [[0], [0], [0]] ∧
      s.func_irrep = [[0], [1], [2]] ∧ s.nfunc_per_irrep = [3] := by
  refine ⟨rfl, ?_⟩
  obtain ⟨P, hP, _, hget⟩ := buildParity_spec G 1 true false
  obtain ⟨M, hM, _⟩ := buildCart2spher_ok 1 true false
  have hn : getNFunc 1 true false = 3 := rfl
  rw [hn] at hget
  have h0 := wellSized_init G 3
  obtain ⟨s1, e1, h1, a1, b1, c1, d1⟩ := classifyFunc_trivial G C 3 P
    (parityEntry G 1 true false 0) 0 _ hG1 hG2 hC1 hC2 h0 (by decide)
    (fun op hop => hget 0 op (by decide) hop)
  obtain ⟨s2, e2, h2, a2, b2, c2, d2⟩ := classifyFunc_trivial G C 3 P
    (parityEntry G 1 true false 1) 1 s1 hG1 hG2 hC1 hC2 h1 (by decide)
    (fun op hop => hget 1 op (by decide) hop)
  obtain ⟨s3, e3, _, a3, b3, c3, d3⟩ := classifyFunc_trivial G C 3 P
    (parityEntry G 1 true false 2) 2 s2 hG1 hG2 hC1 hC2 h2 (by decide)
    (fun op hop => hget 2 op (by decide) hop)
  have hcls : classify G C (getNFunc 1 true false) P = .ok s3 := by
    rw [hn]
    simp only [classify, List.range_succ, List.range_zero, List.nil_append, List.cons_append,
      List.foldlM_cons, List.foldlM_nil, e1, e2, e3, bind, Except.bind, pure, Except.pure]
  refine ⟨_, construct_eq G C 1 nprim ncontr true false exponents coeffs P s3 M hP hcls hM, ?_⟩
  simp only [a3, b3, c3, d3, a2, b2, c2, d2, a1, b1, c1, d1, ClassState.init, hG2]
  exact ⟨rfl, rfl, rfl, rfl⟩

theorem p_shell_in_C1_witness :
    getNFunc 1 true false = 3 ∧
    ∃ s, Shell.construct groupC1 centerAlone 1 1 1 true false (fun _ => 1) (fun _ _ => 1) = .ok s ∧
      s.irreps = [[0], [0], [0]] ∧ s.irrep_pos = [[0], [0], [0]] ∧
      s.func_irrep = [[0], [1], [2]] ∧ s.nfunc_per_irrep = [3] :=
  p_shell_in_C1 groupC1 centerAlone 1 1 (fun _ => 1) (fun _ _ => 1) rfl rfl rfl rfl

/-! ## C9: the `p` columns of `cart2spher` -/

/-- C9: over the reals `cartcoef(1,1,1,0,0)`, `cartcoef(1,-1,0,1,0)` and
`cartcoef(1,0,0,0,1)` are the same non-zero constant (namely `1`), and the
other two entries of each of the three `L = 1` columns are `0`: the columns in
the order `m = 1, -1, 0` are proportional to `x`, `y`, `z`. -/
theorem cartcoef_p_shell :
    ∃ c : ℝ, c ≠ 0 ∧
      cartcoef 1 1 1 0 0 = c ∧ cartcoef 1 (-1) 0 1 0 = c ∧ cartcoef 1 0 0 0 1 = c ∧
      cartcoef 1 1 0 1 0 = 0 ∧ cartcoef 1 1 0 0 1 = 0 ∧
      cartcoef 1 (-1) 1 0 0 = 0 ∧ cartcoef 1 (-1) 0 0 1 = 0 ∧
      cartcoef 1 0 1 0 0 = 0 ∧ cartcoef 1 0 0 1 0 = 0 := by
  refine ⟨1, one_ne_zero, cartcoef_1_1_x, cartcoef_1_m1_y, cartcoef_1_0_z, ?_, ?_, ?_, ?_, ?_, ?_⟩
  · have e1 : ((0 : Int) + 1 - |1|) % 2 ≠ 1 := by decide
    have e2 : (|(1 : Int)| - 0) % 2 = 1 := by decide
    simp only [cartcoef, if_neg e1, if_pos (show (0 : Int) ≤ 1 by decide), if_pos e2]
  · have e1 : ((0 : Int) + 0 - |1|) % 2 = 1 := by decide
    simp only [cartcoef, if_pos e1]
  · have e1 : ((1 : Int) + 0 - |(-1)|) % 2 ≠ 1 := by decide
    have e2 : ¬ (0 : Int) ≤ -1 := by decide
    have e3 : (|(-1 : Int)| - 1) % 2 = 0 := by decide
    simp only [cartcoef, if_neg e1, if_neg e2, if_pos e3]
  · have e1 : ((0 : Int) + 0 - |(-1)|) % 2 = 1 := by decide
    simp only [cartcoef, if_pos e1]
  · have e1 : ((1 : Int) + 0 - |0|) % 2 = 1 := by decide
    simp only [cartcoef, if_pos e1]
  · have e1 : ((0 : Int) + 1 - |0|) % 2 = 1 := by decide
    simp only [cartcoef, if_pos e1]

/-! ## C10: the `s` shell -/

/-- C10: for `L = 0`, any point group, spherical or not and with or without
contaminants, `nfunc = 1` and `cart2spher` is the matrix `[[1.0]]` (in the
spherical case its entry is `cartcoef(0,0,0,0,0) = 1`). -/
theorem s_shell (spherical keep : Bool) :
    getNFunc 0 spherical keep = 1 ∧ cartcoef 0 0 0 0 0 = 1 ∧
    buildCart2spher 0 spherical keep = .ok [[1]] ∧
    ∀ (G : PointGroup) (C : Center) (nprim ncontr : Nat) (exponents : Fin nprim → ℝ)
      (coeffs : Fin nprim → Fin ncontr → ℝ) (s : Shell nprim ncontr),
      Shell.construct G C 0 nprim ncontr spherical keep exponents coeffs = .ok s →
        s.cart2spher = [[1]] := by
  refine ⟨by cases spherical <;> cases keep <;> rfl, cartcoef_0_0_s,
    buildCart2spher_zero spherical keep, ?_⟩
  intro G C nprim ncontr exponents coeffs s hs
  obtain ⟨P, cls, M, _, _, h3, rfl⟩ := construct_inv G C 0 nprim ncontr spherical keep
    exponents coeffs s hs
  rw [buildCart2spher_zero] at h3
  exact (Except.ok.inj h3).symm

/-! ## C11: the `d` shell with contaminants -/

/-- C11: for a spherical `L = 2` shell with contaminants `nfunc = 6 =
(L+1)(L+2)/2`; the spherical branch returns a `6 x 6` matrix whose entry in row
`cf` (`xx, xy, xz, yy, yz, zz`) and column `sf` (`(l, m) = (2,2), (2,-2), (2,1),
(2,-1), (2,0), (0,0)`) is `cartcoef(l, m, x, y, z)`, and over the reals the
determinant of that matrix is not zero. -/
theorem d_shell_invertible :
    getNFunc 2 true true = 6 ∧ (2 + 1) * (2 + 2) / 2 = 6 ∧
    sphericalOrder 2 true = [(2, 2), (2, -2), (2, 1), (2, -1), (2, 0), (0, 0)] ∧
    cartesianOrder 2 = [(2, 0, 0), (1, 1, 0), (1, 0, 1), (0, 2, 0), (0, 1, 1), (0, 0, 2)] ∧
    ∃ T, buildCart2spher 2 true true = .ok T ∧ IsTable T 6 6 ∧
      (∀ cf sf : Fin 6, get2 T cf.val sf.val = some (dShellMatrix cf sf)) ∧
      (∀ cf sf : Fin 6, dShellMatrix cf sf = cart2spherEntry 2 true cf.val sf.val) ∧
      dShellMatrix = dShellValues ∧
      dShellMatrix.det ≠ 0 := by
  refine ⟨rfl, rfl, sphericalOrder_d, cartesianOrder_d, ?_⟩
  obtain ⟨T, hT, hshape, hget⟩ := buildCart2spher_spherical 2 true
  refine ⟨T, hT, hshape, ?_, fun _ _ => rfl, dShellMatrix_eq, dShellMatrix_det_ne_zero⟩
  intro cf sf
  exact hget cf.val sf.val cf.isLt sf.isLt

/-! ## C12: the number of spherical columns -/

theorem sum_lDescend (L : Nat) :
    ((lDescend L).map (fun l => 2 * l + 1)).sum = (L + 1) * (L + 2) / 2 := by
  have key : ∀ L, 2 * ((lDescend L).map (fun l => 2 * l + 1)).sum = (L + 1) * (L + 2) := by
    intro L
    induction L using Nat.strong_induction_on with
    | _ L ih =>
      match L with
      | 0 => rfl
      | 1 => rfl
      | L + 2 =>
        have h := ih L (by omega)
        simp only [lDescend, List.map_cons, List.sum_cons] at h ⊢
        nlinarith [h]
  have h := key L
  omega

/-- C12: for every `L` and either value of `keep_contaminants` the column
counter `sf` of the spherical branch ends at `nfunc`, so that the assertion
`sf == nfunc` holds and the branch returns: `sf = 2L+1` without contaminants
and `sf = sum of (2l+1) over l = L, L-2, ... = (L+1)(L+2)/2` with them; the
spherical parity enumeration of every operation ends at the same count. -/
theorem spherical_column_count (L : Nat) (keep : Bool) :
    (∃ t, countedFor (fun t sf (lm : Nat × Int) => fillColumn L lm.1 lm.2 t sf)
        (sphericalOrder L keep)
        (resize2 ((L + 1) * (L + 2) / 2) (getNFunc L true keep) (0 : ℝ)) 0
          = .ok (t, getNFunc L true keep)) ∧
    (∃ M, buildCart2spher L true keep = .ok M) ∧
    getNFunc L true false = 2 * L + 1 ∧
    getNFunc L true true = ((lDescend L).map (fun l => 2 * l + 1)).sum ∧
    getNFunc L true true = (L + 1) * (L + 2) / 2 ∧
    ∀ (G : PointGroup) (parity : List (List Int)) (op : Nat),
      IsTable parity (getNFunc L true keep) G.order → op < G.order →
      ∃ t, countedFor
          (fun t f (lm : Nat × Int) => write2 t f op (sgn (G.sphericalParity lm.1 lm.2 op)))
          (sphericalOrder L keep) parity 0 = .ok (t, getNFunc L true keep) := by
  have hlen := length_sphericalOrder L keep
  refine ⟨?_, ?_, rfl, ?_, rfl, ?_⟩
  · obtain ⟨t, h, _, _⟩ := countedFor_fill L (getNFunc L true keep) (sphericalOrder L keep)
      (resize2 ((L + 1) * (L + 2) / 2) (getNFunc L true keep) (0 : ℝ)) 0
      (isTable_resize2 _ _ _) (by omega)
    refine ⟨t, ?_⟩
    rw [h, hlen, Nat.zero_add]
  · obtain ⟨M, h, _⟩ := buildCart2spher_ok L true keep
    exact ⟨M, h⟩
  · rw [sum_lDescend]; rfl
  · intro G parity op ht hop
    obtain ⟨t, h, _, _⟩ := countedFor_column
      (fun lm : Nat × Int => sgn (G.sphericalParity lm.1 lm.2 op)) op _ _ hop
      (sphericalOrder L keep) parity 0 ht (by omega)
    refine ⟨t, ?_⟩
    rw [h, hlen, Nat.zero_add]

/-! ## C13: positions of the functions within an irrep -/

/-- C13: when the indices of the classification loop stay in range
(`order ≤ nirrep`, `ndegen ≤ order`, images of the center below `order`), the
constructor returns and, for every irrep `r`: `nfunc_per_irrep[r]` is the number
of functions classified under `r`; for a function `f` classified under `r`,
`func_irrep[f][irrep_pos[f][r]]` is the number of earlier functions classified
under `r`; these values increase strictly with `f` (so they are pairwise
distinct), lie below `nfunc_per_irrep[r]`, and every value below
`nfunc_per_irrep[r]` occurs. -/
theorem func_irrep_enumerates (G : PointGroup) (C : Center) (L nprim ncontr : Nat)
    (spherical keep : Bool) (exponents : Fin nprim → ℝ) (coeffs : Fin nprim → Fin ncontr → ℝ)
    (hdeg : C.ndegen ≤ G.order) (hirr : G.order ≤ G.nirrep)
    (hc : ∀ op, op < G.order → C.getCenterAfterOp op < G.order) :
    ∃ s, Shell.construct G C L nprim ncontr spherical keep exponents coeffs = .ok s ∧
      ∀ r, r < G.nirrep →
        s.nfunc_per_irrep[r]? = some
          (funcCount G C (parityEntry G L spherical keep) r (getNFunc L spherical keep) : Int) ∧
        (∀ f, f < getNFunc L spherical keep → r < G.order →
          0 < nonzeroValue G C (parityEntry G L spherical keep f) r →
          ∃ slot : Nat, get2 s.irrep_pos f r = some (slot : Int) ∧
            get2 s.func_irrep f slot =
              some (funcCount G C (parityEntry G L spherical keep) r f : Int) ∧
            funcCount G C (parityEntry G L spherical keep) r f <
              funcCount G C (parityEntry G L spherical keep) r (getNFunc L spherical keep)) ∧
        (∀ f f', f < f' → f' < getNFunc L spherical keep → r < G.order →
          0 < nonzeroValue G C (parityEntry G L spherical keep f) r →
          0 < nonzeroValue G C (parityEntry G L spherical keep f') r →
          funcCount G C (parityEntry G L spherical keep) r f <
            funcCount G C (parityEntry G L spherical keep) r f') ∧
        (∀ v, v < funcCount G C (parityEntry G L spherical keep) r
            (getNFunc L spherical keep) →
          ∃ f, f < getNFunc L spherical keep ∧ r < G.order ∧
            0 < nonzeroValue G C (parityEntry G L spherical keep f) r ∧
            funcCount G C (parityEntry G L spherical keep) r f = v) := by
  obtain ⟨s, hs, hrec, hnpi, hlen⟩ := construct_records G C L nprim ncontr spherical keep
    exponents coeffs hdeg hirr hc
  refine ⟨s, hs, ?_⟩
  intro r hr
  refine ⟨?_, ?_, ?_, ?_⟩
  · have h := hnpi r hr
    rw [List.getD_eq_getElem _ _ (by omega)] at h
    rw [List.getElem?_eq_getElem (by omega), h]
  · intro f hf hro hcl
    obtain ⟨h1, _, h3⟩ := hrec f r hf hro hcl
    exact ⟨_, h1, h3, funcCount_lt G C _ r hf ⟨hro, hcl⟩⟩
  · intro f f' hff' _ hro hcl _
    exact funcCount_lt G C _ r hff' ⟨hro, hcl⟩
  · intro v hv
    obtain ⟨f, hf, hcl, he⟩ := funcCount_onto G C _ r _ v hv
    exact ⟨f, hf, hcl.1, hcl.2, he⟩

theorem func_irrep_enumerates_witness :
    ∃ s, Shell.construct groupCs centerOffPlane 1 1 1 true false (fun _ => 1) (fun _ _ => 1)
        = .ok s ∧
      ∀ r, r < groupCs.nirrep →
        s.nfunc_per_irrep[r]? = some
          (funcCount groupCs centerOffPlane (parityEntry groupCs 1 true false) r
            (getNFunc 1 true false) : Int) ∧
        (∀ f, f < getNFunc 1 true false → r < groupCs.order →
          0 < nonzeroValue groupCs centerOffPlane (parityEntry groupCs 1 true false f) r →
          ∃ slot : Nat, get2 s.irrep_pos f r = some (slot : Int) ∧
            get2 s.func_irrep f slot =
              some (funcCount groupCs centerOffPlane (parityEntry groupCs 1 true false) r f : Int) ∧
            funcCount groupCs centerOffPlane (parityEntry groupCs 1 true false) r f <
              funcCount groupCs centerOffPlane (parityEntry groupCs 1 true false) r
                (getNFunc 1 true false)) ∧
        (∀ f f', f < f' → f' < getNFunc 1 true false → r < groupCs.order →
          0 < nonzeroValue groupCs centerOffPlane (parityEntry groupCs 1 true false f) r →
          0 < nonzeroValue groupCs centerOffPlane (parityEntry groupCs 1 true false f') r →
          funcCount groupCs centerOffPlane (parityEntry groupCs 1 true false) r f <
            funcCount groupCs centerOffPlane (parityEntry groupCs 1 true false) r f') ∧
        (∀ v, v < funcCount groupCs centerOffPlane (parityEntry groupCs 1 true false) r
            (getNFunc 1 true false) →
          ∃ f, f < getNFunc 1 true false ∧ r < groupCs.order ∧
            0 < nonzeroValue groupCs centerOffPlane (parityEntry groupCs 1 true false f) r ∧
            funcCount groupCs centerOffPlane (parityEntry groupCs 1 true false) r f = v) :=
  func_irrep_enumerates groupCs centerOffPlane 1 1 1 true false (fun _ => 1) (fun _ _ => 1)
    (by decide) (by decide) (fun _ hop => hop)

/-! ## C14: the irreps recorded for a function -/

/-- C14: when the indices of the classification loop stay in range, the
constructor returns and for every function `f`: the irreps under which `f` is
classified are exactly the `irrep < order` for which the sum of `|proj[j]|`
after the integer division is non-zero; listed in increasing order they are
`irreps[f][0], irreps[f][1], ...`, strictly increasing; their number is the
final value of the slot counter; and `irrep_pos[f][irreps[f][slot]] = slot` for
every slot below that number. -/
theorem irreps_of_function (G : PointGroup) (C : Center) (L nprim ncontr : Nat)
    (spherical keep : Bool) (exponents : Fin nprim → ℝ) (coeffs : Fin nprim → Fin ncontr → ℝ)
    (hdeg : C.ndegen ≤ G.order) (hirr : G.order ≤ G.nirrep)
    (hc : ∀ op, op < G.order → C.getCenterAfterOp op < G.order) :
    ∃ s, Shell.construct G C L nprim ncontr spherical keep exponents coeffs = .ok s ∧
      ∀ f, f < getNFunc L spherical keep →
        (∀ r, r ∈ classifiedIrreps G C (parityEntry G L spherical keep f) ↔
          r < G.order ∧ nonzeroValue G C (parityEntry G L spherical keep f) r ≠ 0) ∧
        (classifiedIrreps G C (parityEntry G L spherical keep f)).Pairwise (· < ·) ∧
        (∀ st : ClassState, st.WellSized G (getNFunc L spherical keep) →
          ∃ st', (List.range G.order).foldlM (classifyIrrep G C s.parity f) (st, 0) =
            .ok (st', (classifiedIrreps G C (parityEntry G L spherical keep f)).length)) ∧
        ∀ (slot r : Nat), (classifiedIrreps G C (parityEntry G L spherical keep f))[slot]? = some r →
          get2 s.irreps f slot = some (r : Int) ∧
          get2 s.irrep_pos f r = some (slot : Int) := by
  obtain ⟨s, hs, hrec, _, _⟩ := construct_records G C L nprim ncontr spherical keep
    exponents coeffs hdeg hirr hc
  refine ⟨s, hs, ?_⟩
  intro f hf
  refine ⟨?_, ?_, ?_, ?_⟩
  · intro r
    have h0 := nonzeroValue_nonneg G C (parityEntry G L spherical keep f) r
    simp only [classifiedIrreps, List.mem_filter, List.mem_range, decide_eq_true_eq]
    constructor
    · rintro ⟨h1, h2⟩; exact ⟨h1, by omega⟩
    · rintro ⟨h1, h2⟩; exact ⟨h1, by omega⟩
  · exact List.Pairwise.filter _ (List.pairwise_lt_range _)
  · intro st hst
    obtain ⟨P, cls, M, hP, _, _, rfl⟩ := construct_inv G C L nprim ncontr spherical keep
      exponents coeffs s hs
    obtain ⟨P', hP', _, hget⟩ := buildParity_spec G L spherical keep
    rw [hP] at hP'
    cases hP'
    obtain ⟨st', h, _, _⟩ := classifyFunc_loop G C (getNFunc L spherical keep) P
      (parityEntry G L spherical keep f) f st hst hdeg hirr hf
      (fun op hop => hget f op hf hop) hc G.order (le_refl _)
    refine ⟨st', ?_⟩
    rw [h, classCount_eq_length]
    rfl
  · intro slot r hslot
    obtain ⟨h1, h2, h3⟩ := filter_range_getElem? _ G.order slot r hslot
    have hcl : 0 < nonzeroValue G C (parityEntry G L spherical keep f) r := by
      simpa using h1
    have hcount : classCount G C (parityEntry G L spherical keep f) r = slot := by
      rw [classCount_eq_length]; exact h3
    obtain ⟨e1, e2, _⟩ := hrec f r hf h2 hcl
    rw [hcount] at e1 e2
    exact ⟨e2, e1⟩

theorem irreps_of_function_witness :
    ∃ s, Shell.construct groupCs centerOffPlane 1 1 1 true false (fun _ => 1) (fun _ _ => 1)
        = .ok s ∧
      ∀ f, f < getNFunc 1 true false →
        (∀ r, r ∈ classifiedIrreps groupCs centerOffPlane (parityEntry groupCs 1 true false f) ↔
          r < groupCs.order ∧
            nonzeroValue groupCs centerOffPlane (parityEntry groupCs 1 true false f) r ≠ 0) ∧
        (classifiedIrreps groupCs centerOffPlane
          (parityEntry groupCs 1 true false f)).Pairwise (· < ·) ∧
        (∀ st : ClassState, st.WellSized groupCs (getNFunc 1 true false) →
          ∃ st', (List.range groupCs.order).foldlM
              (classifyIrrep groupCs centerOffPlane s.parity f) (st, 0) =
            .ok (st', (classifiedIrreps groupCs centerOffPlane
              (parityEntry groupCs 1 true false f)).length)) ∧
        ∀ (slot r : Nat), (classifiedIrreps groupCs centerOffPlane
            (parityEntry groupCs 1 true false f))[slot]? = some r →
          get2 s.irreps f slot = some (r : Int) ∧
          get2 s.irrep_pos f r = some (slot : Int) :=
  irreps_of_function groupCs centerOffPlane 1 1 1 true false (fun _ => 1) (fun _ _ => 1)
    (by decide) (by decide) (fun _ hop => hop)

/-! ## C15: exactness of the division by `order/ndegen` -/

/-- C15 (amended): for well-formed symmetry input in which every irrep is
one-dimensional with characters `+1` or `-1` (`SymmetryData`, which entails
`order % ndegen = 0`) and parity rows that are multiplicative, every slot
`proj[j]`, `j < ndegen`, holds after the accumulation loop a multiple of
`order/ndegen`, for every function and every irrep and whatever `proj` held
before; the division of line 90 then leaves no remainder. -/
theorem projection_divisible (G : PointGroup) (C : Center) (mul : Nat → Nat → Nat)
    (inv : Nat → Nat) (e : Nat) (L : Nat) (spherical keep : Bool)
    (hd : SymmetryData G C mul inv e)
    (hp : ∀ f, f < getNFunc L spherical keep → ∀ g, g < G.order → ∀ h, h < G.order →
      parityEntry G L spherical keep f (mul g h) =
        parityEntry G L spherical keep f g * parityEntry G L spherical keep f h) :
    G.order % C.ndegen = 0 ∧
    ∃ P, buildParity G L spherical keep = .ok P ∧
      ∀ (proj : List Int) (f irrep : Nat), proj.length = G.order →
        f < getNFunc L spherical keep → irrep < G.order →
        ∃ p0 p1, projReset C proj = .ok p0 ∧ projAccumulate G C P f irrep p0 = .ok p1 ∧
          ∀ j, j < C.ndegen → ∃ v, p1[j]? = some v ∧
            ((G.order / C.ndegen : Nat) : Int) ∣ v ∧
            Int.tdiv v ((G.order / C.ndegen : Nat) : Int) * ((G.order / C.ndegen : Nat) : Int)
              = v := by
  refine ⟨order_mod_ndegen hd, ?_⟩
  obtain ⟨P, hP, _, hget⟩ := buildParity_spec G L spherical keep
  refine ⟨P, hP, ?_⟩
  intro proj f irrep hlen hf hirrep
  have hdeg := ndegen_le_order hd
  obtain ⟨p0, h0, l0, v0⟩ := projReset_spec C proj (by omega)
  obtain ⟨p1, h1, l1, v1⟩ := projAccumulate_spec G C P (parityEntry G L spherical keep f) f
    irrep p0 (by rw [hd.nirrep_eq]; exact hirrep) (fun op hop => hget f op hf hop)
    (by intro op hop; rw [l0, hlen]
        exact Nat.lt_of_lt_of_le (hd.center_lt op hop) hdeg)
  refine ⟨p0, p1, h0, h1, ?_⟩
  intro j hj
  have hrow : IsParityRow G mul (parityEntry G L spherical keep f) :=
    ⟨fun g _ => parityEntry_eq G L spherical keep f g hf, fun g h hg hh => hp f hf g hg h hh⟩
  have hdiv : ((G.order / C.ndegen : Nat) : Int) ∣
      projValue G C (parityEntry G L spherical keep f) irrep j := by
    obtain ⟨g, hg, rfl⟩ := hd.center_onto j hj
    rw [projValue_center _ hd hrow irrep g hirrep hg, sum_stabilizer _ hd hrow irrep hirrep,
      order_div_ndegen hd]
    by_cases htriv : ∀ h ∈ stabilizer G C e,
        twisted G (parityEntry G L spherical keep f) irrep h = 1
    · rw [if_pos htriv]; exact Dvd.intro_left _ rfl
    · rw [if_neg htriv, mul_zero]; exact dvd_zero _
  refine ⟨_, v1 j (by omega), ?_, ?_⟩
  · rw [List.getD_eq_getElem?_getD, v0 j hj]
    simpa using hdiv
  · rw [List.getD_eq_getElem?_getD, v0 j hj]
    simp only [Option.getD_some, zero_add]
    exact Int.tdiv_mul_cancel hdiv

theorem projection_divisible_witness :
    groupCs.order % centerOffPlane.ndegen = 0 ∧
    ∃ P, buildParity groupCs 1 true false = .ok P ∧
      ∀ (proj : List Int) (f irrep : Nat), proj.length = groupCs.order →
        f < getNFunc 1 true false → irrep < groupCs.order →
        ∃ p0 p1, projReset centerOffPlane proj = .ok p0 ∧
          projAccumulate groupCs centerOffPlane P f irrep p0 = .ok p1 ∧
          ∀ j, j < centerOffPlane.ndegen → ∃ v, p1[j]? = some v ∧
            ((groupCs.order / centerOffPlane.ndegen : Nat) : Int) ∣ v ∧
            Int.tdiv v ((groupCs.order / centerOffPlane.ndegen : Nat) : Int) *
              ((groupCs.order / centerOffPlane.ndegen : Nat) : Int) = v :=
  projection_divisible groupCs centerOffPlane (fun g h => (g + h) % 2) (fun g => g) 0 1
    true false symmetryData_Cs (by
      intro f hf g hg h hh
      have hf' : f < 3 := hf
      have hg' : g < 2 := hg
      have hh' : h < 2 := hh
      interval_cases f <;> interval_cases g <;> interval_cases h <;> decide)

/-- C15, as stated, fails: for `C3v` and a center on the threefold axis
(`order = 6`, `ndegen = 1`, so `order % ndegen = 0`) the `s` function and the
irrep `E` (characters `2, -1, -1, 0, 0, 0`) give `proj[0] = 2` after the
accumulation loop, which is not a multiple of `order/ndegen = 6`; the division
truncates it to `0`. -/
theorem projection_not_divisible_C3v :
    groupC3v.order % centerOnAxis.ndegen = 0 ∧
    buildParity groupC3v 0 false false = .ok [[1, 1, 1, 1, 1, 1]] ∧
    projReset centerOnAxis (List.replicate groupC3v.order 0) = .ok [0, 0, 0, 0, 0, 0] ∧
    projAccumulate groupC3v centerOnAxis [[1, 1, 1, 1, 1, 1]] 0 2 [0, 0, 0, 0, 0, 0]
      = .ok [2, 0, 0, 0, 0, 0] ∧
    ¬ (((groupC3v.order / centerOnAxis.ndegen : Nat) : Int) ∣ 2) ∧
    Int.tdiv 2 ((groupC3v.order / centerOnAxis.ndegen : Nat) : Int) *
      ((groupC3v.order / centerOnAxis.ndegen : Nat) : Int) ≠ 2 ∧
    projDivide groupC3v centerOnAxis [2, 0, 0, 0, 0, 0] = .ok [0, 0, 0, 0, 0, 0] := by
  refine ⟨by decide, by rfl, by rfl, by rfl, by decide, by decide, by rfl⟩

/-! ## C16: one function under several irreps -/

/-- C16: there is an input for which one function is classified under more
than one irrep: for the group `Cs` (order 2, two irreps) and a center that the
reflection exchanges with the second center of its orbit, the `s` function is
classified under both irreps; its slot counter reaches `2` and
`irreps[0][0] = 0 ≠ 1 = irreps[0][1]`. -/
theorem function_in_two_irreps :
    classCount groupCs centerOffPlane (parityEntry groupCs 0 false false 0) groupCs.order = 2 ∧
    ∃ s, Shell.construct groupCs centerOffPlane 0 1 1 false false (fun _ => 1) (fun _ _ => 1)
        = .ok s ∧
      s.irreps = [[0, 1]] ∧ get2 s.irreps 0 0 = some 0 ∧ get2 s.irreps 0 1 = some 1 ∧
      get2 s.irreps 0 0 ≠ get2 s.irreps 0 1 ∧ s.irrep_pos = [[0, 1]] ∧
      s.nfunc_per_irrep = [1, 1] := by
  have h1 : buildParity groupCs 0 false false = .ok [[1, 1]] := by rfl
  have h2 : classify groupCs centerOffPlane (getNFunc 0 false false) [[1, 1]] = .ok
      { proj := [1, -1], irreps := [[0, 1]], func_irrep := [[0, 0]],
        irrep_pos := [[0, 1]], nfunc_per_irrep := [1, 1] } := by rfl
  refine ⟨by decide, _, construct_eq _ _ _ _ _ _ _ _ _ _ _ _ h1 h2
    (buildCart2spher_zero false false), rfl, rfl, rfl, by decide, rfl, rfl⟩

/-! ## C17: the indices of the classification loop -/

/-- C17: for every input with `nirrep = order`, `1 ≤ ndegen ≤ order`,
`order % ndegen = 0` and `getCenterAfterOp(op) < ndegen` for every operation,
the classification loop runs to completion without leaving any vector: every
checked access (`irrep_pos[func][irrep]`, `nfunc_per_irrep[irrep]`,
`character(irrep, op)`, `func_irrep[func][i]`, `irreps[func][i]`, `proj[...]`)
succeeds, the slot counter of every function stays at most `nirrep`, and the
divisor `order/ndegen` is not zero. -/
theorem classification_in_bounds (G : PointGroup) (C : Center) (L : Nat)
    (spherical keep : Bool)
    (hnirrep : G.nirrep = G.order) (hpos : 1 ≤ C.ndegen) (hdeg : C.ndegen ≤ G.order)
    (_hmod : G.order % C.ndegen = 0)
    (hc : ∀ op, op < G.order → C.getCenterAfterOp op < C.ndegen) :
    ∃ P st, buildParity G L spherical keep = .ok P ∧
      classify G C (getNFunc L spherical keep) P = .ok st ∧
      st.WellSized G (getNFunc L spherical keep) ∧
      (∀ f, f < getNFunc L spherical keep → ∀ irrep, irrep ≤ G.order →
        classCount G C (parityEntry G L spherical keep f) irrep ≤ irrep ∧
        (irrep < G.order →
          classCount G C (parityEntry G L spherical keep f) irrep < G.nirrep)) ∧
      G.order / C.ndegen ≠ 0 := by
  obtain ⟨P, hP, _, hget⟩ := buildParity_spec G L spherical keep
  obtain ⟨st, hst, hW, _⟩ := classify_spec G C (getNFunc L spherical keep) P
    (parityEntry G L spherical keep) hdeg (le_of_eq hnirrep.symm) hget
    (fun op hop => Nat.lt_of_lt_of_le (hc op hop) hdeg)
  refine ⟨P, st, hP, hst, hW, ?_, ?_⟩
  · intro f _ irrep _
    have h := classCount_le G C (parityEntry G L spherical keep f) irrep
    exact ⟨h, fun hlt => by omega⟩
  · have := Nat.div_pos hdeg (by omega : 0 < C.ndegen)
    omega

theorem classification_in_bounds_witness :
    ∃ P st, buildParity groupCs 1 true false = .ok P ∧
      classify groupCs centerOffPlane (getNFunc 1 true false) P = .ok st ∧
      st.WellSized groupCs (getNFunc 1 true false) ∧
      (∀ f, f < getNFunc 1 true false → ∀ irrep, irrep ≤ groupCs.order →
        classCount groupCs centerOffPlane (parityEntry groupCs 1 true false f) irrep ≤ irrep ∧
        (irrep < groupCs.order →
          classCount groupCs centerOffPlane (parityEntry groupCs 1 true false f) irrep
            < groupCs.nirrep)) ∧
      groupCs.order / centerOffPlane.ndegen ≠ 0 :=
  classification_in_bounds groupCs centerOffPlane 1 true false rfl (by decide) (by decide)
    (by decide) (fun _ hop => hop)

/-! ## C18: scaling a contraction column -/

theorem contractionNorm_scale (L : Nat) {nprim ncontr : Nat} (exponents : Fin nprim → ℝ)
    (coeffs scaled : Fin nprim → Fin ncontr → ℝ) (i : Fin ncontr) (lam : ℝ)
    (hscaled : ∀ j, scaled j i = lam * coeffs j i) :
    contractionNorm L exponents scaled i = lam ^ 2 * contractionNorm L exponents coeffs i := by
  unfold contractionNorm
  rw [Finset.mul_sum]
  apply Finset.sum_congr rfl
  intro j _
  rw [Finset.mul_sum]
  apply Finset.sum_congr rfl
  intro k _
  rw [hscaled j, hscaled k]
  ring

/-- C18: over the reals the normalization loop does not see a positive factor
of a contraction column: if column `i` of `scaled` is `lam` times column `i` of
`coeffs` and the norm of that column is positive, the rescaled coefficients of
column `i` agree when `lam > 0` and are opposite when `lam < 0`. -/
theorem normalize_scale (L : Nat) {nprim ncontr : Nat} (exponents : Fin nprim → ℝ)
    (coeffs scaled : Fin nprim → Fin ncontr → ℝ) (i : Fin ncontr) (lam : ℝ)
    (hscaled : ∀ j, scaled j i = lam * coeffs j i)
    (hnorm : 0 < contractionNorm L exponents coeffs i) :
    (0 < lam → ∀ j, normalize L exponents scaled j i = normalize L exponents coeffs j i) ∧
    (lam < 0 → ∀ j, normalize L exponents scaled j i = -normalize L exponents coeffs j i) := by
  have hn := contractionNorm_scale L exponents coeffs scaled i lam hscaled
  have h0 : Real.sqrt (contractionNorm L exponents coeffs i) ≠ 0 :=
    ne_of_gt (Real.sqrt_pos.mpr hnorm)
  constructor
  · intro hlam j
    have hs : Real.sqrt (lam ^ 2 * contractionNorm L exponents coeffs i)
        = lam * Real.sqrt (contractionNorm L exponents coeffs i) := by
      rw [Real.sqrt_mul (sq_nonneg lam), Real.sqrt_sq (le_of_lt hlam)]
    have hl : lam ≠ 0 := ne_of_gt hlam
    unfold normalize
    rw [hn, hs, hscaled j]
    field_simp
    ring
  · intro hlam j
    have hs : Real.sqrt (lam ^ 2 * contractionNorm L exponents coeffs i)
        = -lam * Real.sqrt (contractionNorm L exponents coeffs i) := by
      rw [Real.sqrt_mul (sq_nonneg lam), ← neg_sq, Real.sqrt_sq (by linarith)]
    have hl : lam ≠ 0 := ne_of_lt hlam
    unfold normalize
    rw [hn, hs, hscaled j]
    field_simp
    ring

theorem normalize_scale_witness :
    (∀ j : Fin 1,
      normalize 0 (fun _ : Fin 1 => (1 / 4 : ℝ)) (fun _ (_ : Fin 1) => (2 : ℝ)) j 0 =
        normalize 0 (fun _ : Fin 1 => (1 / 4 : ℝ)) (fun _ (_ : Fin 1) => (1 : ℝ)) j 0) ∧
    (∀ j : Fin 1,
      normalize 0 (fun _ : Fin 1 => (1 / 4 : ℝ)) (fun _ (_ : Fin 1) => (-2 : ℝ)) j 0 =
        -normalize 0 (fun _ : Fin 1 => (1 / 4 : ℝ)) (fun _ (_ : Fin 1) => (1 : ℝ)) j 0) :=
  ⟨(normalize_scale 0 (fun _ : Fin 1 => (1 / 4 : ℝ)) (fun _ (_ : Fin 1) => (1 : ℝ))
      (fun _ (_ : Fin 1) => (2 : ℝ)) 0 2 (fun _ => by norm_num)
      (by rw [contractionNorm_example]; norm_num)).1 (by norm_num),
   (normalize_scale 0 (fun _ : Fin 1 => (1 / 4 : ℝ)) (fun _ (_ : Fin 1) => (1 : ℝ))
      (fun _ (_ : Fin 1) => (-2 : ℝ)) 0 (-2) (fun _ => by norm_num)
      (by rw [contractionNorm_example]; norm_num)).2 (by norm_num)⟩

/-! ## C19: unpacking the packed index of a one-electron integral -/

theorem triangle_succ (n : Nat) : triangle (n + 1) = triangle n + (n + 1) := by
  unfold triangle
  have h : (n + 1) * (n + 1 + 1) = n * (n + 1) + 2 * (n + 1) := by ring
  rw [h, Nat.add_mul_div_left _ _ (by decide : 0 < 2)]

theorem unpackScan_spec (idx0 : Int) (k p : Nat)
    (hlo : (triangle p : Int) ≤ idx0) (hhi : idx0 < (triangle (p + k) : Int)) :
    ∃ p', unpackScan idx0 k p (triangle p) = (p', triangle p') ∧
      p ≤ p' ∧ p' < p + k ∧ (triangle p' : Int) ≤ idx0 ∧
      idx0 < (triangle (p' + 1) : Int) := by
  induction k generalizing p with
  | zero =>
    exfalso
    simp only [Nat.add_zero] at hhi
    omega
  | succ k ih =>
    have hs := triangle_succ p
    by_cases hbreak : (triangle p : Int) + (p : Int) + 1 > idx0
    · refine ⟨p, ?_, le_refl _, by omega, hlo, by omega⟩
      simp only [unpackScan, if_pos hbreak]
    · have hhi' : idx0 < (triangle (p + 1 + k) : Int) := by
        have e : p + 1 + k = p + (k + 1) := by omega
        rw [e]; exact hhi
      obtain ⟨p', h, h1, h2, h3, h4⟩ := ih (p + 1) (by omega) hhi'
      refine ⟨p', ?_, by omega, by omega, h3, h4⟩
      simp only [unpackScan, if_neg hbreak]
      rw [← hs]
      exact h

theorem unpackIndex_spec (N : Nat) (idx : Int) (h1 : 1 ≤ idx) (h2 : idx ≤ (triangle N : Int)) :
    ∃ p q : Nat, unpackIndex N idx = ((p : Int), (q : Int)) ∧ q ≤ p ∧ p < N ∧
      ((triangle p + q : Nat) : Int) = idx - 1 := by
  have h0 : triangle 0 = 0 := rfl
  obtain ⟨p, hp, _, hpN, hlo, hhi⟩ := unpackScan_spec (idx - 1) N 0
    (by rw [h0]; push_cast; omega) (by rw [Nat.zero_add]; omega)
  rw [h0] at hp
  have hs := triangle_succ p
  refine ⟨p, (idx - 1 - (triangle p : Int)).toNat, ?_, ?_, by omega, ?_⟩
  · simp only [unpackIndex, hp]
    rw [Int.toNat_of_nonneg (by omega)]
  · omega
  · rw [Nat.cast_add, Int.toNat_of_nonneg (by omega)]
    omega

/-- C19: for every packed index `idx` with `1 ≤ idx ≤ N(N+1)/2` (`N = N[0]`)
the unpacking loop yields `(p, q)` with `0 ≤ q ≤ p < N` and
`p(p+1)/2 + q = idx - 1`; the integral is stored at `p + q*N` and, only when
`p ≠ q`, also at `q + p*N`; distinct indices give distinct pairs.  For
`N ≤ 46340` the stored positions are below `2^31`, so the `int` arithmetic of
the source does not overflow. -/
theorem unpack_index (N : Nat) (idx : Int) (h1 : 1 ≤ idx)
    (h2 : idx ≤ ((N * (N + 1) / 2 : Nat) : Int)) :
    ∃ p q : Nat, unpackIndex N idx = ((p : Int), (q : Int)) ∧ q ≤ p ∧ p < N ∧
      ((p * (p + 1) / 2 + q : Nat) : Int) = idx - 1 ∧
      (∀ (α : Type) (v : α), unpackPairs N idx v =
        if p ≠ q then [((p : Int) + q * N, v), ((q : Int) + p * N, v)]
        else [((p : Int) + q * N, v)]) ∧
      (∀ idx' : Int, 1 ≤ idx' → idx' ≤ ((N * (N + 1) / 2 : Nat) : Int) →
        unpackIndex N idx' = unpackIndex N idx → idx' = idx) ∧
      (N ≤ 46340 → (p : Int) + q * N < 2 ^ 31 ∧ (q : Int) + p * N < 2 ^ 31) := by
  obtain ⟨p, q, hpq, hqp, hpN, hval⟩ := unpackIndex_spec N idx h1 h2
  refine ⟨p, q, hpq, hqp, hpN, hval, ?_, ?_, ?_⟩
  · intro α v
    simp only [unpackPairs, hpq]
    by_cases e : p = q
    · subst e; simp
    · have e' : (p : Int) ≠ (q : Int) := fun h => e (by exact_mod_cast h)
      simp [e, e']
  · intro idx' h1' h2' heq
    obtain ⟨p', q', hpq', _, _, hval'⟩ := unpackIndex_spec N idx' h1' h2'
    rw [hpq', hpq] at heq
    have e1 : (p' : Int) = p := congrArg Prod.fst heq
    have e2 : (q' : Int) = q := congrArg Prod.snd heq
    have e1' : p' = p := by exact_mod_cast e1
    have e2' : q' = q := by exact_mod_cast e2
    subst e1' e2'
    omega
  · intro hN
    have hb : (p : Int) + q * N < (N : Int) * N ∧ (q : Int) + p * N < (N : Int) * N := by
      have hp' : (p : Int) + 1 ≤ N := by exact_mod_cast hpN
      have hq' : (q : Int) ≤ p := by exact_mod_cast hqp
      have hq0 : (0 : Int) ≤ q := Int.natCast_nonneg q
      have hp0 : (0 : Int) ≤ p := Int.natCast_nonneg p
      constructor <;> nlinarith
    have hNN : (N : Int) * N ≤ 46340 * 46340 := by
      have hN' : (N : Int) ≤ 46340 := by exact_mod_cast hN
      have hN0 : (0 : Int) ≤ N := Int.natCast_nonneg N
      nlinarith
    constructor <;> omega

theorem unpack_index_witness :
    ∃ p q : Nat, unpackIndex 3 5 = ((p : Int), (q : Int)) ∧ q ≤ p ∧ p < 3 ∧
      ((p * (p + 1) / 2 + q : Nat) : Int) = 5 - 1 ∧
      (∀ (α : Type) (v : α), unpackPairs 3 5 v =
        if p ≠ q then [((p : Int) + q * (3 : Nat), v), ((q : Int) + p * (3 : Nat), v)]
        else [((p : Int) + q * (3 : Nat), v)]) ∧
      (∀ idx' : Int, 1 ≤ idx' → idx' ≤ ((3 * (3 + 1) / 2 : Nat) : Int) →
        unpackIndex 3 idx' = unpackIndex 3 5 → idx' = 5) ∧
      (3 ≤ 46340 → (p : Int) + q * (3 : Nat) < 2 ^ 31 ∧ (q : Int) + p * (3 : Nat) < 2 ^ 31) :=
  unpack_index 3 5 (by decide) (by decide)

end Aquarius
